import Mathlib

/-!
# Parallel bitonic sort: shallow embedding

The embedding follows `pthreads.c`.  `openmp.c` has the same `recBitonicSort` (size
test, budget test, the two branches, the fallback and the final merge), and
`exchange`, `compare`, `bitonicMerge`, `test` and the two comparators are the same in
all three source files.

The data array `a` of the C program is a `List Int`; indices `lo`, `cnt`, `i`, `j` are
natural numbers.  A read outside the array yields `0` and a write outside the array
is dropped; the statements below concern ranges inside the array.  The global
`activeThreads` is part of the state that is passed along, `maxThreads` is a
parameter.  In `recBitonicSort` the two worker threads created by a call are run one
after the other in program order (lower half first, then upper half); `sortPath`
records next to it the branch each call takes.  `stepThread` and `runSchedule` give
the same code one thread step at a time, with the budget test and the locked increment
as separate steps, for statements about interleavings.  `impBitonicSort` is the
network of `cilkPlus.c`, `impBitonicSort_openmp` that of `openmp.c`.  Signed 32-bit
arithmetic that can leave the `int` range is wrapped with `wrap32`.
-/

namespace BitonicSort

/-! ## Machine integers -/

/-- Two-complement wrap of an integer into the range of a 32-bit `int`. -/
def wrap32 (z : Int) : Int := (z + 2147483648) % 4294967296 - 2147483648

/-- Membership in the range of a 32-bit `int`. -/
def isInt32 (z : Int) : Prop := -2147483648 ≤ z ∧ z ≤ 2147483647

instance (z : Int) : Decidable (isInt32 z) := by
  unfold isInt32; infer_instance

/-- The constant `ASCENDING = 1` of the source. -/
def ASCENDING : Int := 1

/-- The constant `DESCENDING = 0` of the source. -/
def DESCENDING : Int := 0

/-! ## Comparators handed to the library sort -/

/-- Source: `return ( *(int*)a - *(int*)b );` with the subtraction on 32-bit ints. -/
def cmpfunc_ascending (x y : Int) : Int := wrap32 (x - y)

/-- Source: `return ( *(int*)b - *(int*)a );` with the subtraction on 32-bit ints. -/
def cmpfunc_descending (x y : Int) : Int := wrap32 (y - x)

/-- Modelled from the spec: the sequential range sort, which the source obtains from the
C library call `qsort(a + base, n, sizeof(int), cmp)` (the library is not part of the
repository).  The `n` cells starting at `base` are rearranged by a comparison sort
that places `x` before `y` when `cmp x y ≤ 0`; the cells outside the range are not
touched.  The routine is represented by insertion sort driven by the comparator that
the source passes. -/
def qsort (a : List Int) (base n : Nat) (cmp : Int → Int → Int) : List Int :=
  a.take base ++ ((a.drop base).take n).insertionSort (fun x y => cmp x y ≤ 0)
    ++ a.drop (base + n)

/-! ## Compare-exchange and bitonic merge -/

/-- Source: `t = a[i]; a[i] = a[j]; a[j] = t;`. -/
def exchange (a : List Int) (i j : Nat) : List Int :=
  let t := a.getD i 0
  let a1 := a.set i (a.getD j 0)
  a1.set j t

/-- The test of `compare`: `dir==(a[i]>a[j])`, where the C comparison yields `1`
or `0`. -/
def swapCond (a : List Int) (i j : Nat) (dir : Int) : Prop :=
  dir = (if a.getD i 0 > a.getD j 0 then 1 else 0)

instance (a : List Int) (i j : Nat) (dir : Int) : Decidable (swapCond a i j dir) := by
  unfold swapCond; infer_instance

/-- Source: `if (dir==(a[i]>a[j])) exchange(i,j);`. -/
def compare (a : List Int) (i j : Nat) (dir : Int) : List Int :=
  if swapCond a i j dir then exchange a i j else a

/-- The first `m` iterations of `for (i=lo; i<(lo+k); i++) compare(i, i+k, dir);`.
The whole loop is `compareLoop a k dir lo k`. -/
def compareLoop (a : List Int) (k : Nat) (dir : Int) (lo m : Nat) : List Int :=
  (List.range' lo m).foldl (fun b i => compare b i (i + k) dir) a

/-- Body of `bitonicMerge(lo, cnt, dir)` with a recursion budget `fuel`. -/
def bitonicMergeAux : Nat → Nat → Nat → Int → List Int → List Int
  | 0, _, _, _, a => a
  | fuel + 1, lo, cnt, dir, a =>
    if cnt > 1 then
      let k := cnt / 2
      let a1 := compareLoop a k dir lo k
      let a2 := bitonicMergeAux fuel lo k dir a1
      bitonicMergeAux fuel (lo + k) k dir a2
    else a

/-- Source `bitonicMerge(lo, cnt, dir)`; `cnt` halves at each level, so `cnt` levels
of recursion are always enough. -/
def bitonicMerge (lo cnt : Nat) (dir : Int) (a : List Int) : List Int :=
  bitonicMergeAux cnt lo cnt dir a

/-! ## The budgeted recursive sort -/

/-- Observable steps of `recBitonicSort`, recorded in execution order. -/
inductive Event where
  | active (v : Int)
  | create (lo cnt : Nat) (dir : Int)
  | seqSort (lo n : Nat) (ascending : Bool)
  deriving DecidableEq, Repr

/-- The mutable globals: the array, the counter `activeThreads`, and the record of
steps taken so far (`active v`: `activeThreads` was assigned `v`; `create lo cnt dir`:
`pthread_create` of `recBitonicSort` on `(lo, cnt, dir)`; `seqSort lo n asc`: a call
`qsort(a + lo, n, ...)` with the ascending or the descending comparator). -/
structure State where
  a : List Int
  activeThreads : Int
  log : List Event
  deriving DecidableEq, Repr

/-- Source: `qsort(a+lo, k, sizeof(int), cmpfunc_ascending);`
`qsort(a+lo+k, k, sizeof(int), cmpfunc_descending);`. -/
def seqSortHalves (lo k : Nat) (s : State) : State :=
  { s with
    a := qsort (qsort s.a lo k cmpfunc_ascending) (lo + k) k cmpfunc_descending
    log := s.log ++ [Event.seqSort lo k true, Event.seqSort (lo + k) k false] }

/-- Assignment to the global counter `activeThreads`. -/
def setActive (v : Int) (s : State) : State :=
  { s with activeThreads := v, log := s.log ++ [Event.active v] }

/-- Record of `pthread_create(..., recBitonicSort, (lo, cnt, dir))`. -/
def logCreate (lo cnt : Nat) (dir : Int) (s : State) : State :=
  { s with log := s.log ++ [Event.create lo cnt dir] }

/-- Body of `recBitonicSort` with a recursion budget `fuel`.  The pair computed first
is the state after the `if / else if` block together with the flag `parallel`. -/
def recBitonicSortAux (maxThreads : Int) : Nat → Nat → Nat → Int → State → State
  | 0, _, _, _, s => s
  | fuel + 1, lo, cnt, dir, s =>
    if cnt > 1 then
      let k := cnt / 2
      let r : State × Bool :=
        if (k : Int) - (lo : Int) > 100 then
          (seqSortHalves lo k s, false)
        else if s.activeThreads < wrap32 (maxThreads - 2) then
          let s1 := setActive (wrap32 (s.activeThreads + 2)) s
          let s2 := recBitonicSortAux maxThreads fuel lo k ASCENDING
            (logCreate lo k ASCENDING s1)
          let s3 := recBitonicSortAux maxThreads fuel (lo + k) k DESCENDING
            (logCreate (lo + k) k DESCENDING s2)
          (s3, true)
        else (s, false)
      let s4 :=
        if r.2 then setActive (wrap32 (r.1.activeThreads - 2)) r.1
        else seqSortHalves lo k r.1
      { s4 with a := bitonicMerge lo cnt dir s4.a }
    else s

/-- Source `recBitonicSort` on the range task `(lo, cnt, dir)`. -/
def recBitonicSort (maxThreads : Int) (lo cnt : Nat) (dir : Int) (s : State) : State :=
  recBitonicSortAux maxThreads cnt lo cnt dir s

/-- Source `sort()`: `recBitonicSort(0, N, ASCENDING)` where `N` is the array size. -/
def sort (maxThreads : Int) (s : State) : State :=
  recBitonicSort maxThreads 0 s.a.length ASCENDING s

/-- Globals at program start: the array, `activeThreads = 0`, nothing recorded. -/
def initState (a : List Int) : State := { a := a, activeThreads := 0, log := [] }

/-- Source `test()`: `pass &= (a[i-1] <= a[i])` for `i = 1 .. N-1`. -/
def test (a : List Int) : Bool :=
  (List.range' 1 (a.length - 1)).foldl
    (fun pass i => pass && decide (a.getD (i - 1) 0 ≤ a.getD i 0)) true

/-! ## Order predicates on index ranges -/

/-- The cells `[lo, hi)` of `a` are in non-decreasing order. -/
def NonDecr (a : List Int) (lo hi : Nat) : Prop :=
  ∀ j, j < hi → ∀ i, i ≤ j → lo ≤ i → a.getD i 0 ≤ a.getD j 0

/-- The cells `[lo, hi)` of `a` are in non-increasing order. -/
def NonIncr (a : List Int) (lo hi : Nat) : Prop :=
  ∀ j, j < hi → ∀ i, i ≤ j → lo ≤ i → a.getD j 0 ≤ a.getD i 0

/-- The range `[lo, lo+cnt)` is bitonic: non-decreasing then non-increasing, or
non-increasing then non-decreasing, with the turn at some index `m`. -/
def Bitonic (a : List Int) (lo cnt : Nat) : Prop :=
  ∃ m, lo ≤ m ∧ m ≤ lo + cnt ∧
    ((NonDecr a lo m ∧ NonIncr a m (lo + cnt)) ∨
      (NonIncr a lo m ∧ NonDecr a m (lo + cnt)))

instance (a : List Int) (lo hi : Nat) : Decidable (NonDecr a lo hi) := by
  unfold NonDecr; infer_instance

instance (a : List Int) (lo hi : Nat) : Decidable (NonIncr a lo hi) := by
  unfold NonIncr; infer_instance

/-- No comparator subtraction on two values of `a` leaves the 32-bit range. -/
def NoOverflow (a : List Int) : Prop :=
  ∀ x ∈ a, ∀ y ∈ a, isInt32 (x - y)

instance (a : List Int) : Decidable (NoOverflow a) := by
  unfold NoOverflow; infer_instance

/-! ## Auxiliary notions used in the proofs -/

/-- Value left at index `i` by `compare(i, j, dir)`. -/
def loVal (dir x y : Int) : Int := if dir = (if x > y then 1 else 0) then y else x

/-- Value left at index `j` by `compare(i, j, dir)`. -/
def hiVal (dir x y : Int) : Int := if dir = (if x > y then 1 else 0) then x else y

/-- Zero-one bitonic shape on `[lo, lo+cnt)`: the indices where `g` holds form an
interval, or the indices where `g` fails form an interval. -/
def Bit01 (g : Nat → Prop) (lo cnt : Nat) : Prop :=
  ∃ p q, (∀ i, lo ≤ i → i < lo + cnt → (g i ↔ (p ≤ i ∧ i < q))) ∨
    (∀ i, lo ≤ i → i < lo + cnt → (g i ↔ ¬ (p ≤ i ∧ i < q)))

/-- `V` is compatible with `compare(i, j, dir)`: it holds of the value left at `i`
iff it held of both values, and of the value left at `j` iff it held of one. -/
def Thresh (dir : Int) (V : Int → Prop) : Prop :=
  ∀ x y, (V (loVal dir x y) ↔ V x ∧ V y) ∧ (V (hiVal dir x y) ↔ V x ∨ V y)

/-- The final step of `recBitonicSort`: `bitonicMerge(lo, cnt, dir)` on the array. -/
def withMerge (lo cnt : Nat) (dir : Int) (s : State) : State :=
  { s with a := bitonicMerge lo cnt dir s.a }

/-- The state after the two worker threads of a successful split have finished. -/
def afterBranches (maxThreads : Int) (lo k : Nat) (s : State) : State :=
  recBitonicSort maxThreads (lo + k) k DESCENDING
    (logCreate (lo + k) k DESCENDING
      (recBitonicSort maxThreads lo k ASCENDING
        (logCreate lo k ASCENDING (setActive (wrap32 (s.activeThreads + 2)) s))))

/-! ## Configuration check of `main` -/

/-- The constant `MAX_THREADS` of the source. -/
def MAX_THREADS : Int := 256

/-- The constant `MIN_Q` of the source. -/
def MIN_Q : Int := 12

/-- The constant `MAX_Q` of the source. -/
def MAX_Q : Int := 24

/-- The constant `MIN_P` of the source. -/
def MIN_P : Nat := 0

/-- The constant `MAX_P` of the source. -/
def MAX_P : Nat := 8

/-- How `main` leaves its configuration check: `exit(code)`, or it goes on to allocate
and sort an array of `N` ints with the budget `maxThreads`. -/
inductive Outcome where
  | exit (code : Nat)
  | run (maxThreads : Int) (N : Nat)
  deriving DecidableEq, Repr

/-- Source `main` of `pthreads.c` and `openmp.c` from `p = atoi(argv[1])` to
`N = 1 << q`, for the exponents `p >= 0` and `q` read from the command line:
`maxThreads = 1 << p` (`pow(2,p)` in `pthreads.c`) as a 32-bit int;
`if (maxThreads < 1 || maxThreads > MAX_THREADS) exit(2)`;
`if (q < 12 || q > 24) exit(3)`; `N = 1 << q`. -/
def mainConfig (p : Nat) (q : Int) : Outcome :=
  let maxThreads : Int := wrap32 (2 ^ p)
  if maxThreads < 1 ∨ maxThreads > MAX_THREADS then Outcome.exit 2
  else if q < 12 ∨ q > 24 then Outcome.exit 3
  else Outcome.run maxThreads (2 ^ q.toNat)

/-! ## Bounds-checked variants

The same procedures with every array access checked against the array size: the
result is `none` as soon as an index outside `[0, N)` would be read or written. -/

/-- Source `exchange(i, j)`; reads and writes the cells `i` and `j`. -/
def exchangeChecked (a : List Int) (i j : Nat) : Option (List Int) :=
  if i < a.length ∧ j < a.length then some (exchange a i j) else none

/-- Source `compare(i, j, dir)`; reads the cells `i` and `j`, then may call
`exchange(i, j)`. -/
def compareChecked (a : List Int) (i j : Nat) (dir : Int) : Option (List Int) :=
  if i < a.length ∧ j < a.length then
    (if swapCond a i j dir then exchangeChecked a i j else some a)
  else none

/-- The first `m` iterations of `for (i=lo; i<(lo+k); i++) compare(i, i+k, dir);`. -/
def compareLoopChecked (a : List Int) (k : Nat) (dir : Int) (lo m : Nat) :
    Option (List Int) :=
  (List.range' lo m).foldlM (fun b i => compareChecked b i (i + k) dir) a

/-- Body of `bitonicMerge(lo, cnt, dir)` with a recursion budget `fuel`. -/
def bitonicMergeCheckedAux : Nat → Nat → Nat → Int → List Int → Option (List Int)
  | 0, _, _, _, a => some a
  | fuel + 1, lo, cnt, dir, a =>
    if cnt > 1 then
      (compareLoopChecked a (cnt / 2) dir lo (cnt / 2)).bind fun a1 =>
      (bitonicMergeCheckedAux fuel lo (cnt / 2) dir a1).bind fun a2 =>
      bitonicMergeCheckedAux fuel (lo + cnt / 2) (cnt / 2) dir a2
    else some a

/-- Source `bitonicMerge(lo, cnt, dir)`. -/
def bitonicMergeChecked (lo cnt : Nat) (dir : Int) (a : List Int) : Option (List Int) :=
  bitonicMergeCheckedAux cnt lo cnt dir a

/-- The library call `qsort(a + base, n, sizeof(int), cmp)`; it works on the cells
`base, ..., base + n - 1`. -/
def qsortChecked (a : List Int) (base n : Nat) (cmp : Int → Int → Int) :
    Option (List Int) :=
  if base + n ≤ a.length then some (qsort a base n cmp) else none

/-- The two library sorts of `recBitonicSort`. -/
def seqSortHalvesChecked (lo k : Nat) (s : State) : Option State :=
  (qsortChecked s.a lo k cmpfunc_ascending).bind fun a1 =>
  (qsortChecked a1 (lo + k) k cmpfunc_descending).bind fun a2 =>
  some { s with
    a := a2
    log := s.log ++ [Event.seqSort lo k true, Event.seqSort (lo + k) k false] }

/-- Body of `recBitonicSort` with a recursion budget `fuel`. -/
def recBitonicSortCheckedAux (maxThreads : Int) :
    Nat → Nat → Nat → Int → State → Option State
  | 0, _, _, _, s => some s
  | fuel + 1, lo, cnt, dir, s =>
    if cnt > 1 then
      let k := cnt / 2
      let r : Option (State × Bool) :=
        if (k : Int) - (lo : Int) > 100 then
          (seqSortHalvesChecked lo k s).bind fun s1 => some (s1, false)
        else if s.activeThreads < wrap32 (maxThreads - 2) then
          (recBitonicSortCheckedAux maxThreads fuel lo k ASCENDING
            (logCreate lo k ASCENDING (setActive (wrap32 (s.activeThreads + 2)) s))).bind
          fun s2 =>
          (recBitonicSortCheckedAux maxThreads fuel (lo + k) k DESCENDING
            (logCreate (lo + k) k DESCENDING s2)).bind
          fun s3 => some (s3, true)
        else some (s, false)
      r.bind fun r =>
      (if r.2 then some (setActive (wrap32 (r.1.activeThreads - 2)) r.1)
        else seqSortHalvesChecked lo k r.1).bind fun s4 =>
      (bitonicMergeChecked lo cnt dir s4.a).bind fun a' => some { s4 with a := a' }
    else some s

/-- Source `recBitonicSort` on the range task `(lo, cnt, dir)`. -/
def recBitonicSortChecked (maxThreads : Int) (lo cnt : Nat) (dir : Int) (s : State) :
    Option State :=
  recBitonicSortCheckedAux maxThreads cnt lo cnt dir s

/-- The buffers `a` and `b` have the same size and the same cells on `[lo, lo+cnt)`. -/
def SegEq (lo cnt : Nat) (a b : List Int) : Prop :=
  a.length = b.length ∧ ∀ n, lo ≤ n → n < lo + cnt → a.getD n 0 = b.getD n 0


/-! ## The imperative bitonic network (`impBitonicSort`) -/

/-- Body of the innermost loop of `impBitonicSort` at index `i`:
`int ij=i^j; if ((ij)>i) { if ((i&k)==0 && a[i] > a[ij]) exchange(i,ij);
if ((i&k)!=0 && a[i] < a[ij]) exchange(i,ij); }`. -/
def impBody (j k : Nat) (b : List Int) (i : Nat) : List Int :=
  let ij := i ^^^ j
  if ij > i then
    let b1 := if (i &&& k) = 0 ∧ b.getD i 0 > b.getD ij 0 then exchange b i ij else b
    if (i &&& k) ≠ 0 ∧ b1.getD i 0 < b1.getD ij 0 then exchange b1 i ij else b1
  else b

/-- The loop `for (i=0; i<N; i++)` of `impBitonicSort`, iterations in index
order. -/
def impInner (N j k : Nat) (a : List Int) : List Int :=
  (List.range N).foldl (impBody j k) a

/-- The loop `for (j=k>>1; j>0; j=j>>1)` from the current `j`.  The first
argument is a fuel; `j` halves each round, so the loop is over before a fuel
of `j` is used up. -/
def impJLoop (N k : Nat) : Nat → Nat → List Int → List Int
  | 0, _, a => a
  | fuel + 1, j, a =>
    if j > 0 then impJLoop N k fuel (j >>> 1) (impInner N j k a) else a

/-- The loop `for (k=2; k<=N; k=2*k)` from the current `k`, a 32-bit `int`
whose doubling wraps.  The result is `none` when the fuel runs out before the
test `k<=N` fails. -/
def impKLoop (N : Nat) : Nat → Int → List Int → Option (List Int)
  | 0, _, _ => none
  | fuel + 1, k, a =>
    if k ≤ (N : Int) then
      impKLoop N fuel (wrap32 (2 * k)) (impJLoop N k.toNat k.toNat (k >>> 1).toNat a)
    else some a

/-- The function `impBitonicSort()` of `cilkPlus.c` on a buffer of `N = a.length`
ints: the three loops, with `cilk_for` taken as a sequential loop.  The version of
`openmp.c` is `impBitonicSort_openmp`. -/
def impBitonicSort (fuel : Nat) (a : List Int) : Option (List Int) :=
  impKLoop a.length fuel 2 a

/-- How a call of the `openmp.c` version of `impBitonicSort()` ends: with the
buffer it leaves (`result`); in the integer division by zero of
`N/(maxThreads - activeThreads)` (`trap`); at the loop
`#pragma omp parallel for schedule(static,chunk)` reached with `chunk <= 0`,
where OpenMP, which requires a positive chunk size, defines no result and the
run does not return (`badChunk`); or with the fuel of the `k` loop used up
(`outOfFuel`). -/
inductive ImpOutcome
  | result (b : List Int)
  | trap
  | badChunk
  | outOfFuel
  deriving DecidableEq, Repr

/-- The loop `#pragma omp parallel for schedule(static,chunk)`
`for (i=0; i<N; i++)` of `openmp.c`, iterations taken in index order; `none`
when the chunk size is not positive. -/
def impInnerOmp (N : Nat) (chunk : Int) (j k : Nat) (a : List Int) : Option (List Int) :=
  if chunk ≤ 0 then none else some (impInner N j k a)

/-- The loop `for (j=k>>1; j>0; j=j>>1)` of `openmp.c` from the current `j`,
with a fuel as in `impJLoop`. -/
def impJLoopOmp (N : Nat) (chunk : Int) (k : Nat) : Nat → Nat → List Int → Option (List Int)
  | 0, _, a => some a
  | fuel + 1, j, a =>
    if j > 0 then
      (impInnerOmp N chunk j k a).bind (impJLoopOmp N chunk k fuel (j >>> 1))
    else some a

/-- The loop `for (k=2; k<=N; k=2*k)` of `openmp.c` from the current `k`, a
32-bit `int` whose doubling wraps. -/
def impKLoopOmp (N : Nat) (chunk : Int) : Nat → Int → List Int → ImpOutcome
  | 0, _, _ => ImpOutcome.outOfFuel
  | fuel + 1, k, a =>
    if k ≤ (N : Int) then
      match impJLoopOmp N chunk k.toNat k.toNat (k >>> 1).toNat a with
      | none => ImpOutcome.badChunk
      | some a1 => impKLoopOmp N chunk fuel (wrap32 (2 * k)) a1
    else ImpOutcome.result a

/-- The function `impBitonicSort()` of `openmp.c` on a buffer of `N = a.length`
ints, with the globals `maxThreads` and `activeThreads` it reads:
`omp_set_num_threads(maxThreads - activeThreads);`
`int chunk = (N/(maxThreads - activeThreads));` and then the three loops.  The
subtraction is on 32-bit ints and `/` is the truncating division of C, which
traps on a zero divisor.  `omp_set_num_threads` only sets the size of the
thread team; with the inner loop taken sequentially it does not enter the
result. -/
def impBitonicSort_openmp (maxThreads activeThreads : Int) (fuel : Nat) (a : List Int) :
    ImpOutcome :=
  if wrap32 (maxThreads - activeThreads) = 0 then ImpOutcome.trap
  else
    impKLoopOmp a.length (Int.tdiv (a.length : Int) (wrap32 (maxThreads - activeThreads)))
      fuel 2 a

/-! ## Auxiliary notions for the imperative network -/

/-- Value left at index `i` by one pass of the inner loop with stride `j` and
block size `k`, read off the buffer before the pass. -/
def impVal (j k : Nat) (a : List Int) (i : Nat) : Int :=
  if i % (2 * j) < j then
    (if i &&& k = 0 then min (a.getD i 0) (a.getD (i + j) 0)
      else max (a.getD i 0) (a.getD (i + j) 0))
  else
    (if (i - j) &&& k = 0 then max (a.getD (i - j) 0) (a.getD i 0)
      else min (a.getD (i - j) 0) (a.getD i 0))

/-- The two halves of width `w` from `b` are separated under `g`: nothing
holds in the lower half or everything holds in the upper half. -/
def Sep (g : Nat → Prop) (b w : Nat) : Prop :=
  (∀ i, b ≤ i → i < b + w → ¬ g i) ∨ (∀ i, b + w ≤ i → i < b + w + w → g i)

/-- State of a block in the middle of a merge stage: `d` levels of halving are
done, the `2 ^ d` pieces of size `2 ^ m` are zero-one bitonic, and sibling
pieces are separated at every level. -/
def Tree (g : Nat → Prop) (m : Nat) : Nat → Nat → Prop
  | 0, b => Bit01 g b (2 ^ m)
  | d + 1, b => Tree g m d b ∧ Tree g m d (b + 2 ^ (m + d)) ∧ Sep g b (2 ^ (m + d))

/-- The predicate `g'` arises from `g` by one half-cleaning pass of stride
`j` on the indices of `[b, b + w)`. -/
def HalfClean (j : Nat) (g g' : Nat → Prop) (b w : Nat) : Prop :=
  ∀ i, b ≤ i → i < b + w →
    (i % (2 * j) < j → (g' i ↔ g i ∧ g (i + j))) ∧
    (¬ i % (2 * j) < j → (g' i ↔ g (i - j) ∨ g i))

/-- Threshold predicate adjusted to the direction of block `c`: in an even
block "the value at `i` is at least `t`", in an odd block its negation. -/
def impG (t : Int) (c : Nat) (a : List Int) (i : Nat) : Prop :=
  if c % 2 = 0 then t ≤ a.getD i 0 else ¬ t ≤ a.getD i 0

/-- Every aligned block of `2 ^ s` entries below `N` is sorted, upwards when
its number is even and downwards when it is odd (threshold form). -/
def SortedBlocks (s N : Nat) (a : List Int) : Prop :=
  ∀ t c, 2 ^ s * c + 2 ^ s ≤ N → ∀ i i', 2 ^ s * c ≤ i → i ≤ i' →
    i' < 2 ^ s * c + 2 ^ s → impG t c a i → impG t c a i'

/-- Source: `for (i = 0; i < N; i++) a[i] = rand() % N;`.  The argument `rand`
gives the values returned by the successive calls of the C library's `rand()`;
`%` is the truncating remainder of C on `int`. -/
def init (N : Nat) (rand : Nat → Int) : List Int :=
  (List.range N).map (fun i => Int.tmod (rand i) (N : Int))

/-! ## The calls of a run and their branches -/

/-- Where a thread that runs `recBitonicSort(lo, cnt, dir)` stands: at its entry,
before the tests (`entry`); after the budget test `activeThreads < maxThreads - 2`
has been read as true and before `pthread_mutex_lock (&mux)` (`acquire`); in
`pthread_join`, waiting for the two threads it created, given by their numbers
(`joining`); returned (`finished`). -/
inductive Pc
  | entry
  | acquire
  | joining (c1 c2 : Nat)
  | finished
  deriving DecidableEq, Repr

/-- A thread: the arguments of its call of `recBitonicSort` and where it stands. -/
structure Thread where
  lo : Nat
  cnt : Nat
  dir : Int
  pc : Pc
  deriving DecidableEq, Repr

/-- The program with its threads: the globals and the threads created so far, the
thread of `main` first. -/
structure Sys where
  mem : State
  threads : List Thread
  deriving DecidableEq, Repr

/-- Thread number `c` has returned. -/
def isFinished (threads : List Thread) (c : Nat) : Bool :=
  match threads[c]? with
  | some th => decide (th.pc = Pc.finished)
  | none => false

/-- One step of thread number `tid` of `recBitonicSort` as written in `pthreads.c`.
At `entry` the thread evaluates `cnt > 1`, `(k - lo) > 100` and, outside the lock,
`activeThreads < (maxThreads - 2)`; when the budget test holds, nothing else happens in
this step.  At `acquire` it runs `pthread_mutex_lock; activeThreads += 2;
pthread_mutex_unlock` and the two `pthread_create`.  At `joining` it goes on once both
threads have returned: `activeThreads -= 2` under the lock, then `bitonicMerge`.  The
library sorts and the merge of a thread touch only its own range and are taken as one
step. -/
def stepThread (maxThreads : Int) (sys : Sys) (tid : Nat) : Sys :=
  match sys.threads[tid]? with
  | none => sys
  | some th =>
    match th.pc with
    | Pc.entry =>
      if th.cnt > 1 then
        if ((th.cnt / 2 : Nat) : Int) - (th.lo : Int) > 100 then
          { mem := withMerge th.lo th.cnt th.dir
              (seqSortHalves th.lo (th.cnt / 2) (seqSortHalves th.lo (th.cnt / 2) sys.mem))
            threads := sys.threads.set tid { th with pc := Pc.finished } }
        else if sys.mem.activeThreads < wrap32 (maxThreads - 2) then
          { sys with threads := sys.threads.set tid { th with pc := Pc.acquire } }
        else
          { mem := withMerge th.lo th.cnt th.dir (seqSortHalves th.lo (th.cnt / 2) sys.mem)
            threads := sys.threads.set tid { th with pc := Pc.finished } }
      else { sys with threads := sys.threads.set tid { th with pc := Pc.finished } }
    | Pc.acquire =>
      { mem := logCreate (th.lo + th.cnt / 2) (th.cnt / 2) DESCENDING
          (logCreate th.lo (th.cnt / 2) ASCENDING
            (setActive (wrap32 (sys.mem.activeThreads + 2)) sys.mem))
        threads :=
          sys.threads.set tid
              { th with pc := Pc.joining sys.threads.length (sys.threads.length + 1) } ++
            [⟨th.lo, th.cnt / 2, ASCENDING, Pc.entry⟩,
              ⟨th.lo + th.cnt / 2, th.cnt / 2, DESCENDING, Pc.entry⟩] }
    | Pc.joining c1 c2 =>
      if isFinished sys.threads c1 && isFinished sys.threads c2 then
        { mem := withMerge th.lo th.cnt th.dir
            (setActive (wrap32 (sys.mem.activeThreads - 2)) sys.mem)
          threads := sys.threads.set tid { th with pc := Pc.finished } }
      else sys
    | Pc.finished => sys

/-- The run in which the threads take their steps in the order given by `schedule`,
a list of thread numbers. -/
def runSchedule (maxThreads : Int) (sys : Sys) (schedule : List Nat) : Sys :=
  schedule.foldl (stepThread maxThreads) sys

/-- The program at the call `sort()`: the globals at program start and the one thread
of `main`, about to run `recBitonicSort(0, N, ASCENDING)`. -/
def startSort (a : List Int) : Sys :=
  { mem := initState a, threads := [⟨0, a.length, ASCENDING, Pc.entry⟩] }

/-! ## Compare-exchange: basic facts -/

theorem length_exchange (a : List Int) (i j : Nat) :
    (exchange a i j).length = a.length := by
  simp [exchange]

theorem length_compare (a : List Int) (i j : Nat) (dir : Int) :
    (compare a i j dir).length = a.length := by
  unfold compare
  by_cases h : swapCond a i j dir
  · rw [if_pos h]; exact length_exchange a i j
  · rw [if_neg h]

theorem cons_set_perm (x : Int) : ∀ (l : List Int) (j : Nat), j < l.length →
    (l.getD j 0 :: l.set j x).Perm (x :: l)
  | [], j, h => by simp at h
  | y :: l, 0, _ => by
    simpa using List.Perm.swap x y l
  | y :: l, j + 1, h => by
    have h1 : j < l.length := by simpa using h
    have ih := cons_set_perm x l j h1
    simp only [List.getD_cons_succ, List.set_cons_succ]
    exact (List.Perm.swap y (l.getD j 0) (l.set j x)).trans
      ((ih.cons y).trans (List.Perm.swap x y l))

theorem exchange_perm : ∀ (a : List Int) (i j : Nat), i < a.length → j < a.length →
    (exchange a i j).Perm a
  | [], i, _, h, _ => by simp at h
  | x :: l, 0, 0, _, _ => by simp [exchange]
  | x :: l, 0, j + 1, _, h => by
    have h1 : j < l.length := by simpa using h
    simpa [exchange] using cons_set_perm x l j h1
  | x :: l, i + 1, 0, h, _ => by
    have h1 : i < l.length := by simpa using h
    simpa [exchange] using cons_set_perm x l i h1
  | x :: l, i + 1, j + 1, h, h2 => by
    have h1 : i < l.length := by simpa using h
    have h3 : j < l.length := by simpa using h2
    have ih := exchange_perm l i j h1 h3
    simpa [exchange] using ih

theorem compare_perm (a : List Int) (i j : Nat) (dir : Int)
    (hi : i < a.length) (hj : j < a.length) : (compare a i j dir).Perm a := by
  unfold compare
  by_cases h : swapCond a i j dir
  · rw [if_pos h]; exact exchange_perm a i j hi hj
  · rw [if_neg h]

theorem compare_eq_set (a : List Int) (i j : Nat) (dir : Int) (hij : i ≠ j)
    (hi : i < a.length) (hj : j < a.length) :
    compare a i j dir =
      (a.set i (loVal dir (a.getD i 0) (a.getD j 0))).set j
        (hiVal dir (a.getD i 0) (a.getD j 0)) := by
  unfold compare loVal hiVal exchange
  by_cases h : swapCond a i j dir
  · rw [if_pos h]
    unfold swapCond at h
    rw [if_pos h, if_pos h]
  · rw [if_neg h]
    unfold swapCond at h
    rw [if_neg h, if_neg h]
    apply List.ext_getElem?
    intro n
    by_cases h1 : n = j
    · subst h1
      simp [List.getElem?_set, hij, hi, hj]
    · by_cases h2 : n = i
      · subst h2
        simp [List.getElem?_set, hij, hi, hj, Ne.symm hij]
      · simp [List.getElem?_set, Ne.symm h1, Ne.symm h2]

theorem getD_compare (a : List Int) (i j : Nat) (dir : Int) (hij : i ≠ j)
    (hi : i < a.length) (hj : j < a.length) (n : Nat) :
    (compare a i j dir).getD n 0 =
      if n = j then hiVal dir (a.getD i 0) (a.getD j 0)
      else if n = i then loVal dir (a.getD i 0) (a.getD j 0)
      else a.getD n 0 := by
  rw [compare_eq_set a i j dir hij hi hj]
  by_cases h1 : n = j
  · subst h1
    simp [List.getElem?_set, hij, hi, hj]
  · by_cases h2 : n = i
    · subst h2
      simp [List.getElem?_set, hij, hi, hj, Ne.symm hij]
    · simp [List.getElem?_set, Ne.symm h1, Ne.symm h2, h1, h2]

/-! ## The compare loop -/

theorem compareLoop_zero (a : List Int) (k : Nat) (dir : Int) (lo : Nat) :
    compareLoop a k dir lo 0 = a := rfl

theorem compareLoop_succ (a : List Int) (k : Nat) (dir : Int) (lo m : Nat) :
    compareLoop a k dir lo (m + 1) =
      compare (compareLoop a k dir lo m) (lo + m) (lo + m + k) dir := by
  simp [compareLoop, List.range'_concat, List.foldl_append]

theorem length_compareLoop (a : List Int) (k : Nat) (dir : Int) (lo m : Nat) :
    (compareLoop a k dir lo m).length = a.length := by
  induction m with
  | zero => rfl
  | succ m ih => rw [compareLoop_succ, length_compare, ih]

theorem compareLoop_perm (a : List Int) (k : Nat) (dir : Int) (lo m : Nat)
    (h : lo + k + m ≤ a.length) : (compareLoop a k dir lo m).Perm a := by
  induction m with
  | zero => exact List.Perm.refl a
  | succ m ih =>
    rw [compareLoop_succ]
    have hl := length_compareLoop a k dir lo m
    exact (compare_perm _ _ _ _ (by omega) (by omega)).trans (ih (by omega))

theorem getD_compareLoop (a : List Int) (k : Nat) (dir : Int) (lo m : Nat)
    (hm : m ≤ k) (h : lo + k + m ≤ a.length) (n : Nat) :
    (compareLoop a k dir lo m).getD n 0 =
      if lo ≤ n ∧ n < lo + m then loVal dir (a.getD n 0) (a.getD (n + k) 0)
      else if lo + k ≤ n ∧ n < lo + k + m then hiVal dir (a.getD (n - k) 0) (a.getD n 0)
      else a.getD n 0 := by
  induction m generalizing n with
  | zero =>
    rw [compareLoop_zero, if_neg (by omega), if_neg (by omega)]
  | succ m ih =>
    have hl := length_compareLoop a k dir lo m
    rw [compareLoop_succ, getD_compare _ _ _ _ (by omega) (by omega) (by omega)]
    have e1 := ih (by omega) (by omega) (lo + m)
    rw [if_neg (by omega), if_neg (by omega)] at e1
    have e2 := ih (by omega) (by omega) (lo + m + k)
    rw [if_neg (by omega), if_neg (by omega)] at e2
    rw [e1, e2, ih (by omega) (by omega) n]
    by_cases c1 : n = lo + m + k
    · subst c1
      rw [if_pos rfl, if_neg (by omega), if_pos (by omega)]
      have : lo + m + k - k = lo + m := by omega
      rw [this]
    · rw [if_neg c1]
      by_cases c2 : n = lo + m
      · subst c2
        rw [if_pos rfl, if_pos (by omega)]
      · rw [if_neg c2]
        by_cases c3 : lo ≤ n ∧ n < lo + m
        · have c3' : lo ≤ n ∧ n < lo + (m + 1) := by omega
          rw [if_pos c3, if_pos c3']
        · have c3' : ¬ (lo ≤ n ∧ n < lo + (m + 1)) := by omega
          rw [if_neg c3, if_neg c3']
          by_cases c4 : lo + k ≤ n ∧ n < lo + k + m
          · have c4' : lo + k ≤ n ∧ n < lo + k + (m + 1) := by omega
            rw [if_pos c4, if_pos c4']
          · have c4' : ¬ (lo + k ≤ n ∧ n < lo + k + (m + 1)) := by omega
            rw [if_neg c4, if_neg c4']

/-! ## Unfolding `bitonicMerge` -/

theorem bitonicMergeAux_fuel : ∀ (f1 f2 cnt lo : Nat) (dir : Int) (a : List Int),
    cnt ≤ f1 → cnt ≤ f2 →
    bitonicMergeAux f1 lo cnt dir a = bitonicMergeAux f2 lo cnt dir a
  | 0, 0, _, _, _, _, _, _ => rfl
  | 0, f2 + 1, cnt, lo, dir, a, h1, _ => by
    have : ¬ cnt > 1 := by omega
    simp [bitonicMergeAux, this]
  | f1 + 1, 0, cnt, lo, dir, a, _, h2 => by
    have : ¬ cnt > 1 := by omega
    simp [bitonicMergeAux, this]
  | f1 + 1, f2 + 1, cnt, lo, dir, a, h1, h2 => by
    by_cases c : cnt > 1
    · simp only [bitonicMergeAux, if_pos c]
      have hk1 : cnt / 2 ≤ f1 := by omega
      have hk2 : cnt / 2 ≤ f2 := by omega
      rw [bitonicMergeAux_fuel f1 f2 (cnt / 2) lo dir _ hk1 hk2,
        bitonicMergeAux_fuel f1 f2 (cnt / 2) (lo + cnt / 2) dir _ hk1 hk2]
    · simp [bitonicMergeAux, c]

theorem bitonicMerge_le_one (lo cnt : Nat) (dir : Int) (a : List Int) (h : cnt ≤ 1) :
    bitonicMerge lo cnt dir a = a := by
  unfold bitonicMerge
  cases cnt with
  | zero => rfl
  | succ n =>
    have : ¬ n + 1 > 1 := by omega
    simp [bitonicMergeAux, this]

theorem bitonicMerge_unfold (lo cnt : Nat) (dir : Int) (a : List Int) (h : 1 < cnt) :
    bitonicMerge lo cnt dir a =
      bitonicMerge (lo + cnt / 2) (cnt / 2) dir
        (bitonicMerge lo (cnt / 2) dir (compareLoop a (cnt / 2) dir lo (cnt / 2))) := by
  unfold bitonicMerge
  cases cnt with
  | zero => omega
  | succ n =>
    have c : n + 1 > 1 := h
    simp only [bitonicMergeAux, if_pos c]
    have hk : (n + 1) / 2 ≤ n := by omega
    rw [bitonicMergeAux_fuel n ((n + 1) / 2) ((n + 1) / 2) lo dir _ hk (le_refl _),
      bitonicMergeAux_fuel n ((n + 1) / 2) ((n + 1) / 2) (lo + (n + 1) / 2) dir _ hk
        (le_refl _)]

theorem length_bitonicMerge (cnt : Nat) : ∀ (lo : Nat) (dir : Int) (a : List Int),
    (bitonicMerge lo cnt dir a).length = a.length := by
  induction cnt using Nat.strong_induction_on with
  | _ cnt ih =>
    intro lo dir a
    by_cases c : 1 < cnt
    · rw [bitonicMerge_unfold lo cnt dir a c, ih (cnt / 2) (by omega),
        ih (cnt / 2) (by omega), length_compareLoop]
    · rw [bitonicMerge_le_one lo cnt dir a (by omega)]

theorem bitonicMerge_perm (cnt : Nat) : ∀ (lo : Nat) (dir : Int) (a : List Int),
    lo + cnt ≤ a.length → (bitonicMerge lo cnt dir a).Perm a := by
  induction cnt using Nat.strong_induction_on with
  | _ cnt ih =>
    intro lo dir a hb
    by_cases c : 1 < cnt
    · rw [bitonicMerge_unfold lo cnt dir a c]
      have hl := length_compareLoop a (cnt / 2) dir lo (cnt / 2)
      have hl2 := length_bitonicMerge (cnt / 2) lo dir (compareLoop a (cnt / 2) dir lo (cnt / 2))
      exact ((ih (cnt / 2) (by omega) (lo + cnt / 2) dir _ (by omega)).trans
        (ih (cnt / 2) (by omega) lo dir _ (by omega))).trans
        (compareLoop_perm a (cnt / 2) dir lo (cnt / 2) (by omega))
    · rw [bitonicMerge_le_one lo cnt dir a (by omega)]

/-- Cells outside `[lo, lo+cnt)` are not changed by `bitonicMerge(lo, cnt, dir)`. -/
theorem getD_bitonicMerge_outside (cnt : Nat) : ∀ (lo : Nat) (dir : Int) (a : List Int),
    lo + cnt ≤ a.length → ∀ n, (n < lo ∨ lo + cnt ≤ n) →
    (bitonicMerge lo cnt dir a).getD n 0 = a.getD n 0 := by
  induction cnt using Nat.strong_induction_on with
  | _ cnt ih =>
    intro lo dir a hb n hn
    by_cases c : 1 < cnt
    · rw [bitonicMerge_unfold lo cnt dir a c]
      have hl := length_compareLoop a (cnt / 2) dir lo (cnt / 2)
      have hl2 := length_bitonicMerge (cnt / 2) lo dir (compareLoop a (cnt / 2) dir lo (cnt / 2))
      rw [ih (cnt / 2) (by omega) (lo + cnt / 2) dir _ (by omega) n (by omega),
        ih (cnt / 2) (by omega) lo dir _ (by omega) n (by omega),
        getD_compareLoop a (cnt / 2) dir lo (cnt / 2) (le_refl _) (by omega) n,
        if_neg (by omega), if_neg (by omega)]
    · rw [bitonicMerge_le_one lo cnt dir a (by omega)]

theorem loVal_cases (dir x y : Int) : loVal dir x y = x ∨ loVal dir x y = y := by
  unfold loVal
  by_cases h : dir = (if x > y then 1 else 0)
  · rw [if_pos h]; exact Or.inr rfl
  · rw [if_neg h]; exact Or.inl rfl

theorem hiVal_cases (dir x y : Int) : hiVal dir x y = x ∨ hiVal dir x y = y := by
  unfold hiVal
  by_cases h : dir = (if x > y then 1 else 0)
  · rw [if_pos h]; exact Or.inl rfl
  · rw [if_neg h]; exact Or.inr rfl

/-- A property shared by all cells of `[lo, lo+cnt)` survives `bitonicMerge`. -/
theorem bitonicMerge_forall (P : Int → Prop) (cnt : Nat) :
    ∀ (lo : Nat) (dir : Int) (a : List Int), lo + cnt ≤ a.length →
    (∀ n, lo ≤ n → n < lo + cnt → P (a.getD n 0)) →
    ∀ n, lo ≤ n → n < lo + cnt → P ((bitonicMerge lo cnt dir a).getD n 0) := by
  induction cnt using Nat.strong_induction_on with
  | _ cnt ih =>
    intro lo dir a hb hP n h1 h2
    by_cases c : 1 < cnt
    · rw [bitonicMerge_unfold lo cnt dir a c]
      have hl := length_compareLoop a (cnt / 2) dir lo (cnt / 2)
      have hl2 := length_bitonicMerge (cnt / 2) lo dir (compareLoop a (cnt / 2) dir lo (cnt / 2))
      have hP1 : ∀ n, lo ≤ n → n < lo + cnt →
          P ((compareLoop a (cnt / 2) dir lo (cnt / 2)).getD n 0) := by
        intro n h1 h2
        rw [getD_compareLoop a (cnt / 2) dir lo (cnt / 2) (le_refl _) (by omega) n]
        by_cases c1 : lo ≤ n ∧ n < lo + cnt / 2
        · rw [if_pos c1]
          rcases loVal_cases dir (a.getD n 0) (a.getD (n + cnt / 2) 0) with e | e
          · rw [e]; exact hP n h1 h2
          · rw [e]; exact hP _ (by omega) (by omega)
        · rw [if_neg c1]
          by_cases c2 : lo + cnt / 2 ≤ n ∧ n < lo + cnt / 2 + cnt / 2
          · rw [if_pos c2]
            rcases hiVal_cases dir (a.getD (n - cnt / 2) 0) (a.getD n 0) with e | e
            · rw [e]; exact hP _ (by omega) (by omega)
            · rw [e]; exact hP n h1 h2
          · rw [if_neg c2]; exact hP n h1 h2
      have hP2 : ∀ n, lo ≤ n → n < lo + cnt →
          P ((bitonicMerge lo (cnt / 2) dir
            (compareLoop a (cnt / 2) dir lo (cnt / 2))).getD n 0) := by
        intro n h1 h2
        by_cases c1 : n < lo + cnt / 2
        · exact ih (cnt / 2) (by omega) lo dir _ (by omega)
            (fun n h1 h2 => hP1 n h1 (by omega)) n h1 c1
        · rw [getD_bitonicMerge_outside (cnt / 2) lo dir _ (by omega) n (by omega)]
          exact hP1 n h1 h2
      by_cases c1 : lo + cnt / 2 ≤ n ∧ n < lo + cnt / 2 + cnt / 2
      · exact ih (cnt / 2) (by omega) (lo + cnt / 2) dir _ (by omega)
          (fun n h1 h2 => hP2 n (by omega) (by omega)) n c1.1 c1.2
      · rw [getD_bitonicMerge_outside (cnt / 2) (lo + cnt / 2) dir _ (by omega) n (by omega)]
        exact hP2 n h1 h2
    · rw [bitonicMerge_le_one lo cnt dir a (by omega)]
      exact hP n h1 h2

/-! ## Zero-one view of the half cleaner -/

theorem bit01_normalize {g : Nat → Prop} {lo cnt : Nat} (h : Bit01 g lo cnt) :
    ∃ p q, lo ≤ p ∧ p ≤ q ∧ q ≤ lo + cnt ∧
      ((∀ i, lo ≤ i → i < lo + cnt → (g i ↔ (p ≤ i ∧ i < q))) ∨
        (∀ i, lo ≤ i → i < lo + cnt → (g i ↔ ¬ (p ≤ i ∧ i < q)))) := by
  obtain ⟨p, q, h⟩ := h
  refine ⟨max lo (min p (lo + cnt)), max (max lo (min p (lo + cnt))) (min q (lo + cnt)),
    by omega, by omega, by omega, ?_⟩
  rcases h with h | h
  · left
    intro i h1 h2
    rw [h i h1 h2]
    omega
  · right
    intro i h1 h2
    rw [h i h1 h2]
    omega

theorem bit01_congr {g g' : Nat → Prop} {lo cnt : Nat} (h : Bit01 g lo cnt)
    (e : ∀ i, lo ≤ i → i < lo + cnt → (g' i ↔ g i)) : Bit01 g' lo cnt := by
  obtain ⟨p, q, h⟩ := h
  refine ⟨p, q, ?_⟩
  rcases h with h | h
  · left
    intro i h1 h2
    rw [e i h1 h2, h i h1 h2]
  · right
    intro i h1 h2
    rw [e i h1 h2, h i h1 h2]

/-- One half-cleaner step on a zero-one bitonic range: both halves are again zero-one
bitonic, and either the lower half is all-false or the upper half is all-true. -/
theorem halfClean01 (g g' : Nat → Prop) (lo k : Nat)
    (hlo : ∀ i, lo ≤ i → i < lo + k → (g' i ↔ g i ∧ g (i + k)))
    (hhi : ∀ i, lo + k ≤ i → i < lo + k + k → (g' i ↔ g (i - k) ∨ g i))
    (hb : Bit01 g lo (k + k)) :
    Bit01 g' lo k ∧ Bit01 g' (lo + k) k ∧
      ((∀ i, lo ≤ i → i < lo + k → ¬ g' i) ∨
        (∀ i, lo + k ≤ i → i < lo + k + k → g' i)) := by
  obtain ⟨p, q, hp, hpq, hq, h⟩ := bit01_normalize hb
  rcases h with h | h
  · -- the true cells are `[p, q)`
    have L : ∀ i, lo ≤ i → i < lo + k → (g' i ↔ (p ≤ i ∧ i + k < q)) := by
      intro i h1 h2
      rw [hlo i h1 h2, h i h1 (by omega), h (i + k) (by omega) (by omega)]
      omega
    have H : ∀ i, lo + k ≤ i → i < lo + k + k →
        (g' i ↔ ((p + k ≤ i ∧ i < q + k) ∨ (p ≤ i ∧ i < q))) := by
      intro i h1 h2
      rw [hhi i h1 h2, h i (by omega) (by omega), h (i - k) (by omega) (by omega)]
      omega
    refine ⟨⟨p, q - k, Or.inl ?_⟩, ?_, ?_⟩
    · intro i h1 h2
      rw [L i h1 h2]
      omega
    · by_cases c1 : p + k ≤ q
      · refine ⟨p, q + k, Or.inl ?_⟩
        intro i h1 h2
        rw [H i h1 h2]
        omega
      · by_cases c2 : q ≤ lo + k
        · refine ⟨p + k, q + k, Or.inl ?_⟩
          intro i h1 h2
          rw [H i h1 h2]
          omega
        · by_cases c3 : lo + k ≤ p
          · refine ⟨p, q, Or.inl ?_⟩
            intro i h1 h2
            rw [H i h1 h2]
            omega
          · refine ⟨q, p + k, Or.inr ?_⟩
            intro i h1 h2
            rw [H i h1 h2]
            omega
    · by_cases c1 : p + k ≤ q
      · right
        intro i h1 h2
        rw [H i h1 h2]
        omega
      · left
        intro i h1 h2
        rw [L i h1 h2]
        omega
  · -- the false cells are `[p, q)`
    have L : ∀ i, lo ≤ i → i < lo + k →
        (g' i ↔ ¬ ((p ≤ i ∧ i < q) ∨ (p ≤ i + k ∧ i + k < q))) := by
      intro i h1 h2
      rw [hlo i h1 h2, h i h1 (by omega), h (i + k) (by omega) (by omega)]
      omega
    have H : ∀ i, lo + k ≤ i → i < lo + k + k → (g' i ↔ ¬ (p + k ≤ i ∧ i < q)) := by
      intro i h1 h2
      rw [hhi i h1 h2, h i (by omega) (by omega), h (i - k) (by omega) (by omega)]
      omega
    refine ⟨?_, ⟨p + k, q, Or.inr ?_⟩, ?_⟩
    · by_cases c1 : p + k ≤ q
      · refine ⟨p - k, q, Or.inr ?_⟩
        intro i h1 h2
        rw [L i h1 h2]
        omega
      · by_cases c2 : q ≤ lo + k
        · refine ⟨p, q, Or.inr ?_⟩
          intro i h1 h2
          rw [L i h1 h2]
          omega
        · by_cases c3 : lo + k ≤ p
          · refine ⟨p - k, q - k, Or.inr ?_⟩
            intro i h1 h2
            rw [L i h1 h2]
            omega
          · refine ⟨q - k, p, Or.inl ?_⟩
            intro i h1 h2
            rw [L i h1 h2]
            omega
    · intro i h1 h2
      rw [H i h1 h2]
    · by_cases c1 : p + k ≤ q
      · left
        intro i h1 h2
        rw [L i h1 h2]
        omega
      · right
        intro i h1 h2
        rw [H i h1 h2]
        omega

/-! ## Threshold predicates -/

theorem thresh_ascending (t : Int) : Thresh 1 (fun x => t ≤ x) := by
  intro x y
  unfold loVal hiVal
  by_cases h : x > y
  · simp only [if_pos h, if_true]
    constructor <;> omega
  · have h1 : (1 : Int) ≠ 0 := by decide
    simp only [if_neg h, if_neg h1]
    constructor <;> omega

theorem thresh_descending (t : Int) : Thresh 0 (fun x => x ≤ t) := by
  intro x y
  unfold loVal hiVal
  by_cases h : x > y
  · have h1 : (0 : Int) ≠ 1 := by decide
    simp only [if_pos h, if_neg h1]
    constructor <;> omega
  · simp only [if_neg h, if_true]
    constructor <;> omega

theorem mono_lower_cut (g : Nat → Prop) (lo m : Nat) (hm : lo ≤ m)
    (hg : ∀ i j, lo ≤ i → i ≤ j → j < m → g i → g j) :
    ∃ p, lo ≤ p ∧ p ≤ m ∧ ∀ i, lo ≤ i → i < m → (g i ↔ p ≤ i) := by
  induction m, hm using Nat.le_induction with
  | base => exact ⟨lo, le_refl _, le_refl _, fun i h1 h2 => by omega⟩
  | succ m hm ih =>
    obtain ⟨p, hp1, hp2, hp⟩ := ih (fun i j h1 h2 h3 => hg i j h1 h2 (by omega))
    by_cases c : g m
    · refine ⟨p, hp1, by omega, ?_⟩
      intro i h1 h2
      by_cases e : i = m
      · subst e
        exact ⟨fun _ => hp2, fun _ => c⟩
      · exact hp i h1 (by omega)
    · refine ⟨m + 1, by omega, le_refl _, ?_⟩
      intro i h1 h2
      constructor
      · intro gi
        exact absurd (hg i m h1 (by omega) (by omega) gi) c
      · intro h3
        omega

theorem anti_upper_cut (g : Nat → Prop) (m hi : Nat) (hm : m ≤ hi)
    (hg : ∀ i j, m ≤ i → i ≤ j → j < hi → g j → g i) :
    ∃ q, m ≤ q ∧ q ≤ hi ∧ ∀ i, m ≤ i → i < hi → (g i ↔ i < q) := by
  obtain ⟨q, h1, h2, h⟩ := mono_lower_cut (fun i => ¬ g i) m hi hm
    (fun i j h1 h2 h3 ni gj => ni (hg i j h1 h2 h3 gj))
  refine ⟨q, h1, h2, ?_⟩
  intro i hi1 hi2
  rw [← not_iff_not, h i hi1 hi2]
  omega

theorem bit01_of_mono_anti (g : Nat → Prop) (lo m cnt : Nat) (h1 : lo ≤ m)
    (h2 : m ≤ lo + cnt)
    (hup : ∀ i j, lo ≤ i → i ≤ j → j < m → g i → g j)
    (hdn : ∀ i j, m ≤ i → i ≤ j → j < lo + cnt → g j → g i) :
    ∃ p q, ∀ i, lo ≤ i → i < lo + cnt → (g i ↔ (p ≤ i ∧ i < q)) := by
  obtain ⟨p, hp1, hp2, hp⟩ := mono_lower_cut g lo m h1 hup
  obtain ⟨q, hq1, hq2, hq⟩ := anti_upper_cut g m (lo + cnt) h2 hdn
  refine ⟨p, q, ?_⟩
  intro i hi1 hi2
  by_cases c : i < m
  · rw [hp i hi1 c]
    omega
  · rw [hq i (by omega) hi2]
    omega

/-- A bitonic range is zero-one bitonic under every upward or downward closed
predicate on values. -/
theorem bit01_of_bitonic (a : List Int) (lo cnt : Nat) (V : Int → Prop)
    (hV : (∀ x y, x ≤ y → V x → V y) ∨ (∀ x y, x ≤ y → V y → V x))
    (hb : Bitonic a lo cnt) : Bit01 (fun i => V (a.getD i 0)) lo cnt := by
  obtain ⟨m, h1, h2, hb⟩ := hb
  rcases hV with hV | hV
  · rcases hb with ⟨hu, hd⟩ | ⟨hd, hu⟩
    · obtain ⟨p, q, h⟩ := bit01_of_mono_anti (fun i => V (a.getD i 0)) lo m cnt h1 h2
        (fun i j hi hij hj v => hV _ _ (hu j hj i hij hi) v)
        (fun i j hi hij hj v => hV _ _ (hd j hj i hij hi) v)
      exact ⟨p, q, Or.inl h⟩
    · obtain ⟨p, q, h⟩ := bit01_of_mono_anti (fun i => ¬ V (a.getD i 0)) lo m cnt h1 h2
        (fun i j hi hij hj nv v => nv (hV _ _ (hd j hj i hij hi) v))
        (fun i j hi hij hj nv v => nv (hV _ _ (hu j hj i hij hi) v))
      refine ⟨p, q, Or.inr ?_⟩
      intro i hi1 hi2
      rw [← h i hi1 hi2, not_not]
  · rcases hb with ⟨hu, hd⟩ | ⟨hd, hu⟩
    · obtain ⟨p, q, h⟩ := bit01_of_mono_anti (fun i => ¬ V (a.getD i 0)) lo m cnt h1 h2
        (fun i j hi hij hj nv v => nv (hV _ _ (hu j hj i hij hi) v))
        (fun i j hi hij hj nv v => nv (hV _ _ (hd j hj i hij hi) v))
      refine ⟨p, q, Or.inr ?_⟩
      intro i hi1 hi2
      rw [← h i hi1 hi2, not_not]
    · obtain ⟨p, q, h⟩ := bit01_of_mono_anti (fun i => V (a.getD i 0)) lo m cnt h1 h2
        (fun i j hi hij hj v => hV _ _ (hd j hj i hij hi) v)
        (fun i j hi hij hj v => hV _ _ (hu j hj i hij hi) v)
      exact ⟨p, q, Or.inl h⟩

/-! ## Bitonic merge sorts zero-one bitonic ranges -/

theorem compareLoop_halfClean (dir : Int) (V : Int → Prop) (hV : Thresh dir V)
    (a : List Int) (lo k : Nat) (hb : lo + k + k ≤ a.length)
    (h : Bit01 (fun i => V (a.getD i 0)) lo (k + k)) :
    Bit01 (fun i => V ((compareLoop a k dir lo k).getD i 0)) lo k ∧
    Bit01 (fun i => V ((compareLoop a k dir lo k).getD i 0)) (lo + k) k ∧
      ((∀ i, lo ≤ i → i < lo + k → ¬ V ((compareLoop a k dir lo k).getD i 0)) ∨
        (∀ i, lo + k ≤ i → i < lo + k + k → V ((compareLoop a k dir lo k).getD i 0))) := by
  apply halfClean01 (fun i => V (a.getD i 0)) _ lo k _ _ h
  · intro i h1 h2
    show V ((compareLoop a k dir lo k).getD i 0) ↔ _
    rw [getD_compareLoop a k dir lo k (le_refl _) hb i, if_pos ⟨h1, h2⟩]
    exact (hV _ _).1
  · intro i h1 h2
    show V ((compareLoop a k dir lo k).getD i 0) ↔ _
    rw [getD_compareLoop a k dir lo k (le_refl _) hb i, if_neg (by omega), if_pos ⟨h1, h2⟩]
    exact (hV _ _).2

theorem bitonicMerge_mono01 (dir : Int) (V : Int → Prop) (hV : Thresh dir V) (n : Nat) :
    ∀ (lo : Nat) (a : List Int), lo + 2 ^ n ≤ a.length →
    Bit01 (fun i => V (a.getD i 0)) lo (2 ^ n) →
    ∀ i j, lo ≤ i → i ≤ j → j < lo + 2 ^ n →
      V ((bitonicMerge lo (2 ^ n) dir a).getD i 0) →
      V ((bitonicMerge lo (2 ^ n) dir a).getD j 0) := by
  induction n with
  | zero =>
    intro lo a _ _ i j h1 h2 h3 v
    have : i = j := by
      have : (2 : Nat) ^ 0 = 1 := rfl
      omega
    subst this
    exact v
  | succ n ih =>
    intro lo a hlen hb i j h1 h2 h3
    have e2 : 2 ^ (n + 1) = 2 ^ n + 2 ^ n := by rw [pow_succ]; omega
    have ediv : 2 ^ (n + 1) / 2 = 2 ^ n := by omega
    have hpos : 0 < 2 ^ n := Nat.pow_pos (by decide)
    rw [bitonicMerge_unfold lo _ dir a (by omega), ediv]
    generalize hk : 2 ^ n = k at *
    rw [e2] at hb hlen h3
    obtain ⟨b1, b2, hc⟩ := compareLoop_halfClean dir V hV a lo k (by omega) hb
    generalize ha1 : compareLoop a k dir lo k = a1 at *
    have hl1 : a1.length = a.length := by rw [← ha1]; exact length_compareLoop a k dir lo k
    have s1 := ih lo a1 (by omega) b1
    generalize ha2 : bitonicMerge lo k dir a1 = a2 at *
    have hl2 : a2.length = a1.length := by rw [← ha2]; exact length_bitonicMerge k lo dir a1
    have f2 : ∀ n, (n < lo ∨ lo + k ≤ n) → a2.getD n 0 = a1.getD n 0 := by
      intro n hn
      rw [← ha2]
      exact getD_bitonicMerge_outside k lo dir a1 (by omega) n hn
    have b2' : Bit01 (fun i => V (a2.getD i 0)) (lo + k) k :=
      bit01_congr b2 (fun i hi1 hi2 => by
        show V (a2.getD i 0) ↔ V (a1.getD i 0)
        rw [f2 i (by omega)])
    have s2 := ih (lo + k) a2 (by omega) b2'
    generalize ha3 : bitonicMerge (lo + k) k dir a2 = a3 at *
    have f3 : ∀ n, (n < lo + k ∨ lo + k + k ≤ n) → a3.getD n 0 = a2.getD n 0 := by
      intro n hn
      rw [← ha3]
      exact getD_bitonicMerge_outside k (lo + k) dir a2 (by omega) n hn
    intro v
    by_cases cj : j < lo + k
    · -- both in the lower half
      rw [f3 i (by omega)] at v
      rw [f3 j (by omega)]
      exact s1 i j h1 h2 cj v
    · by_cases ci : lo + k ≤ i
      · exact s2 i j ci h2 (by omega) v
      · -- `i` in the lower half, `j` in the upper half
        rcases hc with allF | allT
        · exfalso
          rw [f3 i (by omega)] at v
          have := bitonicMerge_forall (fun x => ¬ V x) k lo dir a1 (by omega) allF i h1
            (by omega)
          rw [ha2] at this
          exact this v
        · have := bitonicMerge_forall V k (lo + k) dir a2 (by omega)
            (fun n hn1 hn2 => by rw [f2 n (by omega)]; exact allT n hn1 hn2) j (by omega)
            (by omega)
          rw [ha3] at this
          exact this

/-- Bitonic merge of a bitonic range of length `2^n`, ascending direction. -/
theorem bitonicMerge_nonDecr (n lo : Nat) (a : List Int) (hlen : lo + 2 ^ n ≤ a.length)
    (hb : Bitonic a lo (2 ^ n)) :
    NonDecr (bitonicMerge lo (2 ^ n) 1 a) lo (lo + 2 ^ n) := by
  intro j hj i hij hi
  exact bitonicMerge_mono01 1 (fun x => (bitonicMerge lo (2 ^ n) 1 a).getD i 0 ≤ x)
    (thresh_ascending _) n lo a hlen
    (bit01_of_bitonic a lo (2 ^ n) _ (Or.inl (fun x y hxy hx => le_trans hx hxy)) hb)
    i j hi hij hj (le_refl _)

/-- Bitonic merge of a bitonic range of length `2^n`, descending direction. -/
theorem bitonicMerge_nonIncr (n lo : Nat) (a : List Int) (hlen : lo + 2 ^ n ≤ a.length)
    (hb : Bitonic a lo (2 ^ n)) :
    NonIncr (bitonicMerge lo (2 ^ n) 0 a) lo (lo + 2 ^ n) := by
  intro j hj i hij hi
  exact bitonicMerge_mono01 0 (fun x => x ≤ (bitonicMerge lo (2 ^ n) 0 a).getD i 0)
    (thresh_descending _) n lo a hlen
    (bit01_of_bitonic a lo (2 ^ n) _ (Or.inr (fun x y hxy hy => le_trans hxy hy)) hb)
    i j hi hij hj (le_refl _)

/-! ## The library sort -/

theorem wrap32_of_isInt32 (z : Int) (h : isInt32 z) : wrap32 z = z := by
  unfold isInt32 at h
  unfold wrap32
  omega

theorem length_qsort (a : List Int) (base n : Nat) (cmp : Int → Int → Int) :
    (qsort a base n cmp).length = a.length := by
  simp only [qsort, List.length_append, List.length_take, List.length_drop,
    List.length_insertionSort]
  omega

theorem qsort_perm (a : List Int) (base n : Nat) (cmp : Int → Int → Int) :
    (qsort a base n cmp).Perm a := by
  have h1 := List.perm_insertionSort (fun x y => cmp x y ≤ 0) ((a.drop base).take n)
  have h2 : a.take base ++ (a.drop base).take n ++ a.drop (base + n) = a := by
    rw [List.append_assoc, ← List.drop_drop, List.take_append_drop, List.take_append_drop]
  have h3 : (qsort a base n cmp).Perm
      (a.take base ++ (a.drop base).take n ++ a.drop (base + n)) :=
    List.Perm.append_right _ (List.Perm.append_left _ h1)
  rwa [h2] at h3

theorem getElem?_qsort_outside (a : List Int) (base n : Nat) (cmp : Int → Int → Int)
    (idx : Nat) (h : idx < base ∨ base + n ≤ idx) :
    (qsort a base n cmp)[idx]? = a[idx]? := by
  by_cases hl : idx < a.length
  · rcases h with h | h
    · unfold qsort
      rw [List.getElem?_append_left (by
        simp only [List.length_append, List.length_take]; omega)]
      rw [List.getElem?_append_left (by simp only [List.length_take]; omega)]
      rw [List.getElem?_take_of_lt h]
    · unfold qsort
      rw [List.getElem?_append_right (by
        simp only [List.length_append, List.length_take, List.length_drop,
          List.length_insertionSort]; omega)]
      rw [List.getElem?_drop]
      congr 1
      simp only [List.length_append, List.length_take, List.length_drop,
        List.length_insertionSort]
      omega
  · rw [List.getElem?_eq_none (by rw [length_qsort]; omega),
      List.getElem?_eq_none (by omega)]

theorem getD_qsort_outside (a : List Int) (base n : Nat) (cmp : Int → Int → Int)
    (idx : Nat) (h : idx < base ∨ base + n ≤ idx) :
    (qsort a base n cmp).getD idx 0 = a.getD idx 0 := by
  rw [List.getD_eq_getElem?_getD, List.getD_eq_getElem?_getD,
    getElem?_qsort_outside a base n cmp idx h]

theorem getD_qsort_inside (a : List Int) (base n : Nat) (cmp : Int → Int → Int)
    (hb : base + n ≤ a.length) (i : Nat) (hi : i < n) :
    (qsort a base n cmp).getD (base + i) 0 =
      (((a.drop base).take n).insertionSort (fun x y => cmp x y ≤ 0)).getD i 0 := by
  unfold qsort
  rw [List.getD_append _ _ _ _ (by
    simp only [List.length_append, List.length_take, List.length_drop,
      List.length_insertionSort]; omega)]
  rw [List.getD_append_right _ _ _ _ (by simp only [List.length_take]; omega)]
  congr 1
  simp only [List.length_take]
  omega

theorem orderedInsert_congr (r s : Int → Int → Prop) [DecidableRel r] [DecidableRel s]
    (x : Int) : ∀ (l : List Int), (∀ y ∈ l, (r x y ↔ s x y)) →
    List.orderedInsert r x l = List.orderedInsert s x l
  | [], _ => rfl
  | y :: l, h => by
    have hy : r x y ↔ s x y := h y (List.mem_cons_self y l)
    have ih := orderedInsert_congr r s x l (fun z hz => h z (List.mem_cons_of_mem y hz))
    by_cases c : r x y
    · simp only [List.orderedInsert, if_pos c, if_pos (hy.mp c)]
    · simp only [List.orderedInsert, if_neg c, if_neg (fun h => c (hy.mpr h)), ih]

theorem insertionSort_congr (r s : Int → Int → Prop) [DecidableRel r] [DecidableRel s] :
    ∀ (l : List Int), (∀ x ∈ l, ∀ y ∈ l, (r x y ↔ s x y)) →
    List.insertionSort r l = List.insertionSort s l
  | [], _ => rfl
  | x :: l, h => by
    have ih := insertionSort_congr r s l
      (fun a ha b hb => h a (List.mem_cons_of_mem x ha) b (List.mem_cons_of_mem x hb))
    simp only [List.insertionSort, ih]
    apply orderedInsert_congr
    intro y hy
    have hy' : y ∈ l := (List.perm_insertionSort s l).mem_iff.mp hy
    exact h x (List.mem_cons_self x l) y (List.mem_cons_of_mem x hy')

theorem sorted_le_getD (l : List Int) (h : l.Sorted (· ≤ ·)) (i j : Nat) (hij : i ≤ j)
    (hj : j < l.length) : l.getD i 0 ≤ l.getD j 0 := by
  rw [List.getD_eq_getElem l 0 (show i < l.length by omega), List.getD_eq_getElem l 0 hj]
  rcases Nat.eq_or_lt_of_le hij with e | e
  · subst e; exact le_refl _
  · exact List.pairwise_iff_getElem.mp h i j (by omega) hj e

theorem sorted_ge_getD (l : List Int) (h : l.Sorted (· ≥ ·)) (i j : Nat) (hij : i ≤ j)
    (hj : j < l.length) : l.getD j 0 ≤ l.getD i 0 := by
  rw [List.getD_eq_getElem l 0 (show i < l.length by omega), List.getD_eq_getElem l 0 hj]
  rcases Nat.eq_or_lt_of_le hij with e | e
  · subst e; exact le_refl _
  · exact List.pairwise_iff_getElem.mp h i j (by omega) hj e

theorem cmpfunc_ascending_le (x y : Int) (h : isInt32 (x - y)) :
    cmpfunc_ascending x y ≤ 0 ↔ x ≤ y := by
  unfold cmpfunc_ascending
  rw [wrap32_of_isInt32 _ h]
  omega

theorem cmpfunc_descending_le (x y : Int) (h : isInt32 (y - x)) :
    cmpfunc_descending x y ≤ 0 ↔ x ≥ y := by
  unfold cmpfunc_descending
  rw [wrap32_of_isInt32 _ h]
  omega

theorem mem_segment (a : List Int) (base n : Nat) (x : Int)
    (h : x ∈ (a.drop base).take n) : x ∈ a :=
  List.mem_of_mem_drop (List.mem_of_mem_take h)

/-- On values whose differences fit in 32 bits the ascending library sort leaves
the range in non-decreasing order. -/
theorem qsort_ascending_nonDecr (a : List Int) (base n : Nat) (hb : base + n ≤ a.length)
    (hno : NoOverflow a) : NonDecr (qsort a base n cmpfunc_ascending) base (base + n) := by
  intro j hj i hij hi
  have e := insertionSort_congr (fun x y => cmpfunc_ascending x y ≤ 0) (· ≤ ·)
    ((a.drop base).take n) (fun x hx y hy =>
      cmpfunc_ascending_le x y (hno x (mem_segment a base n x hx) y (mem_segment a base n y hy)))
  have hs := List.sorted_insertionSort (· ≤ ·) ((a.drop base).take n)
  have hlen : (((a.drop base).take n).insertionSort (· ≤ ·)).length = n := by
    simp only [List.length_insertionSort, List.length_take, List.length_drop]
    omega
  obtain ⟨i', rfl⟩ : ∃ i', i = base + i' := ⟨i - base, by omega⟩
  obtain ⟨j', rfl⟩ : ∃ j', j = base + j' := ⟨j - base, by omega⟩
  rw [getD_qsort_inside a base n _ hb i' (by omega),
    getD_qsort_inside a base n _ hb j' (by omega), e]
  exact sorted_le_getD _ hs i' j' (by omega) (by omega)

/-- On values whose differences fit in 32 bits the descending library sort leaves
the range in non-increasing order. -/
theorem qsort_descending_nonIncr (a : List Int) (base n : Nat) (hb : base + n ≤ a.length)
    (hno : NoOverflow a) : NonIncr (qsort a base n cmpfunc_descending) base (base + n) := by
  intro j hj i hij hi
  have e := insertionSort_congr (fun x y => cmpfunc_descending x y ≤ 0) (· ≥ ·)
    ((a.drop base).take n) (fun x hx y hy =>
      cmpfunc_descending_le x y (hno y (mem_segment a base n y hy) x (mem_segment a base n x hx)))
  have hs := List.sorted_insertionSort (· ≥ ·) ((a.drop base).take n)
  have hlen : (((a.drop base).take n).insertionSort (· ≥ ·)).length = n := by
    simp only [List.length_insertionSort, List.length_take, List.length_drop]
    omega
  obtain ⟨i', rfl⟩ : ∃ i', i = base + i' := ⟨i - base, by omega⟩
  obtain ⟨j', rfl⟩ : ∃ j', j = base + j' := ⟨j - base, by omega⟩
  rw [getD_qsort_inside a base n _ hb i' (by omega),
    getD_qsort_inside a base n _ hb j' (by omega), e]
  exact sorted_ge_getD _ hs i' j' (by omega) (by omega)

theorem noOverflow_of_perm {a b : List Int} (h : NoOverflow a) (p : b.Perm a) :
    NoOverflow b :=
  fun x hx y hy => h x (p.mem_iff.mp hx) y (p.mem_iff.mp hy)

/-! ## Unfolding `recBitonicSort` -/

theorem recBitonicSortAux_fuel (mx : Int) : ∀ (f1 f2 cnt lo : Nat) (dir : Int) (s : State),
    cnt ≤ f1 → cnt ≤ f2 →
    recBitonicSortAux mx f1 lo cnt dir s = recBitonicSortAux mx f2 lo cnt dir s
  | 0, 0, _, _, _, _, _, _ => rfl
  | 0, f2 + 1, cnt, lo, dir, s, h1, _ => by
    have : ¬ cnt > 1 := by omega
    simp [recBitonicSortAux, this]
  | f1 + 1, 0, cnt, lo, dir, s, _, h2 => by
    have : ¬ cnt > 1 := by omega
    simp [recBitonicSortAux, this]
  | f1 + 1, f2 + 1, cnt, lo, dir, s, h1, h2 => by
    by_cases c : cnt > 1
    · have hk1 : cnt / 2 ≤ f1 := by omega
      have hk2 : cnt / 2 ≤ f2 := by omega
      simp only [recBitonicSortAux, if_pos c]
      rw [recBitonicSortAux_fuel mx f1 f2 (cnt / 2) lo ASCENDING _ hk1 hk2,
        recBitonicSortAux_fuel mx f1 f2 (cnt / 2) (lo + cnt / 2) DESCENDING _ hk1 hk2]
    · simp [recBitonicSortAux, c]

theorem recBitonicSort_le_one (mx : Int) (lo cnt : Nat) (dir : Int) (s : State)
    (h : cnt ≤ 1) : recBitonicSort mx lo cnt dir s = s := by
  unfold recBitonicSort
  cases cnt with
  | zero => rfl
  | succ n =>
    have : ¬ n + 1 > 1 := by omega
    simp [recBitonicSortAux, this]

/-- Size-threshold path: `(k - lo) > 100`.  The flag `parallel` stays `0`, so the
`else` block sorts the two halves a second time before the merge. -/
theorem recBitonicSort_threshold (mx : Int) (lo cnt : Nat) (dir : Int) (s : State)
    (h : 1 < cnt) (ht : ((cnt / 2 : Nat) : Int) - (lo : Int) > 100) :
    recBitonicSort mx lo cnt dir s =
      withMerge lo cnt dir (seqSortHalves lo (cnt / 2) (seqSortHalves lo (cnt / 2) s)) := by
  unfold recBitonicSort
  cases cnt with
  | zero => omega
  | succ n =>
    have c : n + 1 > 1 := h
    simp only [recBitonicSortAux, if_pos c, if_pos ht]
    rfl

/-- Budget path with capacity left: split into two branches. -/
theorem recBitonicSort_parallel (mx : Int) (lo cnt : Nat) (dir : Int) (s : State)
    (h : 1 < cnt) (ht : ¬ ((cnt / 2 : Nat) : Int) - (lo : Int) > 100)
    (hb : s.activeThreads < wrap32 (mx - 2)) :
    recBitonicSort mx lo cnt dir s =
      withMerge lo cnt dir
        (setActive (wrap32 ((afterBranches mx lo (cnt / 2) s).activeThreads - 2))
          (afterBranches mx lo (cnt / 2) s)) := by
  unfold afterBranches recBitonicSort
  cases cnt with
  | zero => omega
  | succ n =>
    have c : n + 1 > 1 := h
    have hk : (n + 1) / 2 ≤ n := by omega
    simp only [recBitonicSortAux, if_pos c, if_neg ht, if_pos hb]
    rw [recBitonicSortAux_fuel mx n ((n + 1) / 2) ((n + 1) / 2) lo ASCENDING _ hk (le_refl _),
      recBitonicSortAux_fuel mx n ((n + 1) / 2) ((n + 1) / 2) (lo + (n + 1) / 2) DESCENDING _
        hk (le_refl _)]
    rfl

/-- Budget path with no capacity left: both halves go to the library sort. -/
theorem recBitonicSort_exhausted (mx : Int) (lo cnt : Nat) (dir : Int) (s : State)
    (h : 1 < cnt) (ht : ¬ ((cnt / 2 : Nat) : Int) - (lo : Int) > 100)
    (hb : ¬ s.activeThreads < wrap32 (mx - 2)) :
    recBitonicSort mx lo cnt dir s = withMerge lo cnt dir (seqSortHalves lo (cnt / 2) s) := by
  unfold recBitonicSort
  cases cnt with
  | zero => omega
  | succ n =>
    have c : n + 1 > 1 := h
    simp only [recBitonicSortAux, if_pos c, if_neg ht, if_neg hb]
    rfl

@[simp] theorem withMerge_a (lo cnt : Nat) (dir : Int) (s : State) :
    (withMerge lo cnt dir s).a = bitonicMerge lo cnt dir s.a := rfl

@[simp] theorem withMerge_activeThreads (lo cnt : Nat) (dir : Int) (s : State) :
    (withMerge lo cnt dir s).activeThreads = s.activeThreads := rfl

@[simp] theorem withMerge_log (lo cnt : Nat) (dir : Int) (s : State) :
    (withMerge lo cnt dir s).log = s.log := rfl

@[simp] theorem setActive_a (v : Int) (s : State) : (setActive v s).a = s.a := rfl

@[simp] theorem setActive_activeThreads (v : Int) (s : State) :
    (setActive v s).activeThreads = v := rfl

@[simp] theorem setActive_log (v : Int) (s : State) :
    (setActive v s).log = s.log ++ [Event.active v] := rfl

@[simp] theorem logCreate_a (lo cnt : Nat) (dir : Int) (s : State) :
    (logCreate lo cnt dir s).a = s.a := rfl

@[simp] theorem logCreate_activeThreads (lo cnt : Nat) (dir : Int) (s : State) :
    (logCreate lo cnt dir s).activeThreads = s.activeThreads := rfl

@[simp] theorem logCreate_log (lo cnt : Nat) (dir : Int) (s : State) :
    (logCreate lo cnt dir s).log = s.log ++ [Event.create lo cnt dir] := rfl

@[simp] theorem seqSortHalves_a (lo k : Nat) (s : State) :
    (seqSortHalves lo k s).a =
      qsort (qsort s.a lo k cmpfunc_ascending) (lo + k) k cmpfunc_descending := rfl

@[simp] theorem seqSortHalves_activeThreads (lo k : Nat) (s : State) :
    (seqSortHalves lo k s).activeThreads = s.activeThreads := rfl

@[simp] theorem seqSortHalves_log (lo k : Nat) (s : State) :
    (seqSortHalves lo k s).log =
      s.log ++ [Event.seqSort lo k true, Event.seqSort (lo + k) k false] := rfl

/-- Induction along the call tree of `recBitonicSort`: a relation between entry and
exit state holds for every call if it holds on each of the four paths. -/
theorem recBitonicSort_induct (mx : Int) (P : Nat → Nat → Int → State → State → Prop)
    (base : ∀ (lo cnt : Nat) (dir : Int) (s : State), cnt ≤ 1 → P lo cnt dir s s)
    (thr : ∀ (lo cnt : Nat) (dir : Int) (s : State), 1 < cnt → ((cnt / 2 : Nat) : Int) - (lo : Int) > 100 →
      P lo cnt dir s
        (withMerge lo cnt dir (seqSortHalves lo (cnt / 2) (seqSortHalves lo (cnt / 2) s))))
    (par : ∀ (lo cnt : Nat) (dir : Int) (s : State), 1 < cnt → ¬ ((cnt / 2 : Nat) : Int) - (lo : Int) > 100 →
      s.activeThreads < wrap32 (mx - 2) →
      ∀ s1 s2 s3 s4 : State,
      s1 = logCreate lo (cnt / 2) ASCENDING (setActive (wrap32 (s.activeThreads + 2)) s) →
      s2 = recBitonicSort mx lo (cnt / 2) ASCENDING s1 →
      s3 = logCreate (lo + cnt / 2) (cnt / 2) DESCENDING s2 →
      s4 = recBitonicSort mx (lo + cnt / 2) (cnt / 2) DESCENDING s3 →
      P lo (cnt / 2) ASCENDING s1 s2 →
      P (lo + cnt / 2) (cnt / 2) DESCENDING s3 s4 →
      P lo cnt dir s
        (withMerge lo cnt dir (setActive (wrap32 (s4.activeThreads - 2)) s4)))
    (exh : ∀ (lo cnt : Nat) (dir : Int) (s : State), 1 < cnt → ¬ ((cnt / 2 : Nat) : Int) - (lo : Int) > 100 →
      ¬ s.activeThreads < wrap32 (mx - 2) →
      P lo cnt dir s (withMerge lo cnt dir (seqSortHalves lo (cnt / 2) s))) :
    ∀ (cnt lo : Nat) (dir : Int) (s : State),
      P lo cnt dir s (recBitonicSort mx lo cnt dir s) := by
  intro cnt
  induction cnt using Nat.strong_induction_on with
  | _ cnt ih =>
    intro lo dir s
    by_cases c : 1 < cnt
    · by_cases ht : ((cnt / 2 : Nat) : Int) - (lo : Int) > 100
      · rw [recBitonicSort_threshold mx lo cnt dir s c ht]
        exact thr lo cnt dir s c ht
      · by_cases hb : s.activeThreads < wrap32 (mx - 2)
        · rw [recBitonicSort_parallel mx lo cnt dir s c ht hb]
          exact par lo cnt dir s c ht hb _ _ _ _ rfl rfl rfl rfl
            (ih (cnt / 2) (by omega) lo ASCENDING _)
            (ih (cnt / 2) (by omega) (lo + cnt / 2) DESCENDING _)
        · rw [recBitonicSort_exhausted mx lo cnt dir s c ht hb]
          exact exh lo cnt dir s c ht hb
    · rw [recBitonicSort_le_one mx lo cnt dir s (by omega)]
      exact base lo cnt dir s (by omega)

/-! ## Length, permutation and frame for `recBitonicSort` -/

theorem length_recBitonicSort (mx : Int) (cnt lo : Nat) (dir : Int) (s : State) :
    (recBitonicSort mx lo cnt dir s).a.length = s.a.length := by
  apply recBitonicSort_induct mx (fun _ _ _ s r => r.a.length = s.a.length)
  · intro lo cnt dir s _
    rfl
  · intro lo cnt dir s _ _
    simp only [withMerge_a, seqSortHalves_a, length_bitonicMerge, length_qsort]
  · intro lo cnt dir s _ _ _ s1 s2 s3 s4 e1 _ e3 _ h2 h4
    simp only [withMerge_a, setActive_a, length_bitonicMerge]
    rw [h4, e3, logCreate_a, h2, e1, logCreate_a, setActive_a]
  · intro lo cnt dir s _ _ _
    simp only [withMerge_a, seqSortHalves_a, length_bitonicMerge, length_qsort]

theorem seqSortHalves_perm (lo k : Nat) (s : State) : (seqSortHalves lo k s).a.Perm s.a := by
  rw [seqSortHalves_a]
  exact (qsort_perm _ _ _ _).trans (qsort_perm _ _ _ _)

theorem recBitonicSort_perm (mx : Int) (cnt lo : Nat) (dir : Int) (s : State) :
    lo + cnt ≤ s.a.length → (recBitonicSort mx lo cnt dir s).a.Perm s.a := by
  apply recBitonicSort_induct mx
    (fun lo cnt _ s r => lo + cnt ≤ s.a.length → r.a.Perm s.a)
  · intro lo cnt dir s _ _
    exact List.Perm.refl _
  · intro lo cnt dir s _ _ hb
    have p1 := seqSortHalves_perm lo (cnt / 2) s
    have p2 := seqSortHalves_perm lo (cnt / 2) (seqSortHalves lo (cnt / 2) s)
    rw [withMerge_a]
    exact ((bitonicMerge_perm cnt lo dir _ (by rw [p2.length_eq, p1.length_eq]; exact hb)).trans
      p2).trans p1
  · intro lo cnt dir s _ _ _ s1 s2 s3 s4 e1 e2 e3 e4 h2 h4 hb
    have l1 : s1.a = s.a := by rw [e1]; rfl
    have l3 : s3.a = s2.a := by rw [e3]; rfl
    have p2 : s2.a.Perm s.a := by
      rw [← l1]; exact h2 (by rw [l1]; omega)
    have p4 : s4.a.Perm s.a := by
      have := h4 (by rw [l3, p2.length_eq]; omega)
      rw [l3] at this
      exact this.trans p2
    rw [withMerge_a, setActive_a]
    exact (bitonicMerge_perm cnt lo dir _ (by rw [p4.length_eq]; exact hb)).trans p4
  · intro lo cnt dir s _ _ _ hb
    have p1 := seqSortHalves_perm lo (cnt / 2) s
    rw [withMerge_a]
    exact (bitonicMerge_perm cnt lo dir _ (by rw [p1.length_eq]; exact hb)).trans p1

theorem getD_seqSortHalves_outside (lo k : Nat) (s : State) (n : Nat)
    (h : n < lo ∨ lo + k + k ≤ n) : (seqSortHalves lo k s).a.getD n 0 = s.a.getD n 0 := by
  rw [seqSortHalves_a, getD_qsort_outside _ _ _ _ n (by omega),
    getD_qsort_outside _ _ _ _ n (by omega)]

/-- Cells outside `[lo, lo+cnt)` are not changed by `recBitonicSort(lo, cnt, dir)`. -/
theorem getD_recBitonicSort_outside (mx : Int) (cnt lo : Nat) (dir : Int) (s : State) :
    lo + cnt ≤ s.a.length → ∀ n, (n < lo ∨ lo + cnt ≤ n) →
    (recBitonicSort mx lo cnt dir s).a.getD n 0 = s.a.getD n 0 := by
  apply recBitonicSort_induct mx
    (fun lo cnt _ s r => lo + cnt ≤ s.a.length → ∀ n, (n < lo ∨ lo + cnt ≤ n) →
      r.a.getD n 0 = s.a.getD n 0)
  · intro lo cnt dir s _ _ n _
    rfl
  · intro lo cnt dir s _ _ hb n hn
    have p1 := (seqSortHalves_perm lo (cnt / 2) s).length_eq
    have p2 := (seqSortHalves_perm lo (cnt / 2) (seqSortHalves lo (cnt / 2) s)).length_eq
    rw [withMerge_a, getD_bitonicMerge_outside cnt lo dir _ (by omega) n hn,
      getD_seqSortHalves_outside _ _ _ n (by omega),
      getD_seqSortHalves_outside _ _ _ n (by omega)]
  · intro lo cnt dir s _ _ _ s1 s2 s3 s4 e1 e2 e3 e4 h2 h4 hb n hn
    have l1 : s1.a = s.a := by rw [e1]; rfl
    have l3 : s3.a = s2.a := by rw [e3]; rfl
    have len2 : s2.a.length = s.a.length := by
      rw [e2, length_recBitonicSort, l1]
    have len4 : s4.a.length = s.a.length := by
      rw [e4, length_recBitonicSort, l3, len2]
    rw [withMerge_a, setActive_a, getD_bitonicMerge_outside cnt lo dir _ (by omega) n hn,
      h4 (by rw [l3]; omega) n (by omega), l3, h2 (by rw [l1]; omega) n (by omega), l1]
  · intro lo cnt dir s _ _ _ hb n hn
    have p1 := (seqSortHalves_perm lo (cnt / 2) s).length_eq
    rw [withMerge_a, getD_bitonicMerge_outside cnt lo dir _ (by omega) n hn,
      getD_seqSortHalves_outside _ _ _ n (by omega)]

/-! ## The budget counter -/

theorem wrap32_isInt32 (z : Int) : isInt32 (wrap32 z) := by
  unfold isInt32 wrap32
  omega

theorem wrap32_add_sub (z : Int) (h : isInt32 z) : wrap32 (wrap32 (z + 2) - 2) = z := by
  unfold isInt32 at h
  unfold wrap32
  omega

/-- Every call of `recBitonicSort` returns with `activeThreads` as it found it. -/
theorem activeThreads_recBitonicSort (mx : Int) (cnt lo : Nat) (dir : Int) (s : State) :
    isInt32 s.activeThreads →
    (recBitonicSort mx lo cnt dir s).activeThreads = s.activeThreads := by
  apply recBitonicSort_induct mx
    (fun _ _ _ s r => isInt32 s.activeThreads → r.activeThreads = s.activeThreads)
  · intro lo cnt dir s _ _
    rfl
  · intro lo cnt dir s _ _ _
    rfl
  · intro lo cnt dir s _ _ _ s1 s2 s3 s4 e1 _ e3 _ h2 h4 hs
    have a1 : s1.activeThreads = wrap32 (s.activeThreads + 2) := by rw [e1]; rfl
    have a2 : s2.activeThreads = wrap32 (s.activeThreads + 2) := by
      rw [h2 (by rw [a1]; exact wrap32_isInt32 _), a1]
    have a3 : s3.activeThreads = wrap32 (s.activeThreads + 2) := by rw [e3]; exact a2
    have a4 : s4.activeThreads = wrap32 (s.activeThreads + 2) := by
      rw [h4 (by rw [a3]; exact wrap32_isInt32 _), a3]
    rw [withMerge_activeThreads, setActive_activeThreads, a4]
    exact wrap32_add_sub _ hs
  · intro lo cnt dir s _ _ _ _
    rfl

/-- The record of a call extends the record at entry, and every value assigned to
`activeThreads` during the call lies in `[0, maxThreads]`. -/
theorem log_recBitonicSort (mx : Int) (hmx : isInt32 mx) (cnt lo : Nat) (dir : Int)
    (s : State) : 0 ≤ s.activeThreads → s.activeThreads ≤ mx →
    ∃ ext, (recBitonicSort mx lo cnt dir s).log = s.log ++ ext ∧
      ∀ v, Event.active v ∈ ext → 0 ≤ v ∧ v ≤ mx := by
  apply recBitonicSort_induct mx
    (fun _ _ _ s r => 0 ≤ s.activeThreads → s.activeThreads ≤ mx →
      ∃ ext, r.log = s.log ++ ext ∧ ∀ v, Event.active v ∈ ext → 0 ≤ v ∧ v ≤ mx)
  · intro lo cnt dir s _ _ _
    exact ⟨[], by simp, by simp⟩
  · intro lo cnt dir s _ _ _ _
    refine ⟨[Event.seqSort lo (cnt / 2) true, Event.seqSort (lo + cnt / 2) (cnt / 2) false,
      Event.seqSort lo (cnt / 2) true, Event.seqSort (lo + cnt / 2) (cnt / 2) false], ?_, ?_⟩
    · simp
    · simp
  · intro lo cnt dir s _ _ hb s1 s2 s3 s4 e1 e2 e3 e4 h2 h4 h0 h1
    have hi : isInt32 s.activeThreads := by
      unfold isInt32 at *; omega
    have hlt : s.activeThreads + 2 < mx := by
      unfold wrap32 at hb; unfold isInt32 at hmx; omega
    have w : wrap32 (s.activeThreads + 2) = s.activeThreads + 2 :=
      wrap32_of_isInt32 _ (by unfold isInt32 at *; omega)
    have a1 : s1.activeThreads = s.activeThreads + 2 := by rw [e1]; exact w
    have a2 : s2.activeThreads = s.activeThreads + 2 := by
      rw [e2, activeThreads_recBitonicSort mx _ _ _ _ (by
        rw [a1]; unfold isInt32 at *; omega), a1]
    have a3 : s3.activeThreads = s.activeThreads + 2 := by rw [e3]; exact a2
    have a4 : s4.activeThreads = s.activeThreads + 2 := by
      rw [e4, activeThreads_recBitonicSort mx _ _ _ _ (by
        rw [a3]; unfold isInt32 at *; omega), a3]
    obtain ⟨x2, l2, b2⟩ := h2 (by omega) (by omega)
    obtain ⟨x4, l4, b4⟩ := h4 (by omega) (by omega)
    have w4 : wrap32 (s4.activeThreads - 2) = s.activeThreads := by
      rw [a4]
      unfold isInt32 at hi
      unfold wrap32
      omega
    refine ⟨[Event.active (s.activeThreads + 2), Event.create lo (cnt / 2) ASCENDING] ++ x2 ++
      [Event.create (lo + cnt / 2) (cnt / 2) DESCENDING] ++ x4 ++
      [Event.active s.activeThreads], ?_, ?_⟩
    · rw [withMerge_log, setActive_log, w4, l4, e3, logCreate_log, l2, e1, logCreate_log,
        setActive_log, w]
      simp
    · intro v hv
      simp only [List.mem_append, List.mem_cons, List.mem_singleton, Event.active.injEq,
        List.not_mem_nil, or_false, reduceCtorEq] at hv
      rcases hv with (((h | h) | h) | h) | h
      · omega
      · exact b2 v h
      · exact b4 v h
      · omega
  · intro lo cnt dir s _ _ _ _ _
    exact ⟨[Event.seqSort lo (cnt / 2) true, Event.seqSort (lo + cnt / 2) (cnt / 2) false],
      by simp, by simp⟩

/-! ## Sortedness of `recBitonicSort` -/

theorem nonDecr_transfer {a b : List Int} {lo hi : Nat} (h : NonDecr a lo hi)
    (e : ∀ n, lo ≤ n → n < hi → b.getD n 0 = a.getD n 0) : NonDecr b lo hi := by
  intro j hj i hij hi'
  rw [e i hi' (by omega), e j (by omega) hj]
  exact h j hj i hij hi'

theorem nonIncr_transfer {a b : List Int} {lo hi : Nat} (h : NonIncr a lo hi)
    (e : ∀ n, lo ≤ n → n < hi → b.getD n 0 = a.getD n 0) : NonIncr b lo hi := by
  intro j hj i hij hi'
  rw [e i hi' (by omega), e j (by omega) hj]
  exact h j hj i hij hi'

theorem bitonic_of_halves (b : List Int) (lo k : Nat) (h1 : NonDecr b lo (lo + k))
    (h2 : NonIncr b (lo + k) (lo + k + k)) : Bitonic b lo (k + k) :=
  ⟨lo + k, by omega, by omega, Or.inl ⟨h1, by rw [← Nat.add_assoc]; exact h2⟩⟩

/-- After the two library sorts the range is ascending then descending. -/
theorem seqSortHalves_halves (lo k : Nat) (s : State) (hb : lo + k + k ≤ s.a.length)
    (hno : NoOverflow s.a) :
    NonDecr (seqSortHalves lo k s).a lo (lo + k) ∧
      NonIncr (seqSortHalves lo k s).a (lo + k) (lo + k + k) := by
  rw [seqSortHalves_a]
  have p1 := qsort_perm s.a lo k cmpfunc_ascending
  constructor
  · exact nonDecr_transfer (qsort_ascending_nonDecr s.a lo k (by omega) hno)
      (fun n _ h2 => getD_qsort_outside _ _ _ _ n (Or.inl h2))
  · exact qsort_descending_nonIncr _ (lo + k) k (by rw [p1.length_eq]; omega)
      (noOverflow_of_perm hno p1)

theorem bitonicMerge_sorted (n lo : Nat) (dir : Int) (b : List Int)
    (hlen : lo + 2 ^ n ≤ b.length) (hb : Bitonic b lo (2 ^ n)) :
    (dir = ASCENDING → NonDecr (bitonicMerge lo (2 ^ n) dir b) lo (lo + 2 ^ n)) ∧
      (dir = DESCENDING → NonIncr (bitonicMerge lo (2 ^ n) dir b) lo (lo + 2 ^ n)) := by
  constructor
  · intro h
    subst h
    exact bitonicMerge_nonDecr n lo b hlen hb
  · intro h
    subst h
    exact bitonicMerge_nonIncr n lo b hlen hb

/-- A call on a range of length `2^n` whose values do not overflow the comparators
leaves the range sorted in the requested direction. -/
theorem recBitonicSort_sorted (mx : Int) (cnt lo : Nat) (dir : Int) (s : State) :
    ∀ n, cnt = 2 ^ n → lo + cnt ≤ s.a.length → NoOverflow s.a →
    (dir = ASCENDING → NonDecr (recBitonicSort mx lo cnt dir s).a lo (lo + cnt)) ∧
      (dir = DESCENDING → NonIncr (recBitonicSort mx lo cnt dir s).a lo (lo + cnt)) := by
  apply recBitonicSort_induct mx
    (fun lo cnt dir s r => ∀ n, cnt = 2 ^ n → lo + cnt ≤ s.a.length → NoOverflow s.a →
      (dir = ASCENDING → NonDecr r.a lo (lo + cnt)) ∧
        (dir = DESCENDING → NonIncr r.a lo (lo + cnt)))
  · intro lo cnt dir s hc n hn _ _
    constructor
    · intro _ j hj i hij hi
      have : i = j := by omega
      subst this
      exact le_refl _
    · intro _ j hj i hij hi
      have : i = j := by omega
      subst this
      exact le_refl _
  · intro lo cnt dir s hc _ n hn hb hno
    cases n with
    | zero => simp at hn; omega
    | succ m =>
      have e2 : 2 ^ (m + 1) = 2 ^ m + 2 ^ m := by rw [pow_succ]; omega
      have hk : cnt / 2 = 2 ^ m := by omega
      rw [hk]
      have p1 := seqSortHalves_perm lo (2 ^ m) s
      have p2 := seqSortHalves_perm lo (2 ^ m) (seqSortHalves lo (2 ^ m) s)
      obtain ⟨u, d⟩ := seqSortHalves_halves lo (2 ^ m) (seqSortHalves lo (2 ^ m) s)
        (by rw [p1.length_eq]; omega) (noOverflow_of_perm hno p1)
      have hbit := bitonic_of_halves _ lo (2 ^ m) u d
      rw [← e2] at hbit
      rw [withMerge_a, hn]
      exact bitonicMerge_sorted (m + 1) lo dir _
        (by rw [p2.length_eq, p1.length_eq]; omega) hbit
  · intro lo cnt dir s hc _ _ s1 s2 s3 s4 e1 e2' e3 e4 h2 h4 n hn hb hno
    cases n with
    | zero => simp at hn; omega
    | succ m =>
      have e2 : 2 ^ (m + 1) = 2 ^ m + 2 ^ m := by rw [pow_succ]; omega
      have hk : cnt / 2 = 2 ^ m := by omega
      rw [hk] at e1 e2' e3 e4 h2 h4
      have l1 : s1.a = s.a := by rw [e1]; rfl
      have l3 : s3.a = s2.a := by rw [e3]; rfl
      have p2 : s2.a.Perm s.a := by
        rw [e2', ← l1]
        exact recBitonicSort_perm mx _ _ _ _ (by rw [l1]; omega)
      have len4 : s4.a.length = s.a.length := by
        rw [e4, length_recBitonicSort, l3, p2.length_eq]
      have u2 := (h2 m rfl (by rw [l1]; omega) (by rw [l1]; exact hno)).1 rfl
      have d4 := (h4 m rfl (by rw [l3, p2.length_eq]; omega)
        (by rw [l3]; exact noOverflow_of_perm hno p2)).2 rfl
      have u4 : NonDecr s4.a lo (lo + 2 ^ m) := by
        apply nonDecr_transfer u2
        intro n _ hn2
        rw [e4, getD_recBitonicSort_outside mx _ _ _ _ (by rw [l3, p2.length_eq]; omega) n
          (Or.inl hn2), l3]
      have hbit := bitonic_of_halves _ lo (2 ^ m) u4 d4
      rw [← e2] at hbit
      rw [withMerge_a, setActive_a, hn]
      exact bitonicMerge_sorted (m + 1) lo dir _ (by rw [len4]; omega) hbit
  · intro lo cnt dir s hc _ _ n hn hb hno
    cases n with
    | zero => simp at hn; omega
    | succ m =>
      have e2 : 2 ^ (m + 1) = 2 ^ m + 2 ^ m := by rw [pow_succ]; omega
      have hk : cnt / 2 = 2 ^ m := by omega
      rw [hk]
      have p1 := seqSortHalves_perm lo (2 ^ m) s
      obtain ⟨u, d⟩ := seqSortHalves_halves lo (2 ^ m) s (by omega) hno
      have hbit := bitonic_of_halves _ lo (2 ^ m) u d
      rw [← e2] at hbit
      rw [withMerge_a, hn]
      exact bitonicMerge_sorted (m + 1) lo dir _ (by rw [p1.length_eq]; omega) hbit

/-! ## Auxiliary facts for the top-level statements -/

theorem foldl_and_eq (f : Nat → Bool) : ∀ (l : List Nat) (b : Bool),
    l.foldl (fun pass i => pass && f i) b = (b && l.all f)
  | [], b => by simp
  | x :: l, b => by
    simp only [List.foldl_cons, List.all_cons]
    rw [foldl_and_eq f l (b && f x), Bool.and_assoc]

/-- The verdict of `test()` is `PASS` iff every adjacent pair is in order. -/
theorem test_eq_true_iff (b : List Int) :
    test b = true ↔ ∀ i, 1 ≤ i → i < b.length → b.getD (i - 1) 0 ≤ b.getD i 0 := by
  unfold test
  rw [foldl_and_eq (fun i => decide (b.getD (i - 1) 0 ≤ b.getD i 0))]
  simp only [Bool.true_and, List.all_eq_true, List.mem_range'_1, decide_eq_true_eq]
  constructor
  · intro h i h1 h2
    exact h i ⟨h1, by omega⟩
  · intro h i hi
    exact h i hi.1 (by omega)

theorem sorted_of_nonDecr (b : List Int) (h : NonDecr b 0 b.length) : b.Sorted (· ≤ ·) := by
  apply List.pairwise_iff_getElem.mpr
  intro i j hi hj hij
  have := h j hj i (by omega) (by omega)
  rwa [List.getD_eq_getElem b 0 hi, List.getD_eq_getElem b 0 hj] at this

theorem sort_nonDecr (n : Nat) (a : List Int) (mx : Int) (hN : a.length = 2 ^ n)
    (hno : NoOverflow a) : NonDecr (sort mx (initState a)).a 0 a.length := by
  have h := (recBitonicSort_sorted mx a.length 0 ASCENDING (initState a) n hN
    (by show 0 + a.length ≤ a.length; omega) hno).1 rfl
  rw [Nat.zero_add] at h
  exact h

theorem log_extends (mx : Int) (cnt lo : Nat) (dir : Int) (s : State) :
    ∃ ext, (recBitonicSort mx lo cnt dir s).log = s.log ++ ext := by
  apply recBitonicSort_induct mx (fun _ _ _ s r => ∃ ext, r.log = s.log ++ ext)
  · intro lo cnt dir s _
    exact ⟨[], by simp⟩
  · intro lo cnt dir s _ _
    exact ⟨_, by simp only [withMerge_log, seqSortHalves_log, List.append_assoc]; rfl⟩
  · intro lo cnt dir s _ _ _ s1 s2 s3 s4 e1 _ e3 _ h2 h4
    obtain ⟨x2, l2⟩ := h2
    obtain ⟨x4, l4⟩ := h4
    refine ⟨[Event.active (wrap32 (s.activeThreads + 2)), Event.create lo (cnt / 2) ASCENDING]
      ++ x2 ++ [Event.create (lo + cnt / 2) (cnt / 2) DESCENDING] ++ x4 ++
      [Event.active (wrap32 (s4.activeThreads - 2))], ?_⟩
    rw [withMerge_log, setActive_log, l4, e3, logCreate_log, l2, e1, logCreate_log,
      setActive_log]
    simp
  · intro lo cnt dir s _ _ _
    exact ⟨_, by simp only [withMerge_log, seqSortHalves_log]; rfl⟩

theorem exchange_of_eq (a : List Int) (i j : Nat) (h : a.getD i 0 = a.getD j 0) :
    exchange a i j = a := by
  unfold exchange
  apply List.ext_getElem?
  intro n
  simp only [List.getElem?_set, List.length_set]
  by_cases h1 : j = n
  · subst h1
    by_cases h2 : j < a.length
    · rw [if_pos rfl, if_pos h2, h, List.getD_eq_getElem a 0 h2]
      simp
    · rw [if_pos rfl, if_neg h2]
      simp at h2
      simp [h2]
  · rw [if_neg h1]
    by_cases h3 : i = n
    · subst h3
      by_cases h4 : i < a.length
      · rw [if_pos rfl, if_pos h4, ← h, List.getD_eq_getElem a 0 h4]
        simp
      · rw [if_pos rfl, if_neg h4]
        simp at h4
        simp [h4]
    · rw [if_neg h3]

/-! ## Top-level statements -/

set_option maxRecDepth 100000

/-- C1, the code at a failing input: the buffer `[-2147483648, 1, 0, -1]` has length
`2^2` and holds 32-bit ints, yet with `maxThreads = 0`, and likewise with `maxThreads`
`1` or `2`, the call `sort()` ends with `[-2147483648, 0, -1, 1]`, where `a[1] > a[2]`,
and `test()` reports FAIL.  The comparator `cmpfunc_ascending(-2147483648, 1)` wraps to
a positive number, so the library sort orders the first half as `[1, -2147483648]`.
With `maxThreads = 4` the halves are sorted by the recursive branches, which compare
with `>`, and the same buffer ends sorted. -/
theorem sort_unsorted_on_comparator_overflow :
    ([-2147483648, 1, 0, -1] : List Int).length = 2 ^ 2 ∧
    (∀ x ∈ ([-2147483648, 1, 0, -1] : List Int), isInt32 x) ∧
    cmpfunc_ascending (-2147483648) 1 = 2147483647 ∧
    (sort 0 (initState [-2147483648, 1, 0, -1])).a = [-2147483648, 0, -1, 1] ∧
    ¬ ((sort 0 (initState [-2147483648, 1, 0, -1])).a.getD (2 - 1) 0 ≤
        (sort 0 (initState [-2147483648, 1, 0, -1])).a.getD 2 0) ∧
    test (sort 0 (initState [-2147483648, 1, 0, -1])).a = false ∧
    (sort 1 (initState [-2147483648, 1, 0, -1])).a = [-2147483648, 0, -1, 1] ∧
    (sort 2 (initState [-2147483648, 1, 0, -1])).a = [-2147483648, 0, -1, 1] ∧
    test (sort 2 (initState [-2147483648, 1, 0, -1])).a = false ∧
    (sort 4 (initState [-2147483648, 1, 0, -1])).a = [-2147483648, -1, 0, 1] ∧
    test (sort 4 (initState [-2147483648, 1, 0, -1])).a = true := by
  decide

/-- Where the comparators are exact `sort()` does sort: for every `N = 2^n`, every
buffer `a` of `N` ints in which no difference of two elements leaves the 32-bit range,
and every `maxThreads`, after `sort()` started with `activeThreads = 0` the buffer
satisfies `a[i-1] <= a[i]` for every `i` in `[1, N)`, and `test()` reports PASS. -/
theorem sort_sorted_of_noOverflow (n : Nat) (a : List Int) (maxThreads : Int)
    (hN : a.length = 2 ^ n) (hno : NoOverflow a) :
    (∀ i, 1 ≤ i → i < a.length →
      (sort maxThreads (initState a)).a.getD (i - 1) 0 ≤
        (sort maxThreads (initState a)).a.getD i 0) ∧
    test (sort maxThreads (initState a)).a = true := by
  have h := sort_nonDecr n a maxThreads hN hno
  have hl : (sort maxThreads (initState a)).a.length = a.length :=
    length_recBitonicSort maxThreads a.length 0 ASCENDING (initState a)
  have adj : ∀ i, 1 ≤ i → i < a.length →
      (sort maxThreads (initState a)).a.getD (i - 1) 0 ≤
        (sort maxThreads (initState a)).a.getD i 0 :=
    fun i h1 h2 => h i h2 (i - 1) (by omega) (by omega)
  refine ⟨adj, ?_⟩
  rw [test_eq_true_iff, hl]
  exact adj

/-- The buffer `[5,3,8,1,9,2,7,4]` of the specification: the run with
`maxThreads = 2` ends with `[1,2,3,4,5,7,8,9]`, and so does the run with every other
value of `maxThreads`. -/
theorem sort_sorted_of_noOverflow_witness :
    ([5, 3, 8, 1, 9, 2, 7, 4] : List Int).length = 2 ^ 3 ∧
    NoOverflow [5, 3, 8, 1, 9, 2, 7, 4] ∧
    ((∀ i, 1 ≤ i → i < ([5, 3, 8, 1, 9, 2, 7, 4] : List Int).length →
      (sort 2 (initState [5, 3, 8, 1, 9, 2, 7, 4])).a.getD (i - 1) 0 ≤
        (sort 2 (initState [5, 3, 8, 1, 9, 2, 7, 4])).a.getD i 0) ∧
      test (sort 2 (initState [5, 3, 8, 1, 9, 2, 7, 4])).a = true) ∧
    (sort 2 (initState [5, 3, 8, 1, 9, 2, 7, 4])).a = [1, 2, 3, 4, 5, 7, 8, 9] ∧
    (∀ maxThreads : Int,
      (sort maxThreads (initState [5, 3, 8, 1, 9, 2, 7, 4])).a = [1, 2, 3, 4, 5, 7, 8, 9]) :=
  ⟨by decide, by decide,
    sort_sorted_of_noOverflow 3 [5, 3, 8, 1, 9, 2, 7, 4] 2 (by decide) (by decide),
    by decide,
    fun maxThreads =>
      List.eq_of_perm_of_sorted
        ((recBitonicSort_perm maxThreads 8 0 ASCENDING (initState [5, 3, 8, 1, 9, 2, 7, 4])
          (by decide) : (sort maxThreads (initState [5, 3, 8, 1, 9, 2, 7, 4])).a.Perm
            [5, 3, 8, 1, 9, 2, 7, 4]).trans (by decide))
        (sorted_of_nonDecr _
          (by
            have h := sort_nonDecr 3 [5, 3, 8, 1, 9, 2, 7, 4] maxThreads (by decide)
              (by decide)
            have hl : (sort maxThreads (initState [5, 3, 8, 1, 9, 2, 7, 4])).a.length = 8 :=
              length_recBitonicSort maxThreads 8 0 ASCENDING _
            rw [hl]
            exact h))
        (by decide)⟩

/-- C2: for every buffer (of any length `N`), every `maxThreads` and every starting
value of the counter, the buffer after `sort()` is a permutation of the buffer
before it: the multiset of values is preserved. -/
theorem sort_perm (maxThreads : Int) (s : State) : (sort maxThreads s).a.Perm s.a :=
  recBitonicSort_perm maxThreads s.a.length 0 ASCENDING s (by omega)

/-- C3: for every `lo`, every `cnt = 2^n` and every buffer whose range
`[lo, lo+cnt)` lies inside the buffer and is bitonic, `bitonicMerge(lo, cnt, dir)`
leaves the range non-decreasing when `dir = ASCENDING` and non-increasing when
`dir = DESCENDING`. -/
theorem bitonicMerge_sorts_bitonic (n lo : Nat) (dir : Int) (a : List Int)
    (hlen : lo + 2 ^ n ≤ a.length) (hb : Bitonic a lo (2 ^ n)) :
    (dir = ASCENDING → NonDecr (bitonicMerge lo (2 ^ n) dir a) lo (lo + 2 ^ n)) ∧
    (dir = DESCENDING → NonIncr (bitonicMerge lo (2 ^ n) dir a) lo (lo + 2 ^ n)) :=
  bitonicMerge_sorted n lo dir a hlen hb

/-- Witness for C3: `bitonicMerge(0, 8, ASCENDING)` on `[1,4,6,8,7,5,3,2]`, which
rises up to index 4 and falls afterwards; the result is `[1,2,3,4,5,6,7,8]`. -/
theorem bitonicMerge_sorts_bitonic_witness :
    0 + 2 ^ 3 ≤ ([1, 4, 6, 8, 7, 5, 3, 2] : List Int).length ∧
    Bitonic [1, 4, 6, 8, 7, 5, 3, 2] 0 (2 ^ 3) ∧
    ((ASCENDING = ASCENDING →
        NonDecr (bitonicMerge 0 (2 ^ 3) ASCENDING [1, 4, 6, 8, 7, 5, 3, 2]) 0 (0 + 2 ^ 3)) ∧
      (ASCENDING = DESCENDING →
        NonIncr (bitonicMerge 0 (2 ^ 3) ASCENDING [1, 4, 6, 8, 7, 5, 3, 2]) 0 (0 + 2 ^ 3))) ∧
    bitonicMerge 0 8 ASCENDING [1, 4, 6, 8, 7, 5, 3, 2] = [1, 2, 3, 4, 5, 6, 7, 8] :=
  ⟨by decide, ⟨4, by decide, by decide, Or.inl ⟨by decide, by decide⟩⟩,
    bitonicMerge_sorts_bitonic 3 0 ASCENDING [1, 4, 6, 8, 7, 5, 3, 2] (by decide)
      ⟨4, by decide, by decide, Or.inl ⟨by decide, by decide⟩⟩,
    by decide⟩

/-- C4, the code at a failing input: on the 32-bit buffer `[2147483647, -2, 1, 0]` of
length `2^2` the run with `maxThreads = 0`, and likewise the run with `maxThreads = 2`
(library sort with the wrapping comparators on both halves), ends with
`[-2, 1, 0, 2147483647]`, which is not sorted, while the run with `maxThreads = 4`
(recursive branches, which compare with `>`) ends with `[-2, 0, 1, 2147483647]`. -/
theorem sort_budget_dependent_on_comparator_overflow :
    ([2147483647, -2, 1, 0] : List Int).length = 2 ^ 2 ∧
    (∀ x ∈ ([2147483647, -2, 1, 0] : List Int), isInt32 x) ∧
    (sort 0 (initState [2147483647, -2, 1, 0])).a = [-2, 1, 0, 2147483647] ∧
    (sort 4 (initState [2147483647, -2, 1, 0])).a = [-2, 0, 1, 2147483647] ∧
    (sort 0 (initState [2147483647, -2, 1, 0])).a ≠
      (sort 4 (initState [2147483647, -2, 1, 0])).a ∧
    (sort 2 (initState [2147483647, -2, 1, 0])).a = [-2, 1, 0, 2147483647] ∧
    (sort 2 (initState [2147483647, -2, 1, 0])).a ≠
      (sort 4 (initState [2147483647, -2, 1, 0])).a ∧
    test (sort 2 (initState [2147483647, -2, 1, 0])).a = false ∧
    test (sort 4 (initState [2147483647, -2, 1, 0])).a = true ∧
    (sort 2 (initState [2147483647, -2, 1, 0])).log =
      [Event.seqSort 0 2 true, Event.seqSort 2 2 false] ∧
    (sort 4 (initState [2147483647, -2, 1, 0])).log =
      [Event.active 2, Event.create 0 2 1, Event.seqSort 0 1 true, Event.seqSort 1 1 false,
        Event.create 2 2 0, Event.seqSort 2 1 true, Event.seqSort 3 1 false,
        Event.active 0] := by
  decide

/-- Where the comparators are exact the budget does not matter: for every `N = 2^n`,
every buffer of `N` ints in which no difference of two elements leaves the 32-bit
range, and any two values `m1`, `m2` of `maxThreads`, `sort()` ends with the same
buffer under `m1` and under `m2`. -/
theorem sort_budget_independent (n : Nat) (a : List Int) (m1 m2 : Int)
    (hN : a.length = 2 ^ n) (hno : NoOverflow a) :
    (sort m1 (initState a)).a = (sort m2 (initState a)).a := by
  have l1 : (sort m1 (initState a)).a.length = a.length :=
    length_recBitonicSort m1 a.length 0 ASCENDING (initState a)
  have l2 : (sort m2 (initState a)).a.length = a.length :=
    length_recBitonicSort m2 a.length 0 ASCENDING (initState a)
  have p1 : (sort m1 (initState a)).a.Perm a :=
    recBitonicSort_perm m1 a.length 0 ASCENDING (initState a)
      (by show 0 + a.length ≤ a.length; omega)
  have p2 : (sort m2 (initState a)).a.Perm a :=
    recBitonicSort_perm m2 a.length 0 ASCENDING (initState a)
      (by show 0 + a.length ≤ a.length; omega)
  have s1 := sort_nonDecr n a m1 hN hno
  have s2 := sort_nonDecr n a m2 hN hno
  rw [← l1] at s1
  rw [← l2] at s2
  exact List.eq_of_perm_of_sorted (p1.trans p2.symm) (sorted_of_nonDecr _ s1)
    (sorted_of_nonDecr _ s2)

/-- The buffer `[5,3,8,1,9,2,7,4]` of the specification ends as `[1,2,3,4,5,7,8,9]`
both with `maxThreads = 0`, where both halves go to the library sort, and with
`maxThreads = 8`, where branches are created down to ranges of two cells. -/
theorem sort_budget_independent_witness :
    ([5, 3, 8, 1, 9, 2, 7, 4] : List Int).length = 2 ^ 3 ∧
    NoOverflow [5, 3, 8, 1, 9, 2, 7, 4] ∧
    (sort 0 (initState [5, 3, 8, 1, 9, 2, 7, 4])).a =
      (sort 8 (initState [5, 3, 8, 1, 9, 2, 7, 4])).a ∧
    (sort 0 (initState [5, 3, 8, 1, 9, 2, 7, 4])).a = [1, 2, 3, 4, 5, 7, 8, 9] ∧
    (sort 0 (initState [5, 3, 8, 1, 9, 2, 7, 4])).log =
      [Event.seqSort 0 4 true, Event.seqSort 4 4 false] ∧
    Event.create 0 2 ASCENDING ∈ (sort 8 (initState [5, 3, 8, 1, 9, 2, 7, 4])).log :=
  ⟨by decide, by decide,
    sort_budget_independent 3 [5, 3, 8, 1, 9, 2, 7, 4] 0 8 (by decide) (by decide),
    by decide, by decide, by decide⟩

/-- C5: for every `lo`, `cnt`, `dir`, buffer, `maxThreads` and every 32-bit starting
value of `activeThreads`, the value of `activeThreads` when
`recBitonicSort(lo, cnt, dir)` returns equals its value at entry; hence `sort()`
started with `activeThreads = 0` returns with `activeThreads = 0`. -/
theorem activeThreads_restored (maxThreads : Int) (lo cnt : Nat) (dir : Int) (s : State)
    (hs : isInt32 s.activeThreads) :
    (recBitonicSort maxThreads lo cnt dir s).activeThreads = s.activeThreads ∧
    (s.activeThreads = 0 → (sort maxThreads s).activeThreads = 0) := by
  refine ⟨activeThreads_recBitonicSort maxThreads cnt lo dir s hs, ?_⟩
  intro h0
  have := activeThreads_recBitonicSort maxThreads s.a.length 0 ASCENDING s hs
  rw [h0] at this
  exact this

/-- Witness for C5: the call `recBitonicSort(0, 8, ASCENDING)` on `[5,3,8,1,9,2,7,4]`
with `maxThreads = 8`, entered with `activeThreads = 0`. -/
theorem activeThreads_restored_witness :
    isInt32 (initState [5, 3, 8, 1, 9, 2, 7, 4]).activeThreads ∧
    ((recBitonicSort 8 0 8 ASCENDING (initState [5, 3, 8, 1, 9, 2, 7, 4])).activeThreads =
        (initState [5, 3, 8, 1, 9, 2, 7, 4]).activeThreads ∧
      ((initState [5, 3, 8, 1, 9, 2, 7, 4]).activeThreads = 0 →
        (sort 8 (initState [5, 3, 8, 1, 9, 2, 7, 4])).activeThreads = 0)) :=
  ⟨by decide, activeThreads_restored 8 0 8 ASCENDING (initState [5, 3, 8, 1, 9, 2, 7, 4])
    (by decide)⟩

/-- C6: for every buffer and every 32-bit `maxThreads >= 0`, when `sort()` starts with
`activeThreads = 0` (branches run in program order), the starting value, every value
assigned to `activeThreads` during the run and the final value all lie in
`[0, maxThreads]`. -/
theorem activeThreads_bounded (maxThreads : Int) (a : List Int) (hmx : isInt32 maxThreads)
    (h0 : 0 ≤ maxThreads) :
    (0 ≤ (initState a).activeThreads ∧ (initState a).activeThreads ≤ maxThreads) ∧
    (∀ v, Event.active v ∈ (sort maxThreads (initState a)).log → 0 ≤ v ∧ v ≤ maxThreads) ∧
    (0 ≤ (sort maxThreads (initState a)).activeThreads ∧
      (sort maxThreads (initState a)).activeThreads ≤ maxThreads) := by
  have hr := activeThreads_recBitonicSort maxThreads a.length 0 ASCENDING (initState a)
    (by show isInt32 (0 : Int); decide)
  obtain ⟨ext, hl, hb⟩ := log_recBitonicSort maxThreads hmx a.length 0 ASCENDING (initState a)
    (le_refl _) h0
  refine ⟨⟨le_refl _, h0⟩, ?_, ?_⟩
  · intro v hv
    have hl' : (sort maxThreads (initState a)).log = ext := by
      show (recBitonicSort maxThreads 0 a.length ASCENDING (initState a)).log = ext
      rw [hl]
      rfl
    rw [hl'] at hv
    exact hb v hv
  · have : (sort maxThreads (initState a)).activeThreads = 0 := hr
    rw [this]
    exact ⟨le_refl _, h0⟩

/-- Witness for C6: `maxThreads = 8` on `[5,3,8,1,9,2,7,4]`, a run in which the counter
takes the values 2, 4 and 6. -/
theorem activeThreads_bounded_witness :
    isInt32 8 ∧ (0 : Int) ≤ 8 ∧
    Event.active 6 ∈ (sort 8 (initState [5, 3, 8, 1, 9, 2, 7, 4])).log ∧
    ((0 ≤ (initState [5, 3, 8, 1, 9, 2, 7, 4]).activeThreads ∧
        (initState [5, 3, 8, 1, 9, 2, 7, 4]).activeThreads ≤ 8) ∧
      (∀ v, Event.active v ∈ (sort 8 (initState [5, 3, 8, 1, 9, 2, 7, 4])).log →
        0 ≤ v ∧ v ≤ 8) ∧
      (0 ≤ (sort 8 (initState [5, 3, 8, 1, 9, 2, 7, 4])).activeThreads ∧
        (sort 8 (initState [5, 3, 8, 1, 9, 2, 7, 4])).activeThreads ≤ 8)) :=
  ⟨by decide, by decide, by decide,
    activeThreads_bounded 8 [5, 3, 8, 1, 9, 2, 7, 4] (by decide) (by decide)⟩

/-- C7 as stated fails: in `recBitonicSort(0, 2, ASCENDING)` on `[2, 1]` with
`maxThreads = 2` and `activeThreads = 0` the threshold path is not taken and
`activeThreads + 2 <= maxThreads` holds, yet the counter is never assigned and no
branch is created: the only steps are the two library sorts. -/
theorem no_split_when_budget_exactly_fits :
    1 < 2 ∧ ¬ (((2 / 2 : Nat) : Int) - ((0 : Nat) : Int) > 100) ∧
    (initState [2, 1]).activeThreads + 2 ≤ 2 ∧
    (recBitonicSort 2 0 2 ASCENDING (initState [2, 1])).log =
      [Event.seqSort 0 1 true, Event.seqSort 1 1 false] := by
  decide

/-- C7 (amended): in a call of `recBitonicSort` with `cnt > 1` that does not take the
size-threshold path (all of `maxThreads`, `maxThreads - 2`, `activeThreads` being
32-bit ints), the counter is raised by 2 and the two halves are handed to recursive
branches exactly when `activeThreads < maxThreads - 2`: then the record of the call is
the assignment `activeThreads + 2`, the creation of the branch `(lo, k, ASCENDING)`,
the record of that branch, the creation of the branch `(lo+k, k, DESCENDING)`, the
record of that branch, and the assignment back to the entry value.  Otherwise the
counter is never assigned and the record of the call is the two library sorts. -/
theorem budget_acquisition_rule (maxThreads : Int) (lo cnt : Nat) (dir : Int) (s : State)
    (hc : 1 < cnt) (ht : ¬ ((cnt / 2 : Nat) : Int) - (lo : Int) > 100)
    (hmx : isInt32 maxThreads) (hmx2 : isInt32 (maxThreads - 2))
    (hs : isInt32 s.activeThreads) :
    (s.activeThreads < maxThreads - 2 →
      ∃ x2 x4,
        (recBitonicSort maxThreads lo cnt dir s).log =
          s.log ++ [Event.active (s.activeThreads + 2), Event.create lo (cnt / 2) ASCENDING]
            ++ x2 ++ [Event.create (lo + cnt / 2) (cnt / 2) DESCENDING] ++ x4
            ++ [Event.active s.activeThreads] ∧
        (recBitonicSort maxThreads lo (cnt / 2) ASCENDING
            (logCreate lo (cnt / 2) ASCENDING (setActive (s.activeThreads + 2) s))).log =
          s.log ++ [Event.active (s.activeThreads + 2), Event.create lo (cnt / 2) ASCENDING]
            ++ x2 ∧
        (recBitonicSort maxThreads lo cnt dir s).log =
          (afterBranches maxThreads lo (cnt / 2) s).log ++ [Event.active s.activeThreads] ∧
        (afterBranches maxThreads lo (cnt / 2) s).log =
          (recBitonicSort maxThreads lo (cnt / 2) ASCENDING
            (logCreate lo (cnt / 2) ASCENDING (setActive (s.activeThreads + 2) s))).log
            ++ [Event.create (lo + cnt / 2) (cnt / 2) DESCENDING] ++ x4) ∧
    (¬ s.activeThreads < maxThreads - 2 →
      (recBitonicSort maxThreads lo cnt dir s).log =
        s.log ++ [Event.seqSort lo (cnt / 2) true, Event.seqSort (lo + cnt / 2) (cnt / 2) false] ∧
      (recBitonicSort maxThreads lo cnt dir s).activeThreads = s.activeThreads) := by
  have w2 : wrap32 (maxThreads - 2) = maxThreads - 2 := wrap32_of_isInt32 _ hmx2
  constructor
  · intro hb
    have w : wrap32 (s.activeThreads + 2) = s.activeThreads + 2 :=
      wrap32_of_isInt32 _ (by unfold isInt32 at *; omega)
    have hb' : s.activeThreads < wrap32 (maxThreads - 2) := by rw [w2]; exact hb
    rw [recBitonicSort_parallel maxThreads lo cnt dir s hc ht hb']
    unfold afterBranches
    rw [w]
    obtain ⟨x2, l2⟩ := log_extends maxThreads (cnt / 2) lo ASCENDING
      (logCreate lo (cnt / 2) ASCENDING (setActive (s.activeThreads + 2) s))
    obtain ⟨x4, l4⟩ := log_extends maxThreads (cnt / 2) (lo + cnt / 2) DESCENDING
      (logCreate (lo + cnt / 2) (cnt / 2) DESCENDING
        (recBitonicSort maxThreads lo (cnt / 2) ASCENDING
          (logCreate lo (cnt / 2) ASCENDING (setActive (s.activeThreads + 2) s))))
    have a2 := activeThreads_recBitonicSort maxThreads (cnt / 2) lo ASCENDING
      (logCreate lo (cnt / 2) ASCENDING (setActive (s.activeThreads + 2) s))
      (by
        show isInt32 (s.activeThreads + 2)
        unfold isInt32 at *; omega)
    have a4 := activeThreads_recBitonicSort maxThreads (cnt / 2) (lo + cnt / 2) DESCENDING
      (logCreate (lo + cnt / 2) (cnt / 2) DESCENDING
        (recBitonicSort maxThreads lo (cnt / 2) ASCENDING
          (logCreate lo (cnt / 2) ASCENDING (setActive (s.activeThreads + 2) s))))
      (by
        rw [logCreate_activeThreads, a2]
        show isInt32 (s.activeThreads + 2)
        unfold isInt32 at *; omega)
    rw [logCreate_activeThreads, a2] at a4
    have a4' : (recBitonicSort maxThreads (lo + cnt / 2) (cnt / 2) DESCENDING
        (logCreate (lo + cnt / 2) (cnt / 2) DESCENDING
          (recBitonicSort maxThreads lo (cnt / 2) ASCENDING
            (logCreate lo (cnt / 2) ASCENDING
              (setActive (s.activeThreads + 2) s))))).activeThreads = s.activeThreads + 2 :=
      a4
    have w4 : wrap32 (s.activeThreads + 2 - 2) = s.activeThreads := by
      unfold isInt32 at hs
      unfold wrap32
      omega
    refine ⟨x2, x4, ?_, ?_, ?_, ?_⟩
    · rw [withMerge_log, setActive_log, a4', w4, l4, logCreate_log, l2, logCreate_log,
        setActive_log]
      simp
    · rw [l2, logCreate_log, setActive_log]
      simp
    · rw [withMerge_log, setActive_log, a4', w4]
    · rw [l4, logCreate_log]
  · intro hb
    have hb' : ¬ s.activeThreads < wrap32 (maxThreads - 2) := by rw [w2]; exact hb
    rw [recBitonicSort_exhausted maxThreads lo cnt dir s hc ht hb']
    exact ⟨rfl, rfl⟩

/-- Witness for C7 (amended): `recBitonicSort(0, 4, ASCENDING)` on `[4,3,2,1]` with
`maxThreads = 8`, entered with `activeThreads = 0`; the call splits, and its record
starts with the assignment of 2 to the counter. -/
theorem budget_acquisition_rule_witness :
    1 < 4 ∧ ¬ (((4 / 2 : Nat) : Int) - ((0 : Nat) : Int) > 100) ∧
    isInt32 8 ∧ isInt32 (8 - 2) ∧ isInt32 (initState [4, 3, 2, 1]).activeThreads ∧
    (initState [4, 3, 2, 1]).activeThreads < 8 - 2 ∧
    ((initState [4, 3, 2, 1]).activeThreads < 8 - 2 →
      ∃ x2 x4,
        (recBitonicSort 8 0 4 ASCENDING (initState [4, 3, 2, 1])).log =
          (initState [4, 3, 2, 1]).log ++
            [Event.active ((initState [4, 3, 2, 1]).activeThreads + 2),
              Event.create 0 (4 / 2) ASCENDING]
            ++ x2 ++ [Event.create (0 + 4 / 2) (4 / 2) DESCENDING] ++ x4
            ++ [Event.active (initState [4, 3, 2, 1]).activeThreads] ∧
        (recBitonicSort 8 0 (4 / 2) ASCENDING
            (logCreate 0 (4 / 2) ASCENDING
              (setActive ((initState [4, 3, 2, 1]).activeThreads + 2)
                (initState [4, 3, 2, 1])))).log =
          (initState [4, 3, 2, 1]).log ++
            [Event.active ((initState [4, 3, 2, 1]).activeThreads + 2),
              Event.create 0 (4 / 2) ASCENDING]
            ++ x2 ∧
        (recBitonicSort 8 0 4 ASCENDING (initState [4, 3, 2, 1])).log =
          (afterBranches 8 0 (4 / 2) (initState [4, 3, 2, 1])).log ++
            [Event.active (initState [4, 3, 2, 1]).activeThreads] ∧
        (afterBranches 8 0 (4 / 2) (initState [4, 3, 2, 1])).log =
          (recBitonicSort 8 0 (4 / 2) ASCENDING
            (logCreate 0 (4 / 2) ASCENDING
              (setActive ((initState [4, 3, 2, 1]).activeThreads + 2)
                (initState [4, 3, 2, 1])))).log
            ++ [Event.create (0 + 4 / 2) (4 / 2) DESCENDING] ++ x4) :=
  ⟨by decide, by decide, by decide, by decide, by decide, by decide,
    (budget_acquisition_rule 8 0 4 ASCENDING (initState [4, 3, 2, 1]) (by decide)
      (by decide) (by decide) (by decide) (by decide)).1⟩

/-- C8, the code at two inputs.  A call whose halves are short (`k = 2 < 100`) is not
sorted directly: `recBitonicSort(0, 4, ASCENDING)` with `maxThreads = 8` raises the
counter and creates branches.  A call whose halves are long (`N = 4096`, `k = 2048`)
is sorted directly: `sort()` performs the two library sorts, twice, creates no branch
and never assigns the counter. -/
theorem threshold_test_selects_large_ranges :
    (4 / 2 < 100 ∧ ¬ (((4 / 2 : Nat) : Int) - ((0 : Nat) : Int) > 100) ∧
      (recBitonicSort 8 0 4 ASCENDING (initState [4, 3, 2, 1])).log =
        [Event.active 2, Event.create 0 2 1, Event.active 4, Event.create 0 1 1,
          Event.create 1 1 0, Event.active 2, Event.create 2 2 0, Event.active 4,
          Event.create 2 1 1, Event.create 3 1 0, Event.active 2, Event.active 0]) ∧
    (¬ 4096 / 2 < 100 ∧ ((4096 / 2 : Nat) : Int) - ((0 : Nat) : Int) > 100 ∧
      (sort 8 (initState (List.replicate 4096 0))).log =
        [Event.seqSort 0 2048 true, Event.seqSort 2048 2048 false,
          Event.seqSort 0 2048 true, Event.seqSort 2048 2048 false]) := by
  refine ⟨⟨by decide, by decide, by decide⟩, by decide, by decide, ?_⟩
  have hl : (initState (List.replicate 4096 0)).a.length = 4096 := List.length_replicate _ _
  unfold sort
  rw [hl, recBitonicSort_threshold 8 0 4096 ASCENDING _ (by decide) (by decide)]
  rfl

/-- C9: for every buffer, every pair of distinct in-range indices `i`, `j` and every
`dir` (in particular `ASCENDING = 1` and `DESCENDING = 0`), `compare(i, j, dir)`
performs the exchange when `dir == (a[i] > a[j])` and leaves the buffer as it is
otherwise; afterwards `a[i] <= a[j]` if `dir = ASCENDING` and `a[i] >= a[j]` if
`dir = DESCENDING`, the cells `i`, `j` hold the same two values as before, and every
other cell and the length are unchanged. -/
theorem compare_exchange_spec (a : List Int) (i j : Nat) (dir : Int) (hij : i ≠ j)
    (hi : i < a.length) (hj : j < a.length) :
    (dir = (if a.getD i 0 > a.getD j 0 then 1 else 0) →
      compare a i j dir = exchange a i j ∧
      (compare a i j dir).getD i 0 = a.getD j 0 ∧
      (compare a i j dir).getD j 0 = a.getD i 0) ∧
    (¬ dir = (if a.getD i 0 > a.getD j 0 then 1 else 0) → compare a i j dir = a) ∧
    (dir = ASCENDING → (compare a i j dir).getD i 0 ≤ (compare a i j dir).getD j 0) ∧
    (dir = DESCENDING → (compare a i j dir).getD i 0 ≥ (compare a i j dir).getD j 0) ∧
    (((compare a i j dir).getD i 0 = a.getD i 0 ∧
        (compare a i j dir).getD j 0 = a.getD j 0) ∨
      ((compare a i j dir).getD i 0 = a.getD j 0 ∧
        (compare a i j dir).getD j 0 = a.getD i 0)) ∧
    (∀ n, n ≠ i → n ≠ j → (compare a i j dir).getD n 0 = a.getD n 0) ∧
    (compare a i j dir).length = a.length := by
  have gi : (compare a i j dir).getD i 0 = loVal dir (a.getD i 0) (a.getD j 0) := by
    rw [getD_compare a i j dir hij hi hj i, if_neg hij, if_pos rfl]
  have gj : (compare a i j dir).getD j 0 = hiVal dir (a.getD i 0) (a.getD j 0) := by
    rw [getD_compare a i j dir hij hi hj j, if_pos rfl]
  rw [gi, gj]
  refine ⟨?_, ?_, ?_, ?_, ?_, ?_, length_compare a i j dir⟩
  · intro h
    refine ⟨?_, ?_, ?_⟩
    · have h' : swapCond a i j dir := h
      unfold compare
      rw [if_pos h']
    · unfold loVal
      rw [if_pos h]
    · unfold hiVal
      rw [if_pos h]
  · intro h
    have h' : ¬ swapCond a i j dir := h
    unfold compare
    rw [if_neg h']
  · intro h
    subst h
    unfold loVal hiVal ASCENDING
    by_cases c : a.getD i 0 > a.getD j 0
    · simp only [if_pos c, if_true]
      omega
    · have h1 : (1 : Int) ≠ 0 := by decide
      simp only [if_neg c, if_neg h1]
      omega
  · intro h
    subst h
    unfold loVal hiVal DESCENDING
    by_cases c : a.getD i 0 > a.getD j 0
    · have h1 : (0 : Int) ≠ 1 := by decide
      simp only [if_pos c, if_neg h1]
      omega
    · simp only [if_neg c, if_true]
      omega
  · unfold loVal hiVal
    by_cases h : dir = (if a.getD i 0 > a.getD j 0 then 1 else 0)
    · rw [if_pos h, if_pos h]
      exact Or.inr ⟨rfl, rfl⟩
    · rw [if_neg h, if_neg h]
      exact Or.inl ⟨rfl, rfl⟩
  · intro n hn1 hn2
    rw [getD_compare a i j dir hij hi hj n, if_neg hn2, if_neg hn1]

/-- Witness for C9: `compare(0, 2, ASCENDING)` on `[5, 3, 1]` exchanges the two cells
and gives `[1, 3, 5]`. -/
theorem compare_exchange_spec_witness :
    (0 : Nat) ≠ 2 ∧ 0 < ([5, 3, 1] : List Int).length ∧ 2 < ([5, 3, 1] : List Int).length ∧
    compare [5, 3, 1] 0 2 ASCENDING = [1, 3, 5] ∧
    (ASCENDING = ASCENDING →
      (compare [5, 3, 1] 0 2 ASCENDING).getD 0 0 ≤ (compare [5, 3, 1] 0 2 ASCENDING).getD 2 0) :=
  ⟨by decide, by decide, by decide, by decide,
    (compare_exchange_spec [5, 3, 1] 0 2 ASCENDING (by decide) (by decide)
      (by decide)).2.2.1⟩

/-- C10 as stated fails for `DESCENDING`: on `[7, 7]` the cells 0 and 1 are in range and
equal, and the test `dir == (a[0] > a[1])` of `compare(0, 1, DESCENDING)` is `0 == 0`,
which is true, so the exchange is performed. -/
theorem tie_is_exchanged_when_descending :
    0 < ([7, 7] : List Int).length ∧ 1 < ([7, 7] : List Int).length ∧
    ([7, 7] : List Int).getD 0 0 = ([7, 7] : List Int).getD 1 0 ∧
    swapCond [7, 7] 0 1 DESCENDING ∧
    compare [7, 7] 0 1 DESCENDING = exchange [7, 7] 0 1 := by
  decide

/-- C10 (amended): for every buffer and every `i`, `j` (in particular every in-range
pair) with `a[i] == a[j]`, `compare(i, j, ASCENDING)` does not perform the exchange
(its test is false), while the test of `compare(i, j, DESCENDING)` is true and the
exchange is performed; in both directions the buffer after `compare` is the buffer
before it. -/
theorem compare_on_ties (a : List Int) (i j : Nat) (h : a.getD i 0 = a.getD j 0) :
    ¬ swapCond a i j ASCENDING ∧ swapCond a i j DESCENDING ∧
    compare a i j ASCENDING = a ∧ compare a i j DESCENDING = a := by
  have c : ¬ a.getD i 0 > a.getD j 0 := by omega
  have n1 : ¬ swapCond a i j ASCENDING := by
    unfold swapCond ASCENDING
    rw [if_neg c]
    decide
  have n2 : swapCond a i j DESCENDING := by
    unfold swapCond DESCENDING
    rw [if_neg c]
  refine ⟨n1, n2, ?_, ?_⟩
  · unfold compare
    rw [if_neg n1]
  · unfold compare
    rw [if_pos n2]
    exact exchange_of_eq a i j h

/-- Witness for C10 (amended): the tie at cells 0 and 1 of `[7, 7]`. -/
theorem compare_on_ties_witness :
    0 < ([7, 7] : List Int).length ∧ 1 < ([7, 7] : List Int).length ∧
    ([7, 7] : List Int).getD 0 0 = ([7, 7] : List Int).getD 1 0 ∧
    (¬ swapCond [7, 7] 0 1 ASCENDING ∧ swapCond [7, 7] 0 1 DESCENDING ∧
      compare [7, 7] 0 1 ASCENDING = [7, 7] ∧ compare [7, 7] 0 1 DESCENDING = [7, 7]) :=
  ⟨by decide, by decide, by decide,
    compare_on_ties [7, 7] 0 1 (by decide)⟩

/-- C12: for every `lo`, `dir`, buffer and budget state and every `cnt <= 1`,
`recBitonicSort(lo, cnt, dir)` returns the state it was given (buffer, `activeThreads`
and record of steps) and `bitonicMerge(lo, cnt, dir)` returns the buffer it was
given; in particular `sort()` on a buffer of size at most 1 changes nothing. -/
theorem degenerate_ranges_are_noops (maxThreads : Int) (lo cnt : Nat) (dir : Int)
    (s : State) (a : List Int) (h : cnt ≤ 1) :
    recBitonicSort maxThreads lo cnt dir s = s ∧
    bitonicMerge lo cnt dir a = a ∧
    (a.length = cnt → sort maxThreads (initState a) = initState a) := by
  refine ⟨recBitonicSort_le_one maxThreads lo cnt dir s h, bitonicMerge_le_one lo cnt dir a h, ?_⟩
  intro hl
  exact recBitonicSort_le_one maxThreads 0 a.length ASCENDING (initState a) (by omega)

/-- Witness for C12: the range `(3, 1, DESCENDING)` on `[5, 3, 8, 1]` with the counter
at 4, and `sort()` on the one-element buffer `[7]`. -/
theorem degenerate_ranges_are_noops_witness :
    (1 : Nat) ≤ 1 ∧
    (recBitonicSort 8 3 1 DESCENDING { a := [5, 3, 8, 1], activeThreads := 4, log := [] } =
        { a := [5, 3, 8, 1], activeThreads := 4, log := [] } ∧
      bitonicMerge 3 1 DESCENDING [7] = [7] ∧
      (([7] : List Int).length = 1 → sort 8 (initState [7]) = initState [7])) :=
  ⟨by decide, degenerate_ranges_are_noops 8 3 1 DESCENDING
    { a := [5, 3, 8, 1], activeThreads := 4, log := [] } [7] (by decide)⟩

/-- C15 as stated fails: for the 32-bit ints `x = -2147483648`, `y = 0` both
comparators return `-2147483648`, so they have the same sign. -/
theorem comparators_same_sign_at_int_min :
    isInt32 (-2147483648) ∧ isInt32 0 ∧
    cmpfunc_ascending (-2147483648) 0 = -2147483648 ∧
    cmpfunc_descending (-2147483648) 0 = -2147483648 ∧
    ¬ (cmpfunc_ascending (-2147483648) 0 < 0 ↔ cmpfunc_descending (-2147483648) 0 > 0) := by
  decide

/-- C15 (amended): for every pair of 32-bit ints `x`, `y` (subtraction modulo `2^32`)
both comparators are `0` exactly when `x == y`; and whenever `x - y` is neither
`2^31` nor `-2^31`, `cmpfunc_descending(x, y)` is the negation of
`cmpfunc_ascending(x, y)`, so the two have opposite signs. -/
theorem comparators_inverse_except_half_range (x y : Int) (hx : isInt32 x) (hy : isInt32 y) :
    (cmpfunc_ascending x y = 0 ↔ x = y) ∧
    (cmpfunc_descending x y = 0 ↔ x = y) ∧
    (x - y ≠ 2147483648 → x - y ≠ -2147483648 →
      cmpfunc_descending x y = - cmpfunc_ascending x y ∧
      (cmpfunc_ascending x y < 0 ↔ cmpfunc_descending x y > 0) ∧
      (cmpfunc_ascending x y > 0 ↔ cmpfunc_descending x y < 0)) := by
  unfold isInt32 at hx hy
  unfold cmpfunc_ascending cmpfunc_descending wrap32
  refine ⟨by omega, by omega, ?_⟩
  intro h1 h2
  refine ⟨by omega, by omega, by omega⟩

/-- Witness for C15 (amended): `x = 2147483647`, `y = -5`, a pair whose difference
overflows. -/
theorem comparators_inverse_except_half_range_witness :
    isInt32 2147483647 ∧ isInt32 (-5) ∧
    cmpfunc_ascending 2147483647 (-5) = -2147483644 ∧
    ((cmpfunc_ascending 2147483647 (-5) = 0 ↔ (2147483647 : Int) = -5) ∧
      (cmpfunc_descending 2147483647 (-5) = 0 ↔ (2147483647 : Int) = -5) ∧
      ((2147483647 : Int) - -5 ≠ 2147483648 → (2147483647 : Int) - -5 ≠ -2147483648 →
        cmpfunc_descending 2147483647 (-5) = - cmpfunc_ascending 2147483647 (-5) ∧
        (cmpfunc_ascending 2147483647 (-5) < 0 ↔ cmpfunc_descending 2147483647 (-5) > 0) ∧
        (cmpfunc_ascending 2147483647 (-5) > 0 ↔ cmpfunc_descending 2147483647 (-5) < 0))) :=
  ⟨by decide, by decide, by decide,
    comparators_inverse_except_half_range 2147483647 (-5) (by decide) (by decide)⟩

theorem two_pow_le_256_iff (p : Nat) (hp : p ≤ 30) : (2 : Int) ^ p ≤ 256 ↔ p ≤ 8 := by
  interval_cases p <;> simp

theorem two_pow_isInt32 (p : Nat) (hp : p ≤ 30) : isInt32 ((2 : Int) ^ p) := by
  unfold isInt32
  interval_cases p <;> simp

/-- C17: for every exponent pair `(p, q)` with `0 <= p <= 30`, `main` goes on to
allocate and sort (with `maxThreads = 2^p` and `N = 2^q`) exactly when
`MIN_P <= p <= MAX_P` and `MIN_Q <= q <= MAX_Q`; otherwise it leaves with `exit(2)`
when `p` is out of range and with `exit(3)` when `p` is in range and `q` is not. -/
theorem mainConfig_accepts_iff (p : Nat) (q : Int) (hp : p ≤ 30) :
    ((∃ mt N, mainConfig p q = Outcome.run mt N) ↔
      (MIN_P ≤ p ∧ p ≤ MAX_P ∧ MIN_Q ≤ q ∧ q ≤ MAX_Q)) ∧
    (MIN_P ≤ p ∧ p ≤ MAX_P ∧ MIN_Q ≤ q ∧ q ≤ MAX_Q →
      mainConfig p q = Outcome.run (2 ^ p) (2 ^ q.toNat)) ∧
    (¬ (MIN_P ≤ p ∧ p ≤ MAX_P) → mainConfig p q = Outcome.exit 2) ∧
    (MIN_P ≤ p ∧ p ≤ MAX_P → ¬ (MIN_Q ≤ q ∧ q ≤ MAX_Q) →
      mainConfig p q = Outcome.exit 3) := by
  have hw : wrap32 ((2 : Int) ^ p) = 2 ^ p := wrap32_of_isInt32 _ (two_pow_isInt32 p hp)
  have h1 : (1 : Int) ≤ 2 ^ p := by
    have : (0 : Int) < 2 ^ p := by positivity
    omega
  have h256 := two_pow_le_256_iff p hp
  unfold mainConfig MIN_P MAX_P MIN_Q MAX_Q MAX_THREADS
  simp only [hw]
  by_cases c1 : p ≤ 8
  · have c1' : ¬ ((2 : Int) ^ p < 1 ∨ (2 : Int) ^ p > 256) := by
      have := h256.mpr c1
      omega
    rw [if_neg c1']
    by_cases c2 : q < 12 ∨ q > 24
    · rw [if_pos c2]
      refine ⟨⟨fun ⟨_, _, h⟩ => (by cases h), fun h => (by omega)⟩, fun h => by omega,
        fun h => by omega, fun _ _ => rfl⟩
    · rw [if_neg c2]
      refine ⟨⟨fun _ => by omega, fun _ => ⟨_, _, rfl⟩⟩, fun _ => rfl, fun h => by omega,
        fun _ h => by omega⟩
  · have c1' : (2 : Int) ^ p < 1 ∨ (2 : Int) ^ p > 256 := by
      have : ¬ (2 : Int) ^ p ≤ 256 := fun h => c1 (h256.mp h)
      omega
    rw [if_pos c1']
    refine ⟨⟨fun ⟨_, _, h⟩ => (by cases h), fun h => (by omega)⟩, fun h => by omega,
      fun _ => rfl, fun h => by omega⟩

/-- Witness for C17: `p = 3`, `q = 12` is accepted with `maxThreads = 8`, `N = 4096`;
`p = 9` gives `exit(2)` and `p = 3`, `q = 25` gives `exit(3)`. -/
theorem mainConfig_accepts_iff_witness :
    (3 : Nat) ≤ 30 ∧
    mainConfig 3 12 = Outcome.run 8 4096 ∧
    mainConfig 9 12 = Outcome.exit 2 ∧
    mainConfig 3 25 = Outcome.exit 3 ∧
    (MIN_P ≤ 3 ∧ 3 ≤ MAX_P ∧ MIN_Q ≤ 12 ∧ (12 : Int) ≤ MAX_Q →
      mainConfig 3 12 = Outcome.run (2 ^ 3) (2 ^ (12 : Int).toNat)) :=
  ⟨by decide, by decide, by decide, by decide, (mainConfig_accepts_iff 3 12 (by decide)).2.1⟩

/-- C20: the range `[0, 3)` of `[1, 3, 2]` is bitonic (it rises to index 2 and falls
afterwards) and its length 3 is not a power of two; `bitonicMerge(0, 3, ASCENDING)`
leaves the buffer as `[1, 3, 2]`, which is not in non-decreasing order.  Whatever the
value of the cell at index 2, it is returned as it was. -/
theorem bitonicMerge_needs_power_of_two :
    Bitonic [1, 3, 2] 0 3 ∧
    (∀ n : Nat, n ≤ 3 → 2 ^ n ≠ 3) ∧
    bitonicMerge 0 3 ASCENDING [1, 3, 2] = [1, 3, 2] ∧
    ¬ NonDecr (bitonicMerge 0 3 ASCENDING [1, 3, 2]) 0 3 ∧
    (∀ x : Int, bitonicMerge 0 3 ASCENDING [1, 3, x] = [1, 3, x]) := by
  refine ⟨⟨2, by decide, by decide, Or.inl ⟨by decide, by decide⟩⟩, by decide, by decide,
    by decide, ?_⟩
  intro x
  rw [bitonicMerge_unfold 0 3 ASCENDING _ (by decide)]
  have h3 : (3 : Nat) / 2 = 1 := rfl
  rw [h3, bitonicMerge_le_one 0 1 ASCENDING _ (le_refl _),
    bitonicMerge_le_one (0 + 1) 1 ASCENDING _ (le_refl _)]
  rfl

/-! ## Sorting twice with the library sort -/

theorem segment_qsort_self (a : List Int) (base n : Nat) (cmp : Int → Int → Int) :
    ((qsort a base n cmp).drop base).take n =
      ((a.drop base).take n).insertionSort (fun x y => cmp x y ≤ 0) := by
  by_cases hb : base ≤ a.length
  · unfold qsort
    have hl : (a.take base).length = base := by simp [hb]
    rw [List.append_assoc, List.drop_left' hl]
    have hl2 : (List.insertionSort (fun x y => cmp x y ≤ 0)
        (List.take n (List.drop base a))).length ≤ n := by
      simp only [List.length_insertionSort, List.length_take]
      omega
    by_cases hn : base + n ≤ a.length
    · have hl3 : (List.insertionSort (fun x y => cmp x y ≤ 0)
          (List.take n (List.drop base a))).length = n := by
        simp only [List.length_insertionSort, List.length_take, List.length_drop]
        omega
      rw [List.take_left' hl3]
    · have h2 : a.drop (base + n) = [] := List.drop_eq_nil_of_le (by omega)
      rw [h2, List.append_nil, List.take_of_length_le hl2]
  · have h1 : a.drop base = [] := List.drop_eq_nil_of_le (by omega)
    have h2 : (qsort a base n cmp).drop base = [] :=
      List.drop_eq_nil_of_le (by rw [length_qsort]; omega)
    rw [h1, h2]
    simp

/-- Every branch created during a call works on a range of at most half the length
of the range of the call. -/
theorem create_bound (mx : Int) (cnt lo : Nat) (dir : Int) (s : State) :
    ∃ ext, (recBitonicSort mx lo cnt dir s).log = s.log ++ ext ∧
      ∀ lo' cnt' dir', Event.create lo' cnt' dir' ∈ ext → cnt' ≤ cnt / 2 := by
  apply recBitonicSort_induct mx
    (fun _ cnt _ s r => ∃ ext, r.log = s.log ++ ext ∧
      ∀ lo' cnt' dir', Event.create lo' cnt' dir' ∈ ext → cnt' ≤ cnt / 2)
  · intro lo cnt dir s _
    exact ⟨[], by simp, by simp⟩
  · intro lo cnt dir s _ _
    exact ⟨[Event.seqSort lo (cnt / 2) true, Event.seqSort (lo + cnt / 2) (cnt / 2) false,
      Event.seqSort lo (cnt / 2) true, Event.seqSort (lo + cnt / 2) (cnt / 2) false],
      by simp, by simp⟩
  · intro lo cnt dir s _ _ _ s1 s2 s3 s4 e1 _ e3 _ h2 h4
    obtain ⟨x2, l2, b2⟩ := h2
    obtain ⟨x4, l4, b4⟩ := h4
    refine ⟨[Event.active (wrap32 (s.activeThreads + 2)), Event.create lo (cnt / 2) ASCENDING]
      ++ x2 ++ [Event.create (lo + cnt / 2) (cnt / 2) DESCENDING] ++ x4 ++
      [Event.active (wrap32 (s4.activeThreads - 2))], ?_, ?_⟩
    · rw [withMerge_log, setActive_log, l4, e3, logCreate_log, l2, e1, logCreate_log,
        setActive_log]
      simp
    · intro lo' cnt' dir' hv
      simp only [List.mem_append, List.mem_cons, List.mem_singleton, Event.create.injEq,
        List.not_mem_nil, or_false, reduceCtorEq, false_or] at hv
      rcases hv with (((h | h) | h) | h)
      · omega
      · have := b2 lo' cnt' dir' h
        omega
      · omega
      · have := b4 lo' cnt' dir' h
        omega
  · intro lo cnt dir s _ _ _
    exact ⟨[Event.seqSort lo (cnt / 2) true, Event.seqSort (lo + cnt / 2) (cnt / 2) false],
      by simp, by simp⟩

theorem compareChecked_eq (a : List Int) (i j : Nat) (dir : Int) (hi : i < a.length)
    (hj : j < a.length) : compareChecked a i j dir = some (compare a i j dir) := by
  unfold compareChecked exchangeChecked compare
  rw [if_pos ⟨hi, hj⟩]
  by_cases h : swapCond a i j dir
  · rw [if_pos h, if_pos ⟨hi, hj⟩, if_pos h]
  · rw [if_neg h, if_neg h]

theorem compareLoopChecked_eq (a : List Int) (k : Nat) (dir : Int) (lo m : Nat)
    (h : m = 0 ∨ lo + k + m ≤ a.length) :
    compareLoopChecked a k dir lo m = some (compareLoop a k dir lo m) := by
  induction m with
  | zero => rfl
  | succ m ih =>
    have hb : lo + k + (m + 1) ≤ a.length := by omega
    have ih' := ih (Or.inr (by omega))
    unfold compareLoopChecked at ih' ⊢
    rw [List.range'_concat, List.foldlM_append, ih', compareLoop_succ]
    simp only [Option.bind_eq_bind, Option.some_bind, List.foldlM_cons, List.foldlM_nil,
      Nat.one_mul]
    have hl := length_compareLoop a k dir lo m
    rw [compareChecked_eq _ _ _ _ (by omega) (by omega)]
    rfl

theorem length_bitonicMergeAux : ∀ (fuel lo cnt : Nat) (dir : Int) (a : List Int),
    (bitonicMergeAux fuel lo cnt dir a).length = a.length
  | 0, _, _, _, _ => rfl
  | fuel + 1, lo, cnt, dir, a => by
    by_cases c : cnt > 1
    · simp only [bitonicMergeAux, if_pos c]
      rw [length_bitonicMergeAux fuel, length_bitonicMergeAux fuel, length_compareLoop]
    · simp only [bitonicMergeAux, if_neg c]

theorem bitonicMergeCheckedAux_eq : ∀ (fuel lo cnt : Nat) (dir : Int) (a : List Int),
    lo + cnt ≤ a.length →
    bitonicMergeCheckedAux fuel lo cnt dir a = some (bitonicMergeAux fuel lo cnt dir a)
  | 0, _, _, _, _, _ => rfl
  | fuel + 1, lo, cnt, dir, a, h => by
    by_cases c : cnt > 1
    · simp only [bitonicMergeCheckedAux, bitonicMergeAux, if_pos c]
      have hl := length_compareLoop a (cnt / 2) dir lo (cnt / 2)
      have hl2 := length_bitonicMergeAux fuel lo (cnt / 2) dir
        (compareLoop a (cnt / 2) dir lo (cnt / 2))
      rw [compareLoopChecked_eq a (cnt / 2) dir lo (cnt / 2) (Or.inr (by omega)),
        Option.some_bind,
        bitonicMergeCheckedAux_eq fuel lo (cnt / 2) dir _ (by omega), Option.some_bind,
        bitonicMergeCheckedAux_eq fuel (lo + cnt / 2) (cnt / 2) dir _ (by omega)]
    · simp only [bitonicMergeCheckedAux, bitonicMergeAux, if_neg c]

theorem bitonicMergeChecked_eq (lo cnt : Nat) (dir : Int) (a : List Int)
    (h : lo + cnt ≤ a.length) :
    bitonicMergeChecked lo cnt dir a = some (bitonicMerge lo cnt dir a) :=
  bitonicMergeCheckedAux_eq cnt lo cnt dir a h

theorem seqSortHalvesChecked_eq (lo k : Nat) (s : State) (h : lo + k + k ≤ s.a.length) :
    seqSortHalvesChecked lo k s = some (seqSortHalves lo k s) := by
  unfold seqSortHalvesChecked qsortChecked
  rw [if_pos (by omega), Option.some_bind, if_pos (by rw [length_qsort]; omega),
    Option.some_bind]
  rfl

theorem length_recBitonicSortAux (mx : Int) : ∀ (fuel lo cnt : Nat) (dir : Int) (s : State),
    (recBitonicSortAux mx fuel lo cnt dir s).a.length = s.a.length
  | 0, _, _, _, _ => rfl
  | fuel + 1, lo, cnt, dir, s => by
    by_cases c : cnt > 1
    · simp only [recBitonicSortAux, if_pos c]
      by_cases ht : ((cnt / 2 : Nat) : Int) - (lo : Int) > 100
      · simp only [if_pos ht]
        simp [length_bitonicMerge, length_qsort]
      · by_cases hb : s.activeThreads < wrap32 (mx - 2)
        · simp only [if_neg ht, if_pos hb]
          simp only [if_true, setActive_a, length_bitonicMerge]
          rw [length_recBitonicSortAux mx fuel, logCreate_a,
            length_recBitonicSortAux mx fuel]
          rfl
        · simp only [if_neg ht, if_neg hb]
          simp [length_bitonicMerge, length_qsort]
    · simp only [recBitonicSortAux, if_neg c]

theorem recBitonicSortCheckedAux_eq (mx : Int) :
    ∀ (fuel lo cnt : Nat) (dir : Int) (s : State), lo + cnt ≤ s.a.length →
    recBitonicSortCheckedAux mx fuel lo cnt dir s =
      some (recBitonicSortAux mx fuel lo cnt dir s)
  | 0, _, _, _, _, _ => rfl
  | fuel + 1, lo, cnt, dir, s, h => by
    by_cases c : cnt > 1
    · simp only [recBitonicSortCheckedAux, recBitonicSortAux, if_pos c]
      by_cases ht : ((cnt / 2 : Nat) : Int) - (lo : Int) > 100
      · simp only [if_pos ht]
        rw [seqSortHalvesChecked_eq lo (cnt / 2) s (by omega)]
        simp only [Option.some_bind, Bool.false_eq_true, if_false]
        have hl : (seqSortHalves lo (cnt / 2) s).a.length = s.a.length :=
          (seqSortHalves_perm lo (cnt / 2) s).length_eq
        rw [seqSortHalvesChecked_eq lo (cnt / 2) _ (by omega)]
        have hl2 : (seqSortHalves lo (cnt / 2) (seqSortHalves lo (cnt / 2) s)).a.length =
            s.a.length := by
          rw [(seqSortHalves_perm lo (cnt / 2) _).length_eq, hl]
        simp only [Option.some_bind]
        rw [bitonicMergeChecked_eq lo cnt dir _ (by omega)]
        rfl
      · by_cases hb : s.activeThreads < wrap32 (mx - 2)
        · simp only [if_neg ht, if_pos hb]
          have e1 := recBitonicSortCheckedAux_eq mx fuel lo (cnt / 2) ASCENDING
            (logCreate lo (cnt / 2) ASCENDING (setActive (wrap32 (s.activeThreads + 2)) s))
            (by
              show lo + cnt / 2 ≤ s.a.length
              omega)
          rw [e1]
          simp only [Option.some_bind]
          have hl1 : (recBitonicSortAux mx fuel lo (cnt / 2) ASCENDING
              (logCreate lo (cnt / 2) ASCENDING
                (setActive (wrap32 (s.activeThreads + 2)) s))).a.length = s.a.length := by
            rw [length_recBitonicSortAux]
            rfl
          have e2 := recBitonicSortCheckedAux_eq mx fuel (lo + cnt / 2) (cnt / 2) DESCENDING
            (logCreate (lo + cnt / 2) (cnt / 2) DESCENDING
              (recBitonicSortAux mx fuel lo (cnt / 2) ASCENDING
                (logCreate lo (cnt / 2) ASCENDING
                  (setActive (wrap32 (s.activeThreads + 2)) s))))
            (by
              rw [logCreate_a, hl1]
              omega)
          rw [e2]
          simp only [Option.some_bind, if_true]
          have hl2 : (recBitonicSortAux mx fuel (lo + cnt / 2) (cnt / 2) DESCENDING
              (logCreate (lo + cnt / 2) (cnt / 2) DESCENDING
                (recBitonicSortAux mx fuel lo (cnt / 2) ASCENDING
                  (logCreate lo (cnt / 2) ASCENDING
                    (setActive (wrap32 (s.activeThreads + 2)) s))))).a.length =
              s.a.length := by
            rw [length_recBitonicSortAux, logCreate_a, hl1]
          rw [bitonicMergeChecked_eq lo cnt dir _ (by rw [setActive_a, hl2]; exact h)]
          rfl
        · simp only [if_neg ht, if_neg hb]
          simp only [Option.some_bind, Bool.false_eq_true, if_false]
          have hl : (seqSortHalves lo (cnt / 2) s).a.length = s.a.length :=
            (seqSortHalves_perm lo (cnt / 2) s).length_eq
          rw [seqSortHalvesChecked_eq lo (cnt / 2) s (by omega)]
          simp only [Option.some_bind]
          rw [bitonicMergeChecked_eq lo cnt dir _ (by omega)]
          rfl
    · simp only [recBitonicSortCheckedAux, recBitonicSortAux, if_neg c]

/-- C13: for every buffer of length `N` and every range with `lo + cnt <= N`, the
bounds-checked `bitonicMerge(lo, cnt, dir)` and the bounds-checked
`recBitonicSort(lo, cnt, dir)` never reach their out-of-range branch: they return the
result of the unchecked procedures.  (The checked procedures test every index that is
read or written, and the range of every library sort.) -/
theorem accesses_in_bounds (maxThreads : Int) (lo cnt : Nat) (dir : Int) (s : State)
    (h : lo + cnt ≤ s.a.length) :
    bitonicMergeChecked lo cnt dir s.a = some (bitonicMerge lo cnt dir s.a) ∧
    recBitonicSortChecked maxThreads lo cnt dir s =
      some (recBitonicSort maxThreads lo cnt dir s) :=
  ⟨bitonicMergeChecked_eq lo cnt dir s.a h,
    recBitonicSortCheckedAux_eq maxThreads cnt lo cnt dir s h⟩

/-- Witness for C13: the range `(0, 8)` of `[5,3,8,1,9,2,7,4]`; on a range that sticks
out of the array the checked procedures do reach the out-of-range branch. -/
theorem accesses_in_bounds_witness :
    0 + 8 ≤ (initState [5, 3, 8, 1, 9, 2, 7, 4]).a.length ∧
    (bitonicMergeChecked 0 8 ASCENDING (initState [5, 3, 8, 1, 9, 2, 7, 4]).a =
        some (bitonicMerge 0 8 ASCENDING (initState [5, 3, 8, 1, 9, 2, 7, 4]).a) ∧
      recBitonicSortChecked 4 0 8 ASCENDING (initState [5, 3, 8, 1, 9, 2, 7, 4]) =
        some (recBitonicSort 4 0 8 ASCENDING (initState [5, 3, 8, 1, 9, 2, 7, 4]))) ∧
    bitonicMergeChecked 0 4 ASCENDING [3, 2, 1] = none ∧
    recBitonicSortChecked 4 2 4 ASCENDING (initState [5, 3, 8, 1]) = none :=
  ⟨by decide, accesses_in_bounds 4 0 8 ASCENDING (initState [5, 3, 8, 1, 9, 2, 7, 4])
    (by decide), by decide, by decide⟩

/-! ## Frame and locality without range assumptions -/

theorem getD_set_eq (l : List Int) (i n : Nat) (v : Int) :
    (l.set i v).getD n 0 = if i = n ∧ i < l.length then v else l.getD n 0 := by
  rw [List.getD_eq_getElem?_getD, List.getD_eq_getElem?_getD, List.getElem?_set]
  by_cases h1 : i = n
  · by_cases h2 : i < l.length
    · rw [if_pos h1, if_pos h2, if_pos ⟨h1, h2⟩]
      rfl
    · rw [if_pos h1, if_neg h2, if_neg (fun h => h2 h.2)]
      subst h1
      rw [List.getElem?_eq_none (by omega)]
  · rw [if_neg h1, if_neg (fun h => h1 h.1)]

theorem getD_exchange (a : List Int) (i j n : Nat) :
    (exchange a i j).getD n 0 =
      if j = n ∧ j < a.length then a.getD i 0
      else if i = n ∧ i < a.length then a.getD j 0
      else a.getD n 0 := by
  unfold exchange
  simp only [getD_set_eq, List.length_set]

theorem compare_frame (a : List Int) (i j : Nat) (dir : Int) (n : Nat) (hi : n ≠ i)
    (hj : n ≠ j) : (compare a i j dir).getD n 0 = a.getD n 0 := by
  unfold compare
  by_cases h : swapCond a i j dir
  · rw [if_pos h, getD_exchange, if_neg (fun h => hj h.1.symm), if_neg (fun h => hi h.1.symm)]
  · rw [if_neg h]

theorem compare_congr (a b : List Int) (i j : Nat) (dir : Int) (n : Nat)
    (hl : a.length = b.length) (hi : a.getD i 0 = b.getD i 0) (hj : a.getD j 0 = b.getD j 0)
    (hn : a.getD n 0 = b.getD n 0) :
    (compare a i j dir).getD n 0 = (compare b i j dir).getD n 0 := by
  have hs : swapCond a i j dir ↔ swapCond b i j dir := by
    unfold swapCond
    rw [hi, hj]
  unfold compare
  by_cases h : swapCond a i j dir
  · rw [if_pos h, if_pos (hs.mp h), getD_exchange, getD_exchange, hl, hi, hj, hn]
  · rw [if_neg h, if_neg (fun h' => h (hs.mpr h'))]
    exact hn

theorem compareLoop_frame (a : List Int) (k : Nat) (dir : Int) (lo m n : Nat)
    (h1 : n < lo ∨ lo + m ≤ n) (h2 : n < lo + k ∨ lo + k + m ≤ n) :
    (compareLoop a k dir lo m).getD n 0 = a.getD n 0 := by
  induction m with
  | zero => rfl
  | succ m ih =>
    rw [compareLoop_succ, compare_frame _ _ _ _ n (by omega) (by omega)]
    exact ih (by omega) (by omega)

theorem compareLoop_segEq (L C : Nat) (a b : List Int) (k : Nat) (dir : Int) (lo m : Nat)
    (h : SegEq L C a b) (hL : L ≤ lo) (hC : m = 0 ∨ lo + k + m ≤ L + C) :
    SegEq L C (compareLoop a k dir lo m) (compareLoop b k dir lo m) := by
  induction m with
  | zero => exact h
  | succ m ih =>
    obtain ⟨il, ih⟩ := ih (Or.inr (by omega))
    rw [compareLoop_succ, compareLoop_succ]
    refine ⟨by rw [length_compare, length_compare, il], ?_⟩
    intro n hn1 hn2
    exact compare_congr _ _ _ _ _ n il (ih _ (by omega) (by omega)) (ih _ (by omega) (by omega))
      (ih n hn1 hn2)

/-- Cells outside `[lo, lo+cnt)` are not changed by `bitonicMerge(lo, cnt, dir)`,
whatever the size of the buffer. -/
theorem bitonicMerge_frame (cnt : Nat) : ∀ (lo : Nat) (dir : Int) (a : List Int) (n : Nat),
    (n < lo ∨ lo + cnt ≤ n) → (bitonicMerge lo cnt dir a).getD n 0 = a.getD n 0 := by
  induction cnt using Nat.strong_induction_on with
  | _ cnt ih =>
    intro lo dir a n hn
    by_cases c : 1 < cnt
    · rw [bitonicMerge_unfold lo cnt dir a c,
        ih (cnt / 2) (by omega) (lo + cnt / 2) dir _ n (by omega),
        ih (cnt / 2) (by omega) lo dir _ n (by omega),
        compareLoop_frame a (cnt / 2) dir lo (cnt / 2) n (by omega) (by omega)]
    · rw [bitonicMerge_le_one lo cnt dir a (by omega)]

theorem bitonicMerge_segEq (L C : Nat) (cnt : Nat) :
    ∀ (lo : Nat) (dir : Int) (a b : List Int), SegEq L C a b → L ≤ lo → lo + cnt ≤ L + C →
    SegEq L C (bitonicMerge lo cnt dir a) (bitonicMerge lo cnt dir b) := by
  induction cnt using Nat.strong_induction_on with
  | _ cnt ih =>
    intro lo dir a b h hL hC
    by_cases c : 1 < cnt
    · rw [bitonicMerge_unfold lo cnt dir a c, bitonicMerge_unfold lo cnt dir b c]
      exact ih (cnt / 2) (by omega) (lo + cnt / 2) dir _ _
        (ih (cnt / 2) (by omega) lo dir _ _
          (compareLoop_segEq L C a b (cnt / 2) dir lo (cnt / 2) h hL (Or.inr (by omega)))
          hL (by omega))
        (by omega) (by omega)
    · rw [bitonicMerge_le_one lo cnt dir a (by omega),
        bitonicMerge_le_one lo cnt dir b (by omega)]
      exact h

theorem getD_segment (l : List Int) (base n i : Nat) (hi : i < n) :
    ((l.drop base).take n).getD i 0 = l.getD (base + i) 0 := by
  rw [List.getD_eq_getElem?_getD, List.getD_eq_getElem?_getD, List.getElem?_take_of_lt hi,
    List.getElem?_drop]

theorem segment_eq_of_segEq (L C : Nat) (a b : List Int) (h : SegEq L C a b) (base n : Nat)
    (hL : L ≤ base) (hC : base + n ≤ L + C) :
    (a.drop base).take n = (b.drop base).take n := by
  apply List.ext_getElem?
  intro i
  by_cases hi : i < n
  · rw [List.getElem?_take_of_lt hi, List.getElem?_take_of_lt hi, List.getElem?_drop,
      List.getElem?_drop]
    by_cases hl : base + i < a.length
    · have hl' : base + i < b.length := by rw [← h.1]; exact hl
      have := h.2 (base + i) (by omega) (by omega)
      rw [List.getD_eq_getElem a 0 hl, List.getD_eq_getElem b 0 hl'] at this
      rw [List.getElem?_eq_getElem hl, List.getElem?_eq_getElem hl', this]
    · rw [List.getElem?_eq_none (by omega), List.getElem?_eq_none (by rw [← h.1]; omega)]
  · rw [List.getElem?_take_eq_none (by omega), List.getElem?_take_eq_none (by omega)]

theorem qsort_segEq (L C : Nat) (a b : List Int) (base n : Nat) (cmp : Int → Int → Int)
    (h : SegEq L C a b) (hL : L ≤ base) (hC : base + n ≤ L + C) :
    SegEq L C (qsort a base n cmp) (qsort b base n cmp) := by
  refine ⟨by rw [length_qsort, length_qsort, h.1], ?_⟩
  intro idx h1 h2
  by_cases c : idx < base ∨ base + n ≤ idx
  · rw [getD_qsort_outside a base n cmp idx c, getD_qsort_outside b base n cmp idx c]
    exact h.2 idx h1 h2
  · obtain ⟨i, rfl⟩ : ∃ i, idx = base + i := ⟨idx - base, by omega⟩
    rw [← getD_segment (qsort a base n cmp) base n i (by omega),
      ← getD_segment (qsort b base n cmp) base n i (by omega), segment_qsort_self,
      segment_qsort_self, segment_eq_of_segEq L C a b h base n hL hC]

theorem seqSortHalves_segEq (L C lo k : Nat) (s t : State) (h : SegEq L C s.a t.a)
    (hL : L ≤ lo) (hC : lo + k + k ≤ L + C) :
    SegEq L C (seqSortHalves lo k s).a (seqSortHalves lo k t).a := by
  rw [seqSortHalves_a, seqSortHalves_a]
  exact qsort_segEq L C _ _ (lo + k) k _ (qsort_segEq L C _ _ lo k _ h hL (by omega))
    (by omega) (by omega)

theorem seqSortHalves_frame (lo k : Nat) (s : State) (n : Nat)
    (h : n < lo ∨ lo + k + k ≤ n) : (seqSortHalves lo k s).a.getD n 0 = s.a.getD n 0 :=
  getD_seqSortHalves_outside lo k s n h

/-- Cells outside `[lo, lo+cnt)` are not changed by `recBitonicSort(lo, cnt, dir)`,
whatever the size of the buffer. -/
theorem recBitonicSort_frame (mx : Int) (cnt lo : Nat) (dir : Int) (s : State) :
    ∀ n, (n < lo ∨ lo + cnt ≤ n) →
    (recBitonicSort mx lo cnt dir s).a.getD n 0 = s.a.getD n 0 := by
  apply recBitonicSort_induct mx
    (fun lo cnt _ s r => ∀ n, (n < lo ∨ lo + cnt ≤ n) → r.a.getD n 0 = s.a.getD n 0)
  · intro lo cnt dir s _ n _
    rfl
  · intro lo cnt dir s _ _ n hn
    rw [withMerge_a, bitonicMerge_frame cnt lo dir _ n hn,
      seqSortHalves_frame _ _ _ n (by omega), seqSortHalves_frame _ _ _ n (by omega)]
  · intro lo cnt dir s _ _ _ s1 s2 s3 s4 e1 _ e3 _ h2 h4 n hn
    have l1 : s1.a = s.a := by rw [e1]; rfl
    have l3 : s3.a = s2.a := by rw [e3]; rfl
    rw [withMerge_a, setActive_a, bitonicMerge_frame cnt lo dir _ n hn, h4 n (by omega), l3,
      h2 n (by omega), l1]
  · intro lo cnt dir s _ _ _ n hn
    rw [withMerge_a, bitonicMerge_frame cnt lo dir _ n hn,
      seqSortHalves_frame _ _ _ n (by omega)]

/-- The cells that `recBitonicSort(lo, cnt, dir)` leaves in a range around
`[lo, lo+cnt)` depend only on the cells found in that range, the size of the buffer and
the value of `activeThreads` at entry. -/
theorem recBitonicSort_segEq (mx : Int) (cnt lo : Nat) (dir : Int) (s : State) :
    ∀ (L C : Nat) (t : State), t.activeThreads = s.activeThreads → SegEq L C s.a t.a →
    L ≤ lo → lo + cnt ≤ L + C →
    SegEq L C (recBitonicSort mx lo cnt dir s).a (recBitonicSort mx lo cnt dir t).a := by
  apply recBitonicSort_induct mx
    (fun lo cnt dir s r => ∀ (L C : Nat) (t : State), t.activeThreads = s.activeThreads →
      SegEq L C s.a t.a → L ≤ lo → lo + cnt ≤ L + C →
      SegEq L C r.a (recBitonicSort mx lo cnt dir t).a)
  · intro lo cnt dir s hc L C t _ h _ _
    rw [recBitonicSort_le_one mx lo cnt dir t hc]
    exact h
  · intro lo cnt dir s hc ht L C t _ h hL hC
    rw [recBitonicSort_threshold mx lo cnt dir t hc ht, withMerge_a, withMerge_a]
    exact bitonicMerge_segEq L C cnt lo dir _ _
      (seqSortHalves_segEq L C lo (cnt / 2) _ _
        (seqSortHalves_segEq L C lo (cnt / 2) s t h hL (by omega)) hL (by omega)) hL hC
  · intro lo cnt dir s hc ht hb s1 s2 s3 s4 e1 e2 e3 e4 h2 h4 L C t ha h hL hC
    have hb' : t.activeThreads < wrap32 (mx - 2) := by rw [ha]; exact hb
    rw [recBitonicSort_parallel mx lo cnt dir t hc ht hb', withMerge_a, withMerge_a,
      setActive_a, setActive_a]
    apply bitonicMerge_segEq L C cnt lo dir _ _ _ hL hC
    unfold afterBranches
    have hs1 : s1.activeThreads = wrap32 (s.activeThreads + 2) := by rw [e1]; rfl
    have hs2 : s2.activeThreads = wrap32 (s.activeThreads + 2) := by
      rw [e2, activeThreads_recBitonicSort mx _ _ _ _ (by rw [hs1]; exact wrap32_isInt32 _),
        hs1]
    have g2 := h2 L C
      (logCreate lo (cnt / 2) ASCENDING (setActive (wrap32 (t.activeThreads + 2)) t))
      (by rw [e1, ha]; rfl) (by rw [e1]; exact h) hL (by omega)
    have ht2 : (recBitonicSort mx lo (cnt / 2) ASCENDING
        (logCreate lo (cnt / 2) ASCENDING
          (setActive (wrap32 (t.activeThreads + 2)) t))).activeThreads =
        wrap32 (s.activeThreads + 2) := by
      rw [activeThreads_recBitonicSort mx _ _ _ _ (by
        show isInt32 (wrap32 (t.activeThreads + 2))
        exact wrap32_isInt32 _), ha]
      rfl
    have g4 := h4 L C
      (logCreate (lo + cnt / 2) (cnt / 2) DESCENDING
        (recBitonicSort mx lo (cnt / 2) ASCENDING
          (logCreate lo (cnt / 2) ASCENDING (setActive (wrap32 (t.activeThreads + 2)) t))))
      (by rw [e3, logCreate_activeThreads, logCreate_activeThreads, hs2, ht2])
      (by rw [e3]; exact g2) (by omega) (by omega)
    exact g4
  · intro lo cnt dir s hc ht hb L C t ha h hL hC
    have hb' : ¬ t.activeThreads < wrap32 (mx - 2) := by rw [ha]; exact hb
    rw [recBitonicSort_exhausted mx lo cnt dir t hc ht hb', withMerge_a, withMerge_a]
    exact bitonicMerge_segEq L C cnt lo dir _ _
      (seqSortHalves_segEq L C lo (cnt / 2) s t h hL (by omega)) hL hC

theorem list_eq_of_getD (a b : List Int) (hl : a.length = b.length)
    (h : ∀ n, a.getD n 0 = b.getD n 0) : a = b := by
  apply List.ext_getElem hl
  intro n h1 h2
  have := h n
  rwa [List.getD_eq_getElem a 0 h1, List.getD_eq_getElem b 0 h2] at this

/-- The two branches of a split, run in either order from the same state, give the
same buffer. -/
theorem branches_commute (mx : Int) (lo k : Nat) (s : State) (hs : isInt32 s.activeThreads) :
    (recBitonicSort mx (lo + k) k DESCENDING (recBitonicSort mx lo k ASCENDING s)).a =
      (recBitonicSort mx lo k ASCENDING (recBitonicSort mx (lo + k) k DESCENDING s)).a := by
  have lA := length_recBitonicSort mx k lo ASCENDING s
  have lB := length_recBitonicSort mx k (lo + k) DESCENDING s
  have aA := activeThreads_recBitonicSort mx k lo ASCENDING s hs
  have aB := activeThreads_recBitonicSort mx k (lo + k) DESCENDING s hs
  have fA := recBitonicSort_frame mx k lo ASCENDING s
  have fB := recBitonicSort_frame mx k (lo + k) DESCENDING s
  -- the lower branch sees the same range before and after the upper branch
  have cA := recBitonicSort_segEq mx k lo ASCENDING s lo k
    (recBitonicSort mx (lo + k) k DESCENDING s) aB
    ⟨lB.symm, fun n h1 h2 => (fB n (Or.inl h2)).symm⟩ (le_refl _) (le_refl _)
  have cB := recBitonicSort_segEq mx k (lo + k) DESCENDING s (lo + k) k
    (recBitonicSort mx lo k ASCENDING s) aA
    ⟨lA.symm, fun n h1 h2 => (fA n (Or.inr h1)).symm⟩ (le_refl _) (le_refl _)
  apply list_eq_of_getD
  · simp only [length_recBitonicSort]
  · intro n
    by_cases c1 : n < lo + k
    · rw [recBitonicSort_frame mx k (lo + k) DESCENDING (recBitonicSort mx lo k ASCENDING s) n
        (Or.inl c1)]
      by_cases c2 : lo ≤ n
      · exact cA.2 n c2 c1
      · rw [recBitonicSort_frame mx k lo ASCENDING (recBitonicSort mx (lo + k) k DESCENDING s)
          n (Or.inl (by omega)), fA n (Or.inl (by omega)), fB n (Or.inl (by omega))]
    · by_cases c2 : n < lo + k + k
      · rw [recBitonicSort_frame mx k lo ASCENDING (recBitonicSort mx (lo + k) k DESCENDING s)
          n (Or.inr (by omega))]
        exact (cB.2 n (by omega) c2).symm
      · rw [recBitonicSort_frame mx k (lo + k) DESCENDING (recBitonicSort mx lo k ASCENDING s)
          n (Or.inr (by omega)),
          recBitonicSort_frame mx k lo ASCENDING (recBitonicSort mx (lo + k) k DESCENDING s)
          n (Or.inr (by omega)), fA n (Or.inr (by omega)), fB n (Or.inr (by omega))]

/-- C14: for every buffer, `lo`, `cnt` and `dir`, `recBitonicSort(lo, cnt, dir)` and
`bitonicMerge(lo, cnt, dir)` leave the size of the buffer and every cell at an index
outside `[lo, lo+cnt)` unchanged; so the branch on `(lo, k)` changes no cell of
`[lo+k, lo+2k)` and the branch on `(lo+k, k)` changes no cell of `[lo, lo+k)`, and
(the counter holding a 32-bit value) running the two branches in either order gives
the same buffer. -/
theorem ranges_are_frames (maxThreads : Int) (lo cnt : Nat) (dir : Int) (s : State) :
    ((recBitonicSort maxThreads lo cnt dir s).a.length = s.a.length ∧
      ∀ n, (n < lo ∨ lo + cnt ≤ n) →
        (recBitonicSort maxThreads lo cnt dir s).a.getD n 0 = s.a.getD n 0) ∧
    ((bitonicMerge lo cnt dir s.a).length = s.a.length ∧
      ∀ n, (n < lo ∨ lo + cnt ≤ n) → (bitonicMerge lo cnt dir s.a).getD n 0 = s.a.getD n 0) ∧
    (isInt32 s.activeThreads →
      (recBitonicSort maxThreads (lo + cnt / 2) (cnt / 2) DESCENDING
          (recBitonicSort maxThreads lo (cnt / 2) ASCENDING s)).a =
        (recBitonicSort maxThreads lo (cnt / 2) ASCENDING
          (recBitonicSort maxThreads (lo + cnt / 2) (cnt / 2) DESCENDING s)).a) :=
  ⟨⟨length_recBitonicSort maxThreads cnt lo dir s, recBitonicSort_frame maxThreads cnt lo dir s⟩,
    ⟨length_bitonicMerge cnt lo dir s.a, bitonicMerge_frame cnt lo dir s.a⟩,
    branches_commute maxThreads lo (cnt / 2) s⟩

/-- Witness for C14: the call on `(0, 8)` of `[5,3,8,1,9,2,7,4]` with `maxThreads = 8`;
its two branches on `(0, 4)` and `(4, 4)` give `[1,3,5,8,9,7,4,2]` in either order. -/
theorem ranges_are_frames_witness :
    isInt32 (initState [5, 3, 8, 1, 9, 2, 7, 4]).activeThreads ∧
    (recBitonicSort 8 (0 + 8 / 2) (8 / 2) DESCENDING
        (recBitonicSort 8 0 (8 / 2) ASCENDING (initState [5, 3, 8, 1, 9, 2, 7, 4]))).a =
      (recBitonicSort 8 0 (8 / 2) ASCENDING
        (recBitonicSort 8 (0 + 8 / 2) (8 / 2) DESCENDING
          (initState [5, 3, 8, 1, 9, 2, 7, 4]))).a ∧
    (recBitonicSort 8 (0 + 8 / 2) (8 / 2) DESCENDING
        (recBitonicSort 8 0 (8 / 2) ASCENDING (initState [5, 3, 8, 1, 9, 2, 7, 4]))).a =
      [1, 3, 5, 8, 9, 7, 4, 2] :=
  ⟨by decide,
    (ranges_are_frames 8 0 8 ASCENDING (initState [5, 3, 8, 1, 9, 2, 7, 4])).2.2 (by decide),
    by decide⟩

/-! ## Bit operations on indices -/

theorem xor_two_pow_aux (m c r : Nat) (hr : r < 2 ^ m) :
    (2 ^ (m + 1) * c + r) ^^^ 2 ^ m = 2 ^ (m + 1) * c + (2 ^ m + r) := by
  have h2 : 2 ^ (m + 1) = 2 * 2 ^ m := by rw [pow_succ]; ring
  have hr1 : r < 2 ^ (m + 1) := by omega
  have hr2 : 2 ^ m + r < 2 ^ (m + 1) := by omega
  apply Nat.eq_of_testBit_eq
  intro b
  rw [Nat.testBit_xor, Nat.testBit_two_pow, Nat.testBit_mul_pow_two_add c hr1,
    Nat.testBit_mul_pow_two_add c hr2]
  rcases Nat.lt_trichotomy b m with hb | hb | hb
  · rw [if_pos (by omega), if_pos (by omega), Nat.testBit_two_pow_add_gt hb]
    have : ¬ m = b := by omega
    simp [this]
  · subst hb
    rw [if_pos (by omega), if_pos (by omega), Nat.testBit_two_pow_add_eq,
      Nat.testBit_lt_two_pow hr]
    simp
  · rw [if_neg (by omega), if_neg (by omega)]
    have : ¬ m = b := by omega
    simp [this]

theorem low_add (j i : Nat) (h : i % (2 * j) < j) :
    (i + j) % (2 * j) = i % (2 * j) + j := by
  have e : i + j = 2 * j * (i / (2 * j)) + (i % (2 * j) + j) := by
    have := Nat.div_add_mod i (2 * j)
    omega
  rw [e, Nat.mul_add_mod, Nat.mod_eq_of_lt (by omega)]

theorem high_sub (j i : Nat) (h : ¬ i % (2 * j) < j) :
    j ≤ i ∧ (i - j) % (2 * j) = i % (2 * j) - j := by
  have hle : i % (2 * j) ≤ i := Nat.mod_le _ _
  refine ⟨by omega, ?_⟩
  rcases Nat.eq_zero_or_pos j with h0 | hj
  · subst h0; simp
  have hlt : i % (2 * j) < 2 * j := Nat.mod_lt _ (by omega)
  have e : i - j = 2 * j * (i / (2 * j)) + (i % (2 * j) - j) := by
    have := Nat.div_add_mod i (2 * j)
    omega
  rw [e, Nat.mul_add_mod, Nat.mod_eq_of_lt (by omega)]

theorem xor_two_pow_low (m i : Nat) (h : i % (2 * 2 ^ m) < 2 ^ m) :
    i ^^^ 2 ^ m = i + 2 ^ m := by
  have h2 : 2 ^ (m + 1) = 2 * 2 ^ m := by rw [pow_succ]; ring
  have e := Nat.div_add_mod i (2 * 2 ^ m)
  have := xor_two_pow_aux m (i / (2 * 2 ^ m)) (i % (2 * 2 ^ m)) h
  rw [h2, e] at this
  rw [this]
  omega

theorem xor_two_pow_high (m i : Nat) (h : ¬ i % (2 * 2 ^ m) < 2 ^ m) :
    i ^^^ 2 ^ m = i - 2 ^ m := by
  obtain ⟨hle, hm⟩ := high_sub (2 ^ m) i h
  have hp : 0 < 2 ^ m := Nat.pow_pos (by decide)
  have hlt : i % (2 * 2 ^ m) < 2 * 2 ^ m := Nat.mod_lt _ (by omega)
  have hl : (i - 2 ^ m) % (2 * 2 ^ m) < 2 ^ m := by omega
  have e := xor_two_pow_low m (i - 2 ^ m) hl
  have e2 : i - 2 ^ m + 2 ^ m = i := by omega
  rw [e2] at e
  rw [← e, Nat.xor_assoc, Nat.xor_self, Nat.xor_zero, e]

theorem xor_two_pow_gt_iff (m i : Nat) :
    i ^^^ 2 ^ m > i ↔ i % (2 * 2 ^ m) < 2 ^ m := by
  have hp : 0 < 2 ^ m := Nat.pow_pos (by decide)
  by_cases h : i % (2 * 2 ^ m) < 2 ^ m
  · rw [xor_two_pow_low m i h]; simp [h, hp]
  · rw [xor_two_pow_high m i h]
    constructor
    · intro h'; omega
    · intro h'; exact absurd h' h

theorem and_two_pow_eq_zero (s i : Nat) : i &&& 2 ^ s = 0 ↔ i.testBit s = false := by
  constructor
  · intro h
    have := congrArg (fun x => Nat.testBit x s) h
    simpa [Nat.testBit_and, Nat.testBit_two_pow] using this
  · intro h
    apply Nat.eq_of_testBit_eq
    intro b
    rw [Nat.testBit_and, Nat.testBit_two_pow, Nat.zero_testBit]
    by_cases hb : s = b
    · subst hb; simp [h]
    · simp [hb]

theorem and_two_pow_block (s c x : Nat) (hx : x < 2 ^ s) :
    (2 ^ s * c + x) &&& 2 ^ s = 0 ↔ c % 2 = 0 := by
  rw [and_two_pow_eq_zero, Nat.testBit_mul_pow_two_add c hx]
  simp [Nat.testBit_zero]

/-! ## One pass of the inner loop -/

theorem length_impBody (j k : Nat) (b : List Int) (i : Nat) :
    (impBody j k b i).length = b.length := by
  unfold impBody
  dsimp only
  split_ifs <;> simp [length_exchange]

theorem impBody_perm (j k : Nat) (b : List Int) (i : Nat) (hi : i < b.length)
    (hij : i ^^^ j < b.length) : (impBody j k b i).Perm b := by
  unfold impBody
  dsimp only
  split_ifs
  · exact (exchange_perm _ _ _ (by simpa [length_exchange] using hi)
      (by simpa [length_exchange] using hij)).trans (exchange_perm _ _ _ hi hij)
  · exact exchange_perm _ _ _ hi hij
  · exact exchange_perm _ _ _ hi hij
  · exact List.Perm.refl _
  · exact List.Perm.refl _

theorem getD_impBody_low (j k : Nat) (b : List Int) (i n : Nat) (hj : 0 < j)
    (hx : i ^^^ j = i + j) (h2 : i + j < b.length) :
    (impBody j k b i).getD n 0 =
      if n = i then
        (if i &&& k = 0 then min (b.getD i 0) (b.getD (i + j) 0)
          else max (b.getD i 0) (b.getD (i + j) 0))
      else if n = i + j then
        (if i &&& k = 0 then max (b.getD i 0) (b.getD (i + j) 0)
          else min (b.getD i 0) (b.getD (i + j) 0))
      else b.getD n 0 := by
  have h1 : i < b.length := by omega
  unfold impBody
  simp only [hx]
  rw [if_pos (by omega)]
  by_cases hk : i &&& k = 0
  · rw [if_neg (fun h => h.1 hk), if_pos hk, if_pos hk]
    by_cases hc : b.getD i 0 > b.getD (i + j) 0
    · rw [if_pos ⟨hk, hc⟩, getD_exchange]
      by_cases e1 : n = i
      · subst e1
        rw [if_neg (by omega), if_pos ⟨rfl, h1⟩, if_pos rfl, min_eq_right (le_of_lt hc)]
      · by_cases e2 : n = i + j
        · subst e2
          rw [if_pos ⟨rfl, h2⟩, if_neg e1, if_pos rfl, max_eq_left (le_of_lt hc)]
        · rw [if_neg (fun h => e2 h.1.symm), if_neg (fun h => e1 h.1.symm), if_neg e1,
            if_neg e2]
    · rw [if_neg (fun h => hc h.2)]
      have hc' : b.getD i 0 ≤ b.getD (i + j) 0 := not_lt.mp hc
      by_cases e1 : n = i
      · subst e1
        rw [if_pos rfl, min_eq_left hc']
      · by_cases e2 : n = i + j
        · subst e2
          rw [if_neg e1, if_pos rfl, max_eq_right hc']
        · rw [if_neg e1, if_neg e2]
  · rw [if_neg (show ¬ (i &&& k = 0 ∧ b.getD i 0 > b.getD (i + j) 0) from fun h => hk h.1),
      if_neg hk, if_neg hk]
    by_cases hc : b.getD i 0 < b.getD (i + j) 0
    · rw [if_pos ⟨hk, hc⟩, getD_exchange]
      by_cases e1 : n = i
      · subst e1
        rw [if_neg (by omega), if_pos ⟨rfl, h1⟩, if_pos rfl, max_eq_right (le_of_lt hc)]
      · by_cases e2 : n = i + j
        · subst e2
          rw [if_pos ⟨rfl, h2⟩, if_neg e1, if_pos rfl, min_eq_left (le_of_lt hc)]
        · rw [if_neg (fun h => e2 h.1.symm), if_neg (fun h => e1 h.1.symm), if_neg e1,
            if_neg e2]
    · rw [if_neg (fun h => hc h.2)]
      have hc' : b.getD (i + j) 0 ≤ b.getD i 0 := not_lt.mp hc
      by_cases e1 : n = i
      · subst e1
        rw [if_pos rfl, max_eq_left hc']
      · by_cases e2 : n = i + j
        · subst e2
          rw [if_neg e1, if_pos rfl, min_eq_right hc']
        · rw [if_neg e1, if_neg e2]

theorem low_add_lt (j N c : Nat) (hN : 2 * j ∣ N) (hc : c < N) (hl : c % (2 * j) < j) :
    c + j < N := by
  obtain ⟨q, rfl⟩ := hN
  rcases Nat.eq_zero_or_pos j with h0 | hj
  · subst h0; simp at hl
  have h1 : c / (2 * j) < q := Nat.div_lt_of_lt_mul hc
  have h2 := Nat.mul_le_mul_left (2 * j) (Nat.succ_le_of_lt h1)
  have h3 := Nat.div_add_mod c (2 * j)
  rw [Nat.mul_succ] at h2
  omega

theorem impBody_high (m k : Nat) (b : List Int) (c : Nat)
    (h : ¬ c % (2 * 2 ^ m) < 2 ^ m) : impBody (2 ^ m) k b c = b := by
  unfold impBody
  dsimp only
  rw [if_neg]
  rw [xor_two_pow_gt_iff]
  exact h

theorem impInner_pre (m k N : Nat) (a : List Int) (hN : 2 * 2 ^ m ∣ N)
    (ha : a.length = N) : ∀ c, c ≤ N →
      ((List.range c).foldl (impBody (2 ^ m) k) a).length = N ∧
      ∀ n, ((List.range c).foldl (impBody (2 ^ m) k) a).getD n 0 =
        if (if n % (2 * 2 ^ m) < 2 ^ m then n else n - 2 ^ m) < c
        then impVal (2 ^ m) k a n else a.getD n 0 := by
  intro c
  induction c with
  | zero => intro _; exact ⟨ha, fun n => by simp⟩
  | succ c ih =>
    intro hc
    obtain ⟨hl, hv⟩ := ih (by omega)
    rw [List.range_succ, List.foldl_append]
    simp only [List.foldl_cons, List.foldl_nil]
    generalize (List.range c).foldl (impBody (2 ^ m) k) a = b at hl hv ⊢
    refine ⟨by rw [length_impBody]; exact hl, ?_⟩
    intro n
    have hp : 0 < 2 ^ m := Nat.pow_pos (by decide)
    by_cases hlow : c % (2 * 2 ^ m) < 2 ^ m
    · have hx := xor_two_pow_low m c hlow
      have hlt := low_add_lt (2 ^ m) N c hN (by omega) hlow
      rw [getD_impBody_low _ _ _ _ _ hp hx (by omega)]
      have hadd := low_add (2 ^ m) c hlow
      have bc : b.getD c 0 = a.getD c 0 := by rw [hv c, if_pos hlow, if_neg (by omega)]
      have bcj : b.getD (c + 2 ^ m) 0 = a.getD (c + 2 ^ m) 0 := by
        have hb1 : (if (c + 2 ^ m) % (2 * 2 ^ m) < 2 ^ m then c + 2 ^ m
            else c + 2 ^ m - 2 ^ m) = c := by
          rw [if_neg (by omega)]; omega
        rw [hv, hb1, if_neg (lt_irrefl _)]
      by_cases e1 : n = c
      · subst e1
        have hbase : (if n % (2 * 2 ^ m) < 2 ^ m then n else n - 2 ^ m) < n + 1 := by
          rw [if_pos hlow]; omega
        rw [if_pos rfl, if_pos hbase, bc, bcj]
        unfold impVal
        rw [if_pos hlow]
      · by_cases e2 : n = c + 2 ^ m
        · subst e2
          have hhigh : ¬ (c + 2 ^ m) % (2 * 2 ^ m) < 2 ^ m := by omega
          have hbase : (if (c + 2 ^ m) % (2 * 2 ^ m) < 2 ^ m then c + 2 ^ m
              else c + 2 ^ m - 2 ^ m) < c + 1 := by
            rw [if_neg hhigh]; omega
          rw [if_neg e1, if_pos rfl, if_pos hbase, bc, bcj]
          unfold impVal
          rw [if_neg hhigh, Nat.add_sub_cancel]
        · rw [if_neg e1, if_neg e2, hv n]
          by_cases hn : n % (2 * 2 ^ m) < 2 ^ m
          · simp only [if_pos hn]
            have : n < c ↔ n < c + 1 := by omega
            simp only [this]
          · obtain ⟨h1, h2⟩ := high_sub _ n hn
            simp only [if_neg hn]
            have : n - 2 ^ m < c ↔ n - 2 ^ m < c + 1 := by omega
            simp only [this]
    · rw [impBody_high m k b c hlow, hv n]
      by_cases hn : n % (2 * 2 ^ m) < 2 ^ m
      · simp only [if_pos hn]
        have : n ≠ c := fun e => hlow (e ▸ hn)
        have : n < c ↔ n < c + 1 := by omega
        simp only [this]
      · obtain ⟨h1, h2⟩ := high_sub _ n hn
        simp only [if_neg hn]
        have hlt : n % (2 * 2 ^ m) < 2 * 2 ^ m := Nat.mod_lt _ (by omega)
        have : n - 2 ^ m ≠ c := fun e => hlow (by rw [← e]; omega)
        have : n - 2 ^ m < c ↔ n - 2 ^ m < c + 1 := by omega
        simp only [this]

theorem length_impInner (m k N : Nat) (a : List Int) (hN : 2 * 2 ^ m ∣ N)
    (ha : a.length = N) : (impInner N (2 ^ m) k a).length = N :=
  (impInner_pre m k N a hN ha N (le_refl _)).1

theorem getD_impInner (m k N : Nat) (a : List Int) (hN : 2 * 2 ^ m ∣ N)
    (ha : a.length = N) (n : Nat) (hn : n < N) :
    (impInner N (2 ^ m) k a).getD n 0 = impVal (2 ^ m) k a n := by
  unfold impInner
  rw [(impInner_pre m k N a hN ha N (le_refl _)).2 n, if_pos]
  split_ifs
  · exact hn
  · exact lt_of_le_of_lt (Nat.sub_le _ _) hn

theorem impInner_perm (m k N : Nat) (a : List Int) (hN : 2 * 2 ^ m ∣ N)
    (ha : a.length = N) : (impInner N (2 ^ m) k a).Perm a := by
  have key : ∀ c, c ≤ N → ((List.range c).foldl (impBody (2 ^ m) k) a).Perm a := by
    intro c
    induction c with
    | zero => intro _; exact List.Perm.refl _
    | succ c ih =>
      intro hc
      have hl := (impInner_pre m k N a hN ha c (by omega)).1
      rw [List.range_succ, List.foldl_append]
      simp only [List.foldl_cons, List.foldl_nil]
      by_cases hlow : c % (2 * 2 ^ m) < 2 ^ m
      · have hx := xor_two_pow_low m c hlow
        have hlt := low_add_lt (2 ^ m) N c hN (by omega) hlow
        exact (impBody_perm _ _ _ _ (by omega) (by rw [hx]; omega)).trans (ih (by omega))
      · rw [impBody_high m k _ c hlow]
        exact ih (by omega)
  exact key N (le_refl _)

/-! ## Merge stages of the network, zero-one view -/

theorem high_sub_ge (j B i : Nat) (hB : 2 * j ∣ B) (hi : B ≤ i)
    (hh : ¬ i % (2 * j) < j) : B + j ≤ i := by
  obtain ⟨q, rfl⟩ := hB
  rcases Nat.eq_zero_or_pos j with h0 | hj
  · subst h0; simp
  have h1 : q ≤ i / (2 * j) := by
    rw [Nat.le_div_iff_mul_le (by omega)]
    rw [Nat.mul_comm]; exact hi
  have h2 := Nat.mul_le_mul_left (2 * j) h1
  have h3 := Nat.div_add_mod i (2 * j)
  omega

theorem halfClean_sub (j : Nat) (g g' : Nat → Prop) (b w b' w' : Nat)
    (h : HalfClean j g g' b w) (h1 : b ≤ b') (h2 : b' + w' ≤ b + w) :
    HalfClean j g g' b' w' :=
  fun i hi1 hi2 => h i (by omega) (by omega)

theorem sep_step (j : Nat) (g g' : Nat → Prop) (b w : Nat) (hb : 2 * j ∣ b)
    (hw : 2 * j ∣ w) (hc : HalfClean j g g' b (w + w)) (hs : Sep g b w) :
    Sep g' b w := by
  rcases hs with hs | hs
  · left
    intro i hi1 hi2 hg
    by_cases hl : i % (2 * j) < j
    · exact hs i hi1 hi2 (((hc i hi1 (by omega)).1 hl).mp hg).1
    · have := high_sub_ge j b i hb hi1 hl
      rcases ((hc i hi1 (by omega)).2 hl).mp hg with h | h
      · exact hs (i - j) (by omega) (by omega) h
      · exact hs i hi1 hi2 h
  · right
    intro i hi1 hi2
    by_cases hl : i % (2 * j) < j
    · have := low_add_lt j (b + w + w) i
        (Nat.dvd_add (Nat.dvd_add hb hw) hw) hi2 hl
      exact ((hc i (by omega) (by omega)).1 hl).mpr
        ⟨hs i hi1 hi2, hs (i + j) (by omega) this⟩
    · exact ((hc i (by omega) (by omega)).2 hl).mpr (Or.inr (hs i hi1 hi2))

theorem tree_step (g g' : Nat → Prop) (m : Nat) : ∀ d s q, m + 1 + d = s →
    HalfClean (2 ^ m) g g' (2 ^ s * q) (2 ^ s) → Tree g (m + 1) d (2 ^ s * q) →
    Tree g' m (d + 1) (2 ^ s * q) := by
  intro d
  induction d with
  | zero =>
    intro s q hs hc ht
    subst hs
    have e2 : 2 ^ (m + 1 + 0) = 2 ^ m + 2 ^ m := by
      rw [Nat.add_zero, pow_succ]; omega
    have hp : 0 < 2 ^ m := Nat.pow_pos (by decide)
    simp only [Tree, Nat.add_zero] at ht ⊢
    have hmod : ∀ x, (2 ^ (m + 1) * q + x) % (2 * 2 ^ m) = x % (2 * 2 ^ m) := by
      intro x
      have : 2 ^ (m + 1) = 2 * 2 ^ m := by rw [pow_succ]; omega
      rw [this, Nat.mul_add_mod]
    rw [Nat.add_zero] at hc
    apply halfClean01 g g' (2 ^ (m + 1) * q) (2 ^ m)
    · intro i hi1 hi2
      apply (hc i hi1 (by rw [Nat.add_zero] at e2; omega)).1
      obtain ⟨x, rfl⟩ := Nat.exists_eq_add_of_le hi1
      rw [hmod, Nat.mod_eq_of_lt (by omega)]
      omega
    · intro i hi1 hi2
      apply (hc i (by omega) (by rw [Nat.add_zero] at e2; omega)).2
      obtain ⟨x, rfl⟩ := Nat.exists_eq_add_of_le (show 2 ^ (m + 1) * q ≤ i by omega)
      rw [hmod, Nat.mod_eq_of_lt (by omega)]
      omega
    · rw [Nat.add_zero] at e2
      rw [← e2]
      exact ht
  | succ d ih =>
    intro s q hs hc ht
    subst hs
    have es : 2 ^ (m + 1 + (d + 1)) = 2 ^ (m + 1 + d) + 2 ^ (m + 1 + d) := by
      rw [← Nat.add_assoc, pow_succ]; omega
    have eq1 : 2 ^ (m + 1 + (d + 1)) * q = 2 ^ (m + 1 + d) * (2 * q) := by
      rw [es]; ring
    have eq2 : 2 ^ (m + 1 + (d + 1)) * q + 2 ^ (m + 1 + d) = 2 ^ (m + 1 + d) * (2 * q + 1) := by
      rw [es]; ring
    have e3 : m + (d + 1) = m + 1 + d := by omega
    obtain ⟨t1, t2, t3⟩ := ht
    have dv : 2 * 2 ^ m ∣ 2 ^ (m + 1 + d) := by
      have : 2 * 2 ^ m = 2 ^ (m + 1) := by rw [pow_succ]; omega
      rw [this]
      exact pow_dvd_pow 2 (by omega)
    refine ⟨?_, ?_, ?_⟩
    · rw [eq1] at t1 hc ⊢
      have hc' : HalfClean (2 ^ m) g g' (2 ^ (m + 1 + d) * (2 * q)) (2 ^ (m + 1 + d)) := by
        apply halfClean_sub _ _ _ _ _ _ _ hc (le_refl _)
        rw [es]
        exact Nat.add_le_add_left (Nat.le_add_right _ _) _
      exact ih (m + 1 + d) (2 * q) rfl hc' t1
    · rw [e3, eq2]
      rw [eq2] at t2
      have hc' : HalfClean (2 ^ m) g g' (2 ^ (m + 1 + d) * (2 * q + 1)) (2 ^ (m + 1 + d)) := by
        apply halfClean_sub _ _ _ _ _ _ _ hc
        · rw [← eq2]; exact Nat.le_add_right _ _
        · rw [← eq2, es, Nat.add_assoc]
      exact ih (m + 1 + d) (2 * q + 1) rfl hc' t2
    · rw [e3]
      apply sep_step (2 ^ m) g g' _ _ _ dv _ t3
      · rw [eq1]; exact Dvd.dvd.mul_right dv _
      · rw [← es]; exact hc

theorem tree_mono (g : Nat → Prop) : ∀ d b, Tree g 0 d b →
    ∀ i i', b ≤ i → i ≤ i' → i' < b + 2 ^ d → g i → g i' := by
  intro d
  induction d with
  | zero =>
    intro b _ i i' h1 h2 h3 hg
    have : i = i' := by simp at h3; omega
    rw [← this]; exact hg
  | succ d ih =>
    intro b ht i i' h1 h2 h3 hg
    obtain ⟨t1, t2, t3⟩ := ht
    rw [Nat.zero_add] at t2 t3
    have e : 2 ^ (d + 1) = 2 ^ d + 2 ^ d := by rw [pow_succ]; omega
    by_cases c1 : i' < b + 2 ^ d
    · exact ih b t1 i i' h1 h2 c1 hg
    · by_cases c2 : b + 2 ^ d ≤ i
      · exact ih _ t2 i i' c2 h2 (by omega) hg
      · rcases t3 with h | h
        · exact absurd hg (h i h1 (by omega))
        · exact h i' (by omega) (by omega)

theorem impInner_halfClean (m s N c : Nat) (t : Int) (a : List Int) (hm : m < s)
    (hN : 2 ^ s ∣ N) (ha : a.length = N) (hc : 2 ^ s * c + 2 ^ s ≤ N) :
    HalfClean (2 ^ m) (impG t c a) (impG t c (impInner N (2 ^ m) (2 ^ s) a))
      (2 ^ s * c) (2 ^ s) := by
  have dvs : 2 * 2 ^ m ∣ 2 ^ s := by
    rw [← pow_succ']; exact pow_dvd_pow 2 hm
  have dvN : 2 * 2 ^ m ∣ N := dvd_trans dvs hN
  intro i hi1 hi2
  have hiN : i < N := by omega
  obtain ⟨x, rfl⟩ := Nat.exists_eq_add_of_le hi1
  have hx : x < 2 ^ s := by omega
  have hup := and_two_pow_block s c x hx
  constructor
  · intro hl
    simp only [impG]
    rw [getD_impInner m _ N a dvN ha _ hiN]
    unfold impVal
    rw [if_pos hl]
    by_cases hc2 : c % 2 = 0
    · simp only [if_pos hc2, if_pos (hup.mpr hc2)]; exact le_min_iff
    · simp only [if_neg hc2, if_neg (fun h => hc2 (hup.mp h))]
      rw [le_max_iff, not_or]
  · intro hl
    have hge := high_sub_ge (2 ^ m) (2 ^ s * c) _ (Dvd.dvd.mul_right dvs c) hi1 hl
    have hup' := and_two_pow_block s c (x - 2 ^ m) (lt_of_le_of_lt (Nat.sub_le _ _) hx)
    have e : 2 ^ s * c + x - 2 ^ m = 2 ^ s * c + (x - 2 ^ m) := by omega
    simp only [impG]
    rw [getD_impInner m _ N a dvN ha _ hiN]
    unfold impVal
    rw [if_neg hl, e]
    by_cases hc2 : c % 2 = 0
    · simp only [if_pos hc2, if_pos (hup'.mpr hc2)]; exact le_max_iff
    · simp only [if_neg hc2, if_neg (fun h => hc2 (hup'.mp h))]
      rw [le_min_iff, not_and_or]

theorem impJLoop_zero (N k fuel : Nat) (a : List Int) : impJLoop N k fuel 0 a = a := by
  cases fuel <;> simp [impJLoop]

theorem impJLoop_succ (N k f m : Nat) (a : List Int) :
    impJLoop N k (f + 1) (2 ^ (m + 1)) a =
      impJLoop N k f (2 ^ m) (impInner N (2 ^ (m + 1)) k a) := by
  rw [impJLoop, if_pos (Nat.pow_pos (by decide))]
  have : 2 ^ (m + 1) >>> 1 = 2 ^ m := by
    rw [Nat.shiftRight_eq_div_pow, pow_succ]; simp
  rw [this]

theorem impJLoop_one (N k f : Nat) (a : List Int) :
    impJLoop N k (f + 1) (2 ^ 0) a = impInner N (2 ^ 0) k a := by
  rw [impJLoop, if_pos (Nat.pow_pos (by decide))]
  have : 2 ^ 0 >>> 1 = 0 := by decide
  rw [this, impJLoop_zero]

theorem impJLoop_spec (N d : Nat) : ∀ m fuel (a : List Int), 2 ^ (m + 1 + d) ∣ N →
    m + 1 ≤ fuel → a.length = N →
    (impJLoop N (2 ^ (m + 1 + d)) fuel (2 ^ m) a).length = N ∧
    (impJLoop N (2 ^ (m + 1 + d)) fuel (2 ^ m) a).Perm a ∧
    ∀ t c, 2 ^ (m + 1 + d) * c + 2 ^ (m + 1 + d) ≤ N →
      Tree (impG t c a) (m + 1) d (2 ^ (m + 1 + d) * c) →
      Tree (impG t c (impJLoop N (2 ^ (m + 1 + d)) fuel (2 ^ m) a)) 0 (m + 1 + d)
        (2 ^ (m + 1 + d) * c) := by
  intro m
  induction m generalizing d with
  | zero =>
    intro fuel a hN hf ha
    obtain ⟨f, rfl⟩ := Nat.exists_eq_add_of_le hf
    rw [Nat.add_comm 1 f, impJLoop_one]
    have dvN : 2 * 2 ^ 0 ∣ N :=
      dvd_trans (by rw [← pow_succ']; exact pow_dvd_pow 2 (by omega)) hN
    refine ⟨length_impInner 0 _ N a dvN ha, impInner_perm 0 _ N a dvN ha, ?_⟩
    intro t c hc ht
    have := tree_step (impG t c a) (impG t c (impInner N (2 ^ 0) (2 ^ (0 + 1 + d)) a)) 0 d
      (0 + 1 + d) c rfl (impInner_halfClean 0 _ N c t a (by omega) hN ha hc) ht
    have e : 0 + 1 + d = d + 1 := by omega
    rw [e] at this ⊢
    exact this
  | succ m ih =>
    intro fuel a hN hf ha
    obtain ⟨f, rfl⟩ := Nat.exists_eq_add_of_le hf
    have ef : m + 1 + 1 + f = (m + 1 + f) + 1 := by omega
    rw [ef, impJLoop_succ]
    have e : m + 1 + 1 + d = m + 1 + (d + 1) := by omega
    have dvN : 2 * 2 ^ (m + 1) ∣ N :=
      dvd_trans (by rw [← pow_succ']; exact pow_dvd_pow 2 (by omega)) hN
    have hl := length_impInner (m + 1) (2 ^ (m + 1 + 1 + d)) N a dvN ha
    have hp := impInner_perm (m + 1) (2 ^ (m + 1 + 1 + d)) N a dvN ha
    rw [e] at hN hl hp ⊢
    obtain ⟨h1, h2, h3⟩ := ih (d + 1) (m + 1 + f)
      (impInner N (2 ^ (m + 1)) (2 ^ (m + 1 + (d + 1))) a) hN (by omega) hl
    refine ⟨h1, h2.trans hp, ?_⟩
    intro t c hc ht
    apply h3 t c hc
    have hh := impInner_halfClean (m + 1) (m + 1 + (d + 1)) N c t a (by omega) hN ha hc
    have := tree_step _ _ (m + 1) d (m + 1 + 1 + d) c rfl (by rw [e]; exact hh)
      (by rw [e]; exact ht)
    rw [e] at this
    exact this

theorem bit01_of_sortedBlocks (s N : Nat) (a : List Int) (h : SortedBlocks s N a)
    (t : Int) (c : Nat) (hc : 2 ^ (s + 1) * c + 2 ^ (s + 1) ≤ N) :
    Bit01 (impG t c a) (2 ^ (s + 1) * c) (2 ^ (s + 1)) := by
  have e1 : 2 ^ (s + 1) = 2 ^ s + 2 ^ s := by rw [pow_succ]; omega
  have e2 : 2 ^ (s + 1) * c = 2 ^ s * (2 * c) := by rw [pow_succ]; ring
  have e3 : 2 ^ (s + 1) * c + 2 ^ s = 2 ^ s * (2 * c + 1) := by rw [pow_succ]; ring
  have hle : 2 ^ s ≤ 2 ^ (s + 1) := by rw [e1]; exact Nat.le_add_right _ _
  have hA := h t (2 * c)
    (by rw [← e2]; exact le_trans (Nat.add_le_add_left hle _) hc)
  have hB := h t (2 * c + 1) (by rw [← e3, Nat.add_assoc, ← e1]; exact hc)
  rw [← e2] at hA
  rw [← e3] at hB
  simp only [impG, Nat.mul_mod_right, if_true] at hA
  have odd : ¬ (2 * c + 1) % 2 = 0 := by omega
  simp only [impG, if_neg odd] at hB
  obtain ⟨p, q, hpq⟩ := bit01_of_mono_anti (fun i => t ≤ a.getD i 0) (2 ^ (s + 1) * c)
    (2 ^ (s + 1) * c + 2 ^ s) (2 ^ (s + 1)) (Nat.le_add_right _ _)
    (Nat.add_le_add_left hle _)
    (fun i j h1 h2 h3 hg => hA i j h1 h2 h3 hg)
    (fun i j h1 h2 h3 hg => by
      by_contra hn
      exact hB i j h1 h2 (by rw [Nat.add_assoc, ← e1]; exact h3) hn hg)
  refine ⟨p, q, ?_⟩
  by_cases hc2 : c % 2 = 0
  · left
    intro i h1 h2
    simp only [impG, if_pos hc2]
    exact hpq i h1 h2
  · right
    intro i h1 h2
    simp only [impG, if_neg hc2]
    exact not_congr (hpq i h1 h2)

theorem impJLoop_stage (s N fuel : Nat) (a : List Int) (hN : 2 ^ (s + 1) ∣ N)
    (hf : s + 1 ≤ fuel) (ha : a.length = N) (h : SortedBlocks s N a) :
    (impJLoop N (2 ^ (s + 1)) fuel (2 ^ s) a).length = N ∧
    (impJLoop N (2 ^ (s + 1)) fuel (2 ^ s) a).Perm a ∧
    SortedBlocks (s + 1) N (impJLoop N (2 ^ (s + 1)) fuel (2 ^ s) a) := by
  obtain ⟨h1, h2, h3⟩ := impJLoop_spec N 0 s fuel a hN hf ha
  refine ⟨h1, h2, ?_⟩
  intro t c hc i i' hi1 hi2 hi3 hg
  exact tree_mono _ (s + 1) _ (h3 t c hc (bit01_of_sortedBlocks s N a h t c hc)) i i' hi1 hi2
    hi3 hg

/-! ## The outer loop of the network -/

theorem impKLoop_exit (N f : Nat) (k : Int) (a : List Int) (h : ¬ k ≤ (N : Int)) :
    impKLoop N (f + 1) k a = some a := by
  rw [impKLoop, if_neg h]

theorem impKLoop_step (N f : Nat) (k : Int) (a : List Int) (h : k ≤ (N : Int)) :
    impKLoop N (f + 1) k a =
      impKLoop N f (wrap32 (2 * k)) (impJLoop N k.toNat k.toNat (k >>> 1).toNat a) := by
  rw [impKLoop, if_pos h]

theorem impKLoop_two_pow (N f s : Nat) (a : List Int) (hs : s + 2 ≤ 30)
    (h : 2 ^ (s + 1) ≤ N) :
    impKLoop N (f + 1) ((2 ^ (s + 1) : Nat) : Int) a =
      impKLoop N f ((2 ^ (s + 2) : Nat) : Int)
        (impJLoop N (2 ^ (s + 1)) (2 ^ (s + 1)) (2 ^ s) a) := by
  rw [impKLoop_step _ _ _ _ (by exact_mod_cast h)]
  have e1 : wrap32 (2 * ((2 ^ (s + 1) : Nat) : Int)) = ((2 ^ (s + 2) : Nat) : Int) := by
    have h2 := two_pow_isInt32 (s + 2) hs
    have e : (2 : Int) * ((2 ^ (s + 1) : Nat) : Int) = (2 : Int) ^ (s + 2) := by
      push_cast; ring
    rw [e, wrap32_of_isInt32 _ h2]
    push_cast; rfl
  have e2 : (((2 ^ (s + 1) : Nat) : Int) >>> 1).toNat = 2 ^ s := by
    have e : (1 : Int) = ((1 : Nat) : Int) := rfl
    rw [e, Int.shiftRight_coe_nat, Int.toNat_natCast, Nat.shiftRight_eq_div_pow, pow_succ]
    simp
  rw [e1, e2, Int.toNat_natCast]

theorem impKLoop_spec (n : Nat) (hn : n ≤ 29) : ∀ r s fuel (a : List Int), s + r = n →
    r + 1 ≤ fuel → a.length = 2 ^ n → SortedBlocks s (2 ^ n) a →
    ∃ b, impKLoop (2 ^ n) fuel ((2 ^ (s + 1) : Nat) : Int) a = some b ∧ b.Perm a ∧
      SortedBlocks n (2 ^ n) b := by
  intro r
  induction r with
  | zero =>
    intro s fuel a hs hf ha h
    obtain ⟨f, rfl⟩ := Nat.exists_eq_add_of_le hf
    have hsn : s = n := by omega
    subst hsn
    refine ⟨a, ?_, List.Perm.refl _, h⟩
    rw [Nat.add_comm, impKLoop_exit]
    rw [Nat.cast_le, not_le]
    exact Nat.pow_lt_pow_right (by decide) (by omega)
  | succ r ih =>
    intro s fuel a hs hf ha h
    obtain ⟨f, rfl⟩ := Nat.exists_eq_add_of_le hf
    have ef : r + 1 + 1 + f = (r + 1 + f) + 1 := by omega
    rw [ef, impKLoop_two_pow _ _ _ _ (by omega) (Nat.pow_le_pow_right (by decide) (by omega))]
    obtain ⟨h1, h2, h3⟩ := impJLoop_stage s (2 ^ n) (2 ^ (s + 1)) a
      (pow_dvd_pow 2 (by omega)) (le_of_lt (Nat.lt_two_pow (s + 1))) ha h
    obtain ⟨b, hb1, hb2, hb3⟩ := ih (s + 1) (r + 1 + f) _ (by omega) (by omega) h1 h3
    exact ⟨b, hb1, hb2.trans h2, hb3⟩

theorem sortedBlocks_zero (N : Nat) (a : List Int) : SortedBlocks 0 N a := by
  intro t c _ i i' h1 h2 h3 hg
  have : i = i' := by simp at h1 h3; omega
  rw [← this]; exact hg

theorem impBitonicSort_spec (n : Nat) (a : List Int) (fuel : Nat) (hn : n ≤ 29)
    (ha : a.length = 2 ^ n) (hf : n + 1 ≤ fuel) :
    ∃ b, impBitonicSort fuel a = some b ∧ b.Perm a ∧
      (∀ i, 1 ≤ i → i < a.length → b.getD (i - 1) 0 ≤ b.getD i 0) ∧ test b = true := by
  have e2 : (2 : Int) = ((2 ^ (0 + 1) : Nat) : Int) := by norm_num
  obtain ⟨b, hb1, hb2, hb3⟩ := impKLoop_spec n hn n 0 fuel a (by omega) hf ha
    (sortedBlocks_zero _ a)
  have key : ∀ i, 1 ≤ i → i < a.length → b.getD (i - 1) 0 ≤ b.getD i 0 := by
    intro i h1 h2
    have := hb3 (b.getD (i - 1) 0) 0 (by simp) (i - 1) i (by simp) (by omega)
      (by rw [ha] at h2; simpa using h2)
    simp only [impG, Nat.zero_mod, if_true] at this
    exact this (le_refl _)
  refine ⟨b, ?_, hb2, key, ?_⟩
  · unfold impBitonicSort
    rw [ha, e2]
    exact hb1
  · rw [test_eq_true_iff]
    rw [hb2.length_eq]
    exact key

/-! ## The outer loop at `N = 2^30` -/

theorem impKLoop_stuck : ∀ (fuel : Nat) (k : Int) (a : List Int),
    (k = 0 ∨ k = -2147483648 ∨ ∃ s : Nat, 1 ≤ s ∧ s ≤ 30 ∧ k = 2 ^ s) →
    impKLoop 1073741824 fuel k a = none := by
  intro fuel
  induction fuel with
  | zero => intro k a _; rw [impKLoop]
  | succ f ih =>
    intro k a hk
    have hle : k ≤ ((1073741824 : Nat) : Int) := by
      rcases hk with rfl | rfl | ⟨s, h1, h2, rfl⟩
      · decide
      · decide
      · have : (2 : Int) ^ s ≤ 2 ^ 30 := pow_le_pow_right₀ (by decide) h2
        simpa using this
    rw [impKLoop_step _ _ _ _ hle]
    apply ih
    rcases hk with rfl | rfl | ⟨s, h1, h2, rfl⟩
    · left; decide
    · left; decide
    · by_cases h30 : s = 30
      · subst h30
        right; left; decide
      · right; right
        refine ⟨s + 1, by omega, by omega, ?_⟩
        rw [← pow_succ']
        exact wrap32_of_isInt32 _ (two_pow_isInt32 (s + 1) (by omega))

/-! ## The `openmp.c` version of the network -/

theorem impJLoopOmp_eq (N : Nat) (chunk : Int) (k : Nat) (hc : 0 < chunk) :
    ∀ (fuel j : Nat) (a : List Int),
    impJLoopOmp N chunk k fuel j a = some (impJLoop N k fuel j a)
  | 0, _, _ => rfl
  | fuel + 1, j, a => by
    by_cases hj : j > 0
    · simp only [impJLoopOmp, impJLoop, if_pos hj, impInnerOmp, if_neg (not_le.mpr hc),
        Option.some_bind]
      exact impJLoopOmp_eq N chunk k hc fuel _ _
    · simp only [impJLoopOmp, impJLoop, if_neg hj]

theorem impKLoopOmp_eq (N : Nat) (chunk : Int) (hc : 0 < chunk) :
    ∀ (fuel : Nat) (k : Int) (a : List Int),
    impKLoopOmp N chunk fuel k a =
      match impKLoop N fuel k a with
      | some b => ImpOutcome.result b
      | none => ImpOutcome.outOfFuel
  | 0, _, _ => rfl
  | fuel + 1, k, a => by
    by_cases hk : k ≤ (N : Int)
    · simp only [impKLoopOmp, impKLoop, if_pos hk, impJLoopOmp_eq N chunk _ hc]
      exact impKLoopOmp_eq N chunk hc fuel _ _
    · simp only [impKLoopOmp, impKLoop, if_neg hk]

theorem impKLoopOmp_one (chunk : Int) (fuel : Nat) (a : List Int) :
    impKLoopOmp 1 chunk (fuel + 1) 2 a = ImpOutcome.result a := by
  have h : ¬ (2 : Int) ≤ ((1 : Nat) : Int) := by decide
  simp only [impKLoopOmp, if_neg h]

theorem chunk_pos (N : Nat) (t : Int) (h1 : 1 ≤ t) (h2 : t ≤ (N : Int)) :
    0 < Int.tdiv (N : Int) t := by
  rw [Int.tdiv_eq_ediv (Int.ofNat_nonneg N) (by omega)]
  have : (1 : Int) ≤ (N : Int) / t := by
    rw [Int.le_ediv_iff_mul_le (by omega)]
    omega
  omega

theorem impBitonicSort_openmp_spec (n : Nat) (a : List Int) (fuel : Nat) (mx act : Int)
    (hn : n ≤ 29) (ha : a.length = 2 ^ n) (hf : n + 1 ≤ fuel)
    (h1 : 1 ≤ wrap32 (mx - act))
    (h2 : 2 ≤ a.length → wrap32 (mx - act) ≤ (a.length : Int)) :
    ∃ b, impBitonicSort_openmp mx act fuel a = ImpOutcome.result b ∧ b.Perm a ∧
      (∀ i, 1 ≤ i → i < a.length → b.getD (i - 1) 0 ≤ b.getD i 0) ∧ test b = true := by
  have ht : ¬ wrap32 (mx - act) = 0 := by omega
  unfold impBitonicSort_openmp
  rw [if_neg ht]
  by_cases hN : 2 ≤ a.length
  · obtain ⟨b, hb1, hb2, hb3, hb4⟩ := impBitonicSort_spec n a fuel hn ha hf
    refine ⟨b, ?_, hb2, hb3, hb4⟩
    rw [impKLoopOmp_eq _ _ (chunk_pos a.length _ h1 (h2 hN))]
    unfold impBitonicSort at hb1
    rw [hb1]
  · have hl : a.length = 1 := by
      have : 0 < 2 ^ n := Nat.pow_pos (by decide)
      omega
    obtain ⟨f, rfl⟩ : ∃ f, fuel = f + 1 := ⟨fuel - 1, by omega⟩
    refine ⟨a, ?_, List.Perm.refl _, ?_, ?_⟩
    · rw [hl, impKLoopOmp_one]
    · intro i h3 h4; omega
    · rw [test_eq_true_iff]
      intro i h3 h4; omega

theorem two_pow_threads_le (p n : Nat) (hp : p ≤ 8) (hn : 12 ≤ n) :
    1 ≤ wrap32 ((2 : Int) ^ p - 0) ∧ wrap32 ((2 : Int) ^ p - 0) ≤ ((2 ^ n : Nat) : Int) := by
  have e : wrap32 ((2 : Int) ^ p - 0) = 2 ^ p := by
    rw [sub_zero]
    exact wrap32_of_isInt32 _ (two_pow_isInt32 p (by omega))
  rw [e]
  have h1 : (1 : Int) ≤ 2 ^ p := by
    have : (0 : Int) < 2 ^ p := by positivity
    omega
  refine ⟨h1, ?_⟩
  have h2 : 2 ^ p ≤ 2 ^ n := Nat.pow_le_pow_right (by decide) (by omega)
  exact_mod_cast h2

/-- C16 as stated fails, in three ways.  In `openmp.c` the chunk size is
`N/(maxThreads - activeThreads)`: for the buffer `[3,1,4,1,5,9,2,6]` (`N = 8`)
with `maxThreads = 16`, `activeThreads = 0` it is `0`, and the first
`#pragma omp parallel for schedule(static,chunk)` is reached with a chunk size
that OpenMP does not allow: the call has no result.  With
`maxThreads = activeThreads` the division traps.  And in both files, on a
buffer of `N = 2^30` ints the loop `for (k=2; k<=N; k=2*k)` never ends: after
the stage `k = 2^30` the doubling wraps to `-2^31` and then to `0`, both
`<= N`, so whatever the fuel no buffer is returned. -/
theorem impBitonicSort_without_result :
    (fun fuel : Nat => impBitonicSort_openmp 16 0 fuel [3, 1, 4, 1, 5, 9, 2, 6]) =
      (fun fuel => if fuel = 0 then ImpOutcome.outOfFuel else ImpOutcome.badChunk) ∧
    (fun fuel : Nat => impBitonicSort_openmp 4 4 fuel [3, 1, 4, 1, 5, 9, 2, 6]) =
      (fun _ => ImpOutcome.trap) ∧
    (fun fuel : Nat => impBitonicSort fuel (List.replicate 1073741824 0)) =
      (fun _ => none) ∧
    (fun fuel : Nat => impBitonicSort_openmp 1 0 fuel (List.replicate 1073741824 0)) =
      (fun _ => ImpOutcome.outOfFuel) := by
  refine ⟨?_, ?_, ?_, ?_⟩
  · funext fuel
    cases fuel with
    | zero => rfl
    | succ f => rfl
  · funext fuel
    rfl
  · funext fuel
    unfold impBitonicSort
    rw [List.length_replicate]
    exact impKLoop_stuck fuel 2 _ (Or.inr (Or.inr ⟨1, le_refl _, by decide, by norm_num⟩))
  · funext fuel
    have ht : ¬ wrap32 (1 - 0) = 0 := by decide
    unfold impBitonicSort_openmp
    rw [if_neg ht, List.length_replicate,
      impKLoopOmp_eq _ _ (chunk_pos 1073741824 _ (by decide) (by decide)),
      impKLoop_stuck fuel 2 _ (Or.inr (Or.inr ⟨1, le_refl _, by decide, by norm_num⟩))]

/-- C16 (amended): for every buffer of `N = 2^n` ints with `n <= 29`,
`impBitonicSort` (inner loop over `i` run sequentially) returns, every fuel of
at least `n + 1` rounds of the `k` loop being enough, and the buffer it leaves
is a permutation of the input with `a[i-1] <= a[i]` for every `i` in `[1, N)`,
so the `test()` that follows reports PASS.  For the `cilkPlus.c` version this
holds as it stands; for the `openmp.c` version it holds when
`maxThreads - activeThreads >= 1` and, if `N >= 2`,
`maxThreads - activeThreads <= N`, so that the chunk size is positive.  Every
run of `main` meets this: there `activeThreads = 0`, `maxThreads = 2^p` with
`p <= 8` and `N = 2^q` with `12 <= q <= 24`. -/
theorem impBitonicSort_sorts (n : Nat) (a : List Int) (fuel : Nat)
    (maxThreads activeThreads : Int) (hn : n ≤ 29) (ha : a.length = 2 ^ n)
    (hf : n + 1 ≤ fuel) :
    (∃ b, impBitonicSort fuel a = some b ∧ b.Perm a ∧
      (∀ i, 1 ≤ i → i < a.length → b.getD (i - 1) 0 ≤ b.getD i 0) ∧ test b = true) ∧
    (1 ≤ wrap32 (maxThreads - activeThreads) →
      (2 ≤ a.length → wrap32 (maxThreads - activeThreads) ≤ (a.length : Int)) →
      ∃ b, impBitonicSort_openmp maxThreads activeThreads fuel a = ImpOutcome.result b ∧
        b.Perm a ∧
        (∀ i, 1 ≤ i → i < a.length → b.getD (i - 1) 0 ≤ b.getD i 0) ∧ test b = true) ∧
    (∀ p : Nat, p ≤ 8 → 12 ≤ n → n ≤ 24 →
      ∃ b, impBitonicSort_openmp (2 ^ p) 0 fuel a = ImpOutcome.result b ∧ b.Perm a ∧
        (∀ i, 1 ≤ i → i < a.length → b.getD (i - 1) 0 ≤ b.getD i 0) ∧ test b = true) := by
  refine ⟨impBitonicSort_spec n a fuel hn ha hf,
    fun h1 h2 => impBitonicSort_openmp_spec n a fuel maxThreads activeThreads hn ha hf h1 h2,
    ?_⟩
  intro p hp h12 _
  have h := two_pow_threads_le p n hp h12
  exact impBitonicSort_openmp_spec n a fuel (2 ^ p) 0 hn ha hf h.1
    (fun _ => by rw [ha]; exact h.2)

/-- Witness for C16 (amended): the buffer `[3,1,4,1,5,9,2,6]`, in `openmp.c`
with `maxThreads = 4` and `activeThreads = 0` (chunk size `2`); both versions
return `[1,1,2,3,4,5,6,9]`; and a buffer of 4096 ints with `maxThreads = 2^3`, a
run that `main` allows. -/
theorem impBitonicSort_sorts_witness :
    impBitonicSort 4 [3, 1, 4, 1, 5, 9, 2, 6] = some [1, 1, 2, 3, 4, 5, 6, 9] ∧
    impBitonicSort_openmp 4 0 4 [3, 1, 4, 1, 5, 9, 2, 6] =
      ImpOutcome.result [1, 1, 2, 3, 4, 5, 6, 9] ∧
    (∃ b, impBitonicSort 4 [3, 1, 4, 1, 5, 9, 2, 6] = some b ∧
      b.Perm [3, 1, 4, 1, 5, 9, 2, 6] ∧
      (∀ i, 1 ≤ i → i < [3, 1, 4, 1, 5, 9, 2, 6].length → b.getD (i - 1) 0 ≤ b.getD i 0) ∧
      test b = true) ∧
    (∃ b, impBitonicSort_openmp 4 0 4 [3, 1, 4, 1, 5, 9, 2, 6] = ImpOutcome.result b ∧
      b.Perm [3, 1, 4, 1, 5, 9, 2, 6] ∧
      (∀ i, 1 ≤ i → i < [3, 1, 4, 1, 5, 9, 2, 6].length → b.getD (i - 1) 0 ≤ b.getD i 0) ∧
      test b = true) ∧
    (∃ b, impBitonicSort_openmp (2 ^ 3) 0 13 (List.replicate 4096 0) = ImpOutcome.result b ∧
      b.Perm (List.replicate 4096 0) ∧
      (∀ i, 1 ≤ i → i < (List.replicate 4096 (0 : Int)).length →
        b.getD (i - 1) 0 ≤ b.getD i 0) ∧
      test b = true) :=
  ⟨by decide, by decide,
    (impBitonicSort_sorts 3 [3, 1, 4, 1, 5, 9, 2, 6] 4 4 0 (by decide) rfl (by decide)).1,
    (impBitonicSort_sorts 3 [3, 1, 4, 1, 5, 9, 2, 6] 4 4 0 (by decide) rfl (by decide)).2.1
      (by decide) (fun _ => by decide),
    (impBitonicSort_sorts 12 (List.replicate 4096 0) 13 8 0 (by decide)
      ((List.length_replicate 4096 (0 : Int)).trans (by decide)) (by decide)).2.2 3
      (by decide) (by decide) (by decide)⟩

/-! ## The library sort on an ascending range, whatever the differences -/

theorem mem_init (N : Nat) (rand : Nat → Int) (hr : ∀ i, 0 ≤ rand i) (x : Int)
    (hx : x ∈ init N rand) : 0 ≤ x ∧ x < (N : Int) := by
  unfold init at hx
  obtain ⟨i, hi, rfl⟩ := List.mem_map.mp hx
  have hN : (0 : Int) < (N : Int) := by
    have := List.mem_range.mp hi
    omega
  exact ⟨Int.tmod_nonneg _ (hr i), Int.tmod_lt_of_pos _ hN⟩

/-- C21 as stated fails at its edge: for `x = -2147483648`, `y = 0` the
difference `x - y = -2147483648` does not overflow 32 bits, yet
`cmpfunc_descending(x, y)` computes `y - x`, which wraps to `-2147483648`; it
is not `-cmpfunc_ascending(x, y) = 2147483648`, and it is negative although
`x < y`. -/
theorem descending_wraps_at_minimal_difference :
    isInt32 (-2147483648) ∧ isInt32 0 ∧ isInt32 (-2147483648 - 0) ∧
    cmpfunc_ascending (-2147483648) 0 = -2147483648 ∧
    cmpfunc_descending (-2147483648) 0 = -2147483648 ∧
    cmpfunc_descending (-2147483648) 0 ≠ - cmpfunc_ascending (-2147483648) 0 ∧
    cmpfunc_descending (-2147483648) 0 < 0 := by
  decide

/-- C21 (amended): for every pair of ints `x`, `y` with `0 <= x, y < 2^24`, and
so for every two values that `init()` stores when `N <= 2^24`,
`cmpfunc_ascending(x, y)` is negative, zero or positive exactly when `x < y`,
`x == y` or `x > y`, and `cmpfunc_descending(x, y) == -cmpfunc_ascending(x, y)`.
More generally the three sign equivalences hold whenever `x - y` does not
overflow 32 bits, and the equation holds whenever neither `x - y` nor `y - x`
overflows 32 bits. -/
theorem comparators_order_correct (x y : Int) :
    (0 ≤ x ∧ x < 16777216 ∧ 0 ≤ y ∧ y < 16777216 →
      (cmpfunc_ascending x y < 0 ↔ x < y) ∧ (cmpfunc_ascending x y = 0 ↔ x = y) ∧
      (cmpfunc_ascending x y > 0 ↔ x > y) ∧
      cmpfunc_descending x y = - cmpfunc_ascending x y) ∧
    (isInt32 (x - y) →
      ((cmpfunc_ascending x y < 0 ↔ x < y) ∧ (cmpfunc_ascending x y = 0 ↔ x = y) ∧
        (cmpfunc_ascending x y > 0 ↔ x > y)) ∧
      (isInt32 (y - x) → cmpfunc_descending x y = - cmpfunc_ascending x y)) ∧
    (∀ (N : Nat) (rand : Nat → Int), N ≤ 16777216 → (∀ i, 0 ≤ rand i) →
      x ∈ init N rand → y ∈ init N rand →
      (cmpfunc_ascending x y < 0 ↔ x < y) ∧ (cmpfunc_ascending x y = 0 ↔ x = y) ∧
      (cmpfunc_ascending x y > 0 ↔ x > y) ∧
      cmpfunc_descending x y = - cmpfunc_ascending x y) := by
  have key : 0 ≤ x ∧ x < 16777216 ∧ 0 ≤ y ∧ y < 16777216 →
      (cmpfunc_ascending x y < 0 ↔ x < y) ∧ (cmpfunc_ascending x y = 0 ↔ x = y) ∧
      (cmpfunc_ascending x y > 0 ↔ x > y) ∧
      cmpfunc_descending x y = - cmpfunc_ascending x y := by
    intro h
    unfold cmpfunc_ascending cmpfunc_descending wrap32
    refine ⟨by omega, by omega, by omega, by omega⟩
  refine ⟨key, ?_, ?_⟩
  · intro h
    unfold isInt32 at h
    unfold cmpfunc_ascending cmpfunc_descending wrap32 isInt32
    refine ⟨⟨by omega, by omega, by omega⟩, ?_⟩
    intro h'
    omega
  · intro N rand hN hr hx hy
    have h1 := mem_init N rand hr x hx
    have h2 := mem_init N rand hr y hy
    exact key ⟨h1.1, by omega, h2.1, by omega⟩

/-- Witness for C21 (amended): `N = 4` and `rand()` returning `5, 12, 19, 26`, so
that `init()` stores `[1, 0, 3, 2]`; the pair `x = 1`, `y = 3`, for which the
comparators return `-2` and `2`. -/
theorem comparators_order_correct_witness :
    init 4 (fun i => 7 * (i : Int) + 5) = [1, 0, 3, 2] ∧
    cmpfunc_ascending 1 3 = -2 ∧ cmpfunc_descending 1 3 = 2 ∧
    ((cmpfunc_ascending 1 3 < 0 ↔ (1 : Int) < 3) ∧ (cmpfunc_ascending 1 3 = 0 ↔ (1 : Int) = 3) ∧
      (cmpfunc_ascending 1 3 > 0 ↔ (1 : Int) > 3) ∧
      cmpfunc_descending 1 3 = - cmpfunc_ascending 1 3) ∧
    (((cmpfunc_ascending 1 3 < 0 ↔ (1 : Int) < 3) ∧ (cmpfunc_ascending 1 3 = 0 ↔ (1 : Int) = 3) ∧
        (cmpfunc_ascending 1 3 > 0 ↔ (1 : Int) > 3)) ∧
      cmpfunc_descending 1 3 = - cmpfunc_ascending 1 3) ∧
    ((cmpfunc_ascending 1 3 < 0 ↔ (1 : Int) < 3) ∧ (cmpfunc_ascending 1 3 = 0 ↔ (1 : Int) = 3) ∧
      (cmpfunc_ascending 1 3 > 0 ↔ (1 : Int) > 3) ∧
      cmpfunc_descending 1 3 = - cmpfunc_ascending 1 3) :=
  ⟨by decide, by decide, by decide,
    (comparators_order_correct 1 3).1 ⟨by decide, by decide, by decide, by decide⟩,
    ⟨((comparators_order_correct 1 3).2.1 (by decide)).1,
      ((comparators_order_correct 1 3).2.1 (by decide)).2 (by decide)⟩,
    (comparators_order_correct 1 3).2.2 4 (fun i => 7 * (i : Int) + 5) (by decide)
      (fun i => Int.add_nonneg (Int.mul_nonneg (by decide) (Int.ofNat_nonneg i)) (by decide))
      (by decide) (by decide)⟩

/-! ## The budget test and the increment under interleaving -/

/-- C18, the code at a failing schedule: `sort()` on a buffer of 16 ints with
`maxThreads = 8`.  The budget test is read outside the lock, so three threads (numbers
3, 4 and 2) read `activeThreads = 4 < maxThreads - 2` one after the other before any of
them takes the lock; their three increments then bring `activeThreads` to `6`, `8` and
`10`, which exceeds `maxThreads`, with ten worker threads created.  The run can be
completed: the buffer ends sorted and `activeThreads` returns to `0`. -/
theorem budget_test_outside_lock_overruns :
    (runSchedule 8 (startSort [15, 14, 13, 12, 11, 10, 9, 8, 7, 6, 5, 4, 3, 2, 1, 0])
      [0, 0, 1, 1, 3, 4, 2]).mem.activeThreads = 4 ∧
    (runSchedule 8 (startSort [15, 14, 13, 12, 11, 10, 9, 8, 7, 6, 5, 4, 3, 2, 1, 0])
      [0, 0, 1, 1, 3, 4, 2]).threads =
      [⟨0, 16, 1, Pc.joining 1 2⟩, ⟨0, 8, 1, Pc.joining 3 4⟩, ⟨8, 8, 0, Pc.acquire⟩,
        ⟨0, 4, 1, Pc.acquire⟩, ⟨4, 4, 0, Pc.acquire⟩] ∧
    (runSchedule 8 (startSort [15, 14, 13, 12, 11, 10, 9, 8, 7, 6, 5, 4, 3, 2, 1, 0])
      [0, 0, 1, 1, 3, 4, 2, 3, 4, 2]).mem.activeThreads = 10 ∧
    ¬ ((runSchedule 8 (startSort [15, 14, 13, 12, 11, 10, 9, 8, 7, 6, 5, 4, 3, 2, 1, 0])
      [0, 0, 1, 1, 3, 4, 2, 3, 4, 2]).mem.activeThreads ≤ 8) ∧
    (runSchedule 8 (startSort [15, 14, 13, 12, 11, 10, 9, 8, 7, 6, 5, 4, 3, 2, 1, 0])
      [0, 0, 1, 1, 3, 4, 2, 3, 4, 2]).mem.log =
      [Event.active 2, Event.create 0 8 1, Event.create 8 8 0,
        Event.active 4, Event.create 0 4 1, Event.create 4 4 0,
        Event.active 6, Event.create 0 2 1, Event.create 2 2 0,
        Event.active 8, Event.create 4 2 1, Event.create 6 2 0,
        Event.active 10, Event.create 8 4 1, Event.create 12 4 0] ∧
    (runSchedule 8 (startSort [15, 14, 13, 12, 11, 10, 9, 8, 7, 6, 5, 4, 3, 2, 1, 0])
      [0, 0, 1, 1, 3, 4, 2, 3, 4, 2]).threads.length = 11 ∧
    (runSchedule 8 (startSort [15, 14, 13, 12, 11, 10, 9, 8, 7, 6, 5, 4, 3, 2, 1, 0])
      [0, 0, 1, 1, 3, 4, 2, 3, 4, 2, 5, 6, 7, 8, 9, 10, 3, 4, 1, 2, 0]).mem.a =
      [0, 1, 2, 3, 4, 5, 6, 7, 8, 9, 10, 11, 12, 13, 14, 15] ∧
    (runSchedule 8 (startSort [15, 14, 13, 12, 11, 10, 9, 8, 7, 6, 5, 4, 3, 2, 1, 0])
      [0, 0, 1, 1, 3, 4, 2, 3, 4, 2, 5, 6, 7, 8, 9, 10, 3, 4, 1, 2, 0]).mem.activeThreads
      = 0 ∧
    ((runSchedule 8 (startSort [15, 14, 13, 12, 11, 10, 9, 8, 7, 6, 5, 4, 3, 2, 1, 0])
      [0, 0, 1, 1, 3, 4, 2, 3, 4, 2, 5, 6, 7, 8, 9, 10, 3, 4, 1, 2, 0]).threads.all
      (fun th => decide (th.pc = Pc.finished))) = true ∧
    (runSchedule 8 (startSort [4, 3, 2, 1]) [0, 0, 1, 1, 3, 4, 1, 2, 2, 5, 6, 2, 0]).mem.a =
      (sort 8 (initState [4, 3, 2, 1])).a ∧
    (runSchedule 8 (startSort [4, 3, 2, 1])
      [0, 0, 1, 1, 3, 4, 1, 2, 2, 5, 6, 2, 0]).mem.activeThreads = 0 := by
  decide

end BitonicSort
